import Mathlib

/-!
Bulk image export: naming and grouping.

A shallow embedding of `src/export-modal.js`: the naming functions (`safeName`,
`extensionFromMime`, `chooseFileName`), the position comparator and `sortByPosition`,
the grouping function `buildExportList`, and the run `runExport`.

Modelling conventions.

* A JavaScript string is a Lean `String`; the functions below work on its list of characters.
* Board coordinates are integers (`Int`) in the items of the model, on which the subtractions
  and comparisons of the comparators are exact; an absent coordinate is `none`. The two
  comparators are also given on the coordinates of any ordered field (`comparePositions`,
  `compareFramePositions`), where a coordinate may be fractional, and the integer comparators
  are shown to be their restriction.
* `undefined` and `null` are `none`.
* `String.prototype.toLowerCase` is a parameter of the model (`CaseMapping`); where a proof
  needs a property of it, the property is a hypothesis (`CaseMapping.Regular`).
* The `while` loop of `chooseFileName` runs under a bound on its number of tests (`fuel`).
* `Array.prototype.sort` is a stable sort whose result the language fixes only for a comparator
  that is consistent on the elements of the list. `jsSort`, a stable insertion sort that reads
  the comparator only through the sign of its result, is that result. The position comparators
  are not consistent on every list (three items can compare in a cycle), and there the engine
  may return another rearrangement than `jsSort`; the statements that cover such lists are made
  for every sort function (`SortFunction`, `buildExportListBy`, `runExportBy`), of which
  `jsSort` is one (`insertionSortFunction`).
* The pauses between calls (`delay`) carry no data and are left out.
* The collaborators of a run (selection, container lookup, content fetches, the toggle, the
  archive generation) are the fields of `Host`; a run returns its `setProgress` calls, its calls
  to the collaborators, its `zip.file(path, blob)` calls and its outcome.
-/

namespace BulkImageExport

/-! ## Strings -/

/-- White space and line terminators removed by `String.prototype.trim`
(code points, as listed by ECMA-262). -/
def isTrimSpace (c : Char) : Bool :=
  decide (c.toNat ∈ [9, 10, 11, 12, 13, 32, 160, 5760, 8232, 8233, 8239, 8287, 12288, 65279])
    || (decide (8192 ≤ c.toNat) && decide (c.toNat ≤ 8202))

/-- `String.prototype.trim` on a list of characters. -/
def trimChars (cs : List Char) : List Char :=
  ((cs.dropWhile isTrimSpace).reverse.dropWhile isTrimSpace).reverse

/-- `s.trim()`. -/
def jsTrim (s : String) : String := ⟨trimChars s.data⟩

/-- The character class of the regular expression in `safeName`. -/
def illegalChars : List Char := ['/', '\\', '?', '%', '*', ':', '|', '"', '<', '>']

/-- `safeName(name)`: replace every illegal character by `_`, trim, and fall back to
`unnamed` when nothing is left. -/
def safeName (name : String) : String :=
  let replaced : String := ⟨name.data.map fun c => if c ∈ illegalChars then '_' else c⟩
  let trimmed := jsTrim replaced
  if trimmed = "" then "unnamed" else trimmed

/-- The case mapping behind `toLowerCase`: the lower-case image of one character, given the
characters before it and the characters after it. -/
structure CaseMapping where
  lowerAt : List Char → Char → List Char → List Char

/-- Lower-case the characters `cs` that follow the already seen characters `pre`. -/
def CaseMapping.lowerFrom (cm : CaseMapping) : List Char → List Char → List Char
  | _, [] => []
  | pre, c :: rest => cm.lowerAt pre c rest ++ cm.lowerFrom (pre ++ [c]) rest

/-- `s.toLowerCase()`. -/
def toLowerCase (cm : CaseMapping) (s : String) : String := ⟨cm.lowerFrom [] s.data⟩

/-- What the proofs need of a case mapping: the number of characters a character maps to does
not depend on its context, and decimal digits and the hyphen map to themselves. -/
structure CaseMapping.Regular (cm : CaseMapping) : Prop where
  width : ∀ (p q p' q' : List Char) (c : Char),
    (cm.lowerAt p c q).length = (cm.lowerAt p' c q').length
  fixed : ∀ (p q : List Char) (c : Char), c.isDigit = true ∨ c = '-' → cm.lowerAt p c q = [c]

/-- The case mapping that lowers the letters `A`..`Z` and keeps every other character. -/
def asciiLower : CaseMapping := ⟨fun _ c _ => [c.toLower]⟩

/-- `extensionFromMime(mime)`; an absent `mime` is `none`. -/
def extensionFromMime (cm : CaseMapping) (mime : Option String) : String :=
  match mime with
  | none => ".png"
  | some m =>
    if m = "" ∨ ¬ ("image/".data <+: m.data) then ".png"
    else
      let subtype := toLowerCase cm ⟨m.data.drop 6⟩
      if subtype = "jpeg" then ".jpg" else "." ++ subtype

/-- `s.padStart(targetLength, fill)` for a one-character `fill`. -/
def padStart (s : String) (targetLength : Nat) (fill : Char) : String :=
  ⟨List.replicate (targetLength - s.length) fill ++ s.data⟩

/-- The numeric file name `image-NNN` followed by the extension. -/
def numericName (indexInFolder : Nat) (ext : String) : String :=
  "image-" ++ padStart (toString indexInFolder) 3 '0' ++ ext

/-! ## Items, the position comparator and sorting -/

/-- A selected board item; `title`, `parentId`, `x` and `y` may be absent. -/
structure Item where
  id : String
  type : String
  title : Option String
  parentId : Option String
  x : Option Int
  y : Option Int
deriving DecidableEq, Repr

/-- The comparator passed to `sort` in `sortByPosition`, on integer coordinates; on fractional
coordinates it is `comparePositions`. -/
def comparePosition (a b : Item) : Int :=
  let yA := a.y.getD 0
  let yB := b.y.getD 0
  if |yA - yB| > 1 then yA - yB else a.x.getD 0 - b.x.getD 0

/-- `Array.prototype.sort(compare)` on a copy of the list, as a stable insertion sort, in which
an element moves in front of the elements it does not compare greater than. This is the list
that every engine returns when `compare` is consistent on the elements of the list; for other
comparators the engine's result is only known to be a rearrangement (`SortFunction`). -/
def jsSort {α : Type} (compare : α → α → Int) (l : List α) : List α :=
  l.insertionSort fun a b => compare a b ≤ 0

/-- `sortByPosition(items)`. -/
def sortByPosition (items : List Item) : List Item :=
  jsSort comparePosition items

/-! ## JavaScript maps -/

/-- `m.get(k)` on a `Map` given as the list of its entries in insertion order. -/
def mapGet {κ ν : Type} [DecidableEq κ] (m : List (κ × ν)) (k : κ) : Option ν :=
  (m.find? fun e => decide (e.1 = k)).map Prod.snd

/-- `m.has(k)`. -/
def mapHas {κ ν : Type} [DecidableEq κ] (m : List (κ × ν)) (k : κ) : Bool :=
  m.any fun e => decide (e.1 = k)

/-- `m.set(k, v)`: an existing key keeps its place, a new key goes to the end. -/
def mapSet {κ ν : Type} [DecidableEq κ] (m : List (κ × ν)) (k : κ) (v : ν) : List (κ × ν) :=
  if mapHas m k then m.map fun e => if e.1 = k then (k, v) else e else m ++ [(k, v)]

/-- `[...m.keys()]`. -/
def mapKeys {κ ν : Type} (m : List (κ × ν)) : List κ := m.map Prod.fst

/-! ## Grouping -/

/-- What `miro.board.getById` returns for a container. -/
structure FrameData where
  title : Option String
  x : Option Int
  y : Option Int
deriving DecidableEq, Repr

/-- An element of `framesWithPosition`. -/
structure FrameEntry where
  id : String
  name : Option String
  x : Int
  y : Int
deriving DecidableEq, Repr

/-- An element of the export list. -/
structure ExportEntry where
  image : Item
  folderName : String
  indexInFolder : Nat
deriving DecidableEq, Repr

/-- The body of the first loop of `buildExportList`: file `img` under its parent id, with the
key `none` for an image without a parent. -/
def groupStep (byParent : List (Option String × List Item)) (img : Item) :
    List (Option String × List Item) :=
  let parentId := img.parentId
  let byParent := if mapHas byParent parentId then byParent else mapSet byParent parentId []
  mapSet byParent parentId ((mapGet byParent parentId).getD [] ++ [img])

/-- The first loop of `buildExportList`: the map `byParent`, which starts with the key `none`
and an empty list. -/
def groupByParent (images : List Item) : List (Option String × List Item) :=
  images.foldl groupStep [(none, [])]

/-- `title ? safeName(title) : null` for an optional, already trimmed title. -/
def nameOfTitle (title : Option String) : Option String :=
  match title with
  | some t => if t ≠ "" then some (safeName t) else none
  | none => none

/-- The body of the second loop of `buildExportList` for one parent id; `getById id` is
`.error _` when the lookup throws and `.ok none` when it returns no object. -/
def resolveFrame (getById : String → Except String (Option FrameData)) (id : String) :
    FrameEntry :=
  match getById id with
  | .ok frame =>
    let title := (frame.bind fun f => f.title).map jsTrim
    let name := nameOfTitle title
    { id := id, name := name, x := (frame.bind fun f => f.x).getD 0,
      y := (frame.bind fun f => f.y).getD 0 }
  | .error _ => { id := id, name := none, x := 0, y := 0 }

/-- The comparator passed to `framesWithPosition.sort`, on integer coordinates; on fractional
coordinates it is `compareFramePositions`. -/
def compareFrames (a b : FrameEntry) : Int :=
  if |a.y - b.y| > 1 then a.y - b.y else a.x - b.x

/-- The keys of `byParent` that are truthy: neither `null` nor the empty string. -/
def truthyKeys (keys : List (Option String)) : List String :=
  keys.filterMap fun k =>
    match k with
    | some s => if s ≠ "" then some s else none
    | none => none

/-- The list `framesWithPosition` as the second loop leaves it, before it is sorted: one entry
for each truthy key of `byParent`, in the order of the keys. -/
def resolvedFrames (getById : String → Except String (Option FrameData))
    (images : List Item) : List FrameEntry :=
  (truthyKeys (mapKeys (groupByParent images))).map (resolveFrame getById)

/-- The list `framesWithPosition` after `framesWithPosition.sort`. -/
def framesWithPosition (getById : String → Except String (Option FrameData))
    (images : List Item) : List FrameEntry :=
  jsSort compareFrames (resolvedFrames getById images)

/-- The name given to the frame `f` at position `i` (from 0) of the sorted list: its own name,
or `Frame` followed by `i + 1`. -/
def displayName (i : Nat) (f : FrameEntry) : String :=
  f.name.getD ("Frame " ++ toString (i + 1))

/-- The map `frameNames` filled by `framesWithPosition.forEach`. -/
def frameNames (frames : List FrameEntry) : List (String × String) :=
  frames.enum.foldl (fun m p => mapSet m p.2.id (displayName p.1 p.2)) []

/-- The entries pushed for one folder: the images in order, numbered from 1. -/
def folderEntries (folderName : String) (imgs : List Item) : List ExportEntry :=
  imgs.enum.map fun p => { image := p.2, folderName := folderName, indexInFolder := p.1 + 1 }

/-- `buildExportList(images)`, with the container lookup `getById` as a parameter. -/
def buildExportList (getById : String → Except String (Option FrameData))
    (images : List Item) : List ExportEntry :=
  let byParent := groupByParent images
  let frames := framesWithPosition getById images
  let names := frameNames frames
  let rootImages := sortByPosition ((mapGet byParent none).getD [])
  folderEntries "" rootImages ++
    frames.flatMap fun f =>
      let folderName := (mapGet names f.id).getD "Frame"
      let inFrame := sortByPosition ((mapGet byParent (some f.id)).getD [])
      folderEntries folderName inFrame

/-! ## File names -/

/-- The `while` loop of `chooseFileName`: starting from `candidate` and counter `n`, step to
the next candidate while the lower-cased candidate is in `used`. `fuel` bounds the number of
tests; `none` means the bound was reached. -/
def dedupLoop (cm : CaseMapping) (used : List String) (base ext : String) :
    Nat → Nat → String → Option String
  | 0, _, _ => none
  | fuel + 1, n, candidate =>
    if toLowerCase cm candidate ∈ used then
      dedupLoop cm used base ext fuel (n + 1) (base ++ "-" ++ toString (n + 1) ++ ext)
    else some candidate

/-- The set `used` of a folder: `usedNamesByFolder.get(folderName) ?? new Set()`. -/
def usedOf (usedNamesByFolder : List (String × List String)) (folderName : String) :
    List String :=
  (mapGet usedNamesByFolder folderName).getD []

/-- `chooseFileName(folderName, image, ext, indexInFolder)` inside `runExport`, with the
toggle `useImageNames` and the table `usedNamesByFolder` made explicit: the result is the file
name and the table after the call (`none` when the loop ran out of `fuel`). -/
def chooseFileName (cm : CaseMapping) (fuel : Nat) (useImageNames : Bool)
    (usedNamesByFolder : List (String × List String)) (folderName : String) (image : Item)
    (ext : String) (indexInFolder : Nat) : Option (String × List (String × List String)) :=
  let used := usedOf usedNamesByFolder folderName
  let table := mapSet usedNamesByFolder folderName used
  if useImageNames = false then some (numericName indexInFolder ext, table)
  else
    let baseFromTitle := image.title.map jsTrim
    match nameOfTitle baseFromTitle with
    | some base =>
      if base ≠ "" then
        match dedupLoop cm used base ext fuel 1 (base ++ ext) with
        | some candidate =>
          let lowered := toLowerCase cm candidate
          let used := if lowered ∈ used then used else used ++ [lowered]
          some (candidate, mapSet table folderName used)
        | none => none
      else some (numericName indexInFolder ext, table)
    | none => some (numericName indexInFolder ext, table)

/-- The arguments of one call of `chooseFileName`. -/
structure NameCall where
  folderName : String
  image : Item
  ext : String
  indexInFolder : Nat

/-- Consecutive calls of `chooseFileName`, as made by the loop of `runExport`: the table left
by one call is the table the next call starts from. The result lists the names in call order. -/
def chooseFileNames (cm : CaseMapping) (fuel : Nat) (useImageNames : Bool) :
    List (String × List String) → List NameCall → Option (List String × List (String × List String))
  | table, [] => some ([], table)
  | table, c :: rest =>
    match chooseFileName cm fuel useImageNames table c.folderName c.image c.ext c.indexInFolder with
    | some (name, table') =>
      match chooseFileNames cm fuel useImageNames table' rest with
      | some (names, final) => some (name :: names, final)
      | none => none
    | none => none

/-! ## Vocabulary of the statements -/

/-- The number a list of decimal digits stands for. -/
def decimalValue (cs : List Char) : Nat :=
  cs.foldl (fun acc c => acc * 10 + (c.toNat - 48)) 0

/-- The number of characters the lower-cased form of `cs` has under a regular case mapping. -/
def lowerWidth (cm : CaseMapping) (cs : List Char) : Nat :=
  (cs.map fun c => (cm.lowerAt [] c []).length).sum

/-- The name expected from the `k`-th call (counting from 1) for the same base and extension:
`base + ext` for the first call and `base-k` followed by `ext` for the later ones. -/
def nthName (base ext : String) (k : Nat) : String :=
  if k ≤ 1 then base ++ ext else base ++ "-" ++ toString k ++ ext

/-- The names expected from `n` consecutive calls with the same base and extension. -/
def expectedNames (base ext : String) (n : Nat) : List String :=
  (List.range n).map fun i => nthName base ext (i + 1)

/-- Two images titled `Diagram` in the root folder, both with extension `.png`. -/
def diagramCalls : List NameCall :=
  [ { folderName := "", ext := ".png", indexInFolder := 1,
      image := ⟨"img-1", "image", some "Diagram", none, some 0, some 0⟩ },
    { folderName := "", ext := ".png", indexInFolder := 2,
      image := ⟨"img-2", "image", some "Diagram", none, some 40, some 0⟩ } ]

/-- An untitled image followed, in the same folder, by an image titled `image-001`. -/
def clashCalls : List NameCall :=
  [ { folderName := "", ext := ".png", indexInFolder := 1,
      image := ⟨"img-1", "image", none, none, some 0, some 0⟩ },
    { folderName := "", ext := ".png", indexInFolder := 2,
      image := ⟨"img-2", "image", some "image-001", none, some 40, some 0⟩ } ]

/-- Three items on three neighbouring rows, each further left than the one above it. -/
def cycleItems : List Item :=
  [ ⟨"a", "image", none, none, some 2, some 0⟩,
    ⟨"b", "image", none, none, some 1, some 1⟩,
    ⟨"c", "image", none, none, some 0, some 2⟩ ]

/-- Two different images at the same position, without a parent. -/
def tiedItems : List Item :=
  [ ⟨"a", "image", none, none, some 0, some 0⟩,
    ⟨"b", "image", none, none, some 0, some 0⟩ ]

/-- A container lookup that finds no container. -/
def noFrames : String → Except String (Option FrameData) :=
  fun _ => .ok none

/-- A board with the titled container `F1`, the untitled container `F2` to its right, and a
container `F3` whose lookup fails. -/
def sampleBoard : String → Except String (Option FrameData)
  | "F1" => .ok (some ⟨some " Sprint Plan ", some 0, some 0⟩)
  | "F2" => .ok (some ⟨none, some 500, some 0⟩)
  | "F3" => .error "not found"
  | _ => .ok none

/-- Four images: two in `F1` on one row, one in `F2`, one without a parent. -/
def sampleImages : List Item :=
  [ ⟨"i1", "image", none, some "F1", some 30, some 0⟩,
    ⟨"i2", "image", none, some "F2", some 510, some 0⟩,
    ⟨"i3", "image", none, some "F1", some 10, some 0⟩,
    ⟨"i4", "image", none, none, some 0, some 100⟩ ]

/-! ## The export run -/

/-- A binary payload: its reported content type and its bytes (an opaque text here). -/
structure Blob where
  type : String
  content : String
deriving DecidableEq, Repr

/-- The collaborators of `runExport`. An `Except` value is `.error message` when the call throws
an error with that message. `fetchBlob url` stands for `fetch(url)` followed by `res.blob()`;
`useNamesToggle` is the `checked` state of the toggle element, `none` when the element is
missing; `generateError` is the error of `zip.generateAsync`, `none` when it succeeds. -/
structure Host where
  getSelection : Except String (List Item)
  getById : String → Except String (Option FrameData)
  getFile : Item → Except String Blob
  getDataUrl : Item → Except String String
  fetchBlob : String → Except String Blob
  useNamesToggle : Option Bool
  generateError : Option String
  caseMapping : CaseMapping

/-- The calls made in the course of a run, in the order in which they are made. -/
inductive Event where
  | getSelection
  | buildExportList (images : List Item)
  | getById (id : String)
  | getFile (image : Item)
  | getDataUrl (image : Item)
  | fetch (dataUrl : String)
  | generateAsync
deriving DecidableEq, Repr

/-- How a run ends: the no-images message, the finished archive with the final message, the
message of a caught error, or the bound on the loop of `chooseFileName` was reached. -/
inductive Outcome where
  | noImages (message : String)
  | done (message : String) (zipBlob : List (String × Blob))
  | failed (message : String)
  | loopBound
deriving DecidableEq, Repr

/-- The state of a run: the `setProgress` calls so far, the calls to the collaborators so far,
the `zip.file(path, blob)` calls so far, and the table of used names. -/
structure RunState where
  progress : List (ℚ × String)
  trace : List Event
  zip : List (String × Blob)
  usedNamesByFolder : List (String × List String)

/-- How the loop over the export list ends. -/
inductive LoopEnd where
  | completed
  | thrown (message : String)
  | bound
deriving DecidableEq, Repr

/-- What a run leaves behind. -/
structure RunResult where
  progress : List (ℚ × String)
  trace : List Event
  zip : List (String × Blob)
  outcome : Outcome

/-- The `try`/`catch` that resolves the content of one image: the original file, and only when
that throws, the data URL fetched as a blob. The calls made are returned with the result. -/
def resolveBlob (host : Host) (image : Item) : List Event × Except String Blob :=
  match host.getFile image with
  | .ok file => ([Event.getFile image], .ok file)
  | .error _ =>
    match host.getDataUrl image with
    | .error e => ([Event.getFile image, Event.getDataUrl image], .error e)
    | .ok dataUrl =>
      match host.fetchBlob dataUrl with
      | .error e =>
        ([Event.getFile image, Event.getDataUrl image, Event.fetch dataUrl], .error e)
      | .ok blob =>
        ([Event.getFile image, Event.getDataUrl image, Event.fetch dataUrl], .ok blob)

/-- `blob.type ? extensionFromMime(blob.type) : '.png'`. -/
def extensionOfBlob (cm : CaseMapping) (blob : Blob) : String :=
  if blob.type ≠ "" then extensionFromMime cm (some blob.type) else ".png"

/-- `folderName ? folderName + '/' + fileName : fileName`. -/
def zipPathOf (folderName fileName : String) : String :=
  if folderName ≠ "" then folderName ++ "/" ++ fileName else fileName

/-- The percentage reported after the entry with index `i` (from 0) out of `total`. -/
def progressAfter (i total : Nat) : ℚ :=
  10 + (80 * ((i : ℚ) + 1)) / (total : ℚ)

/-- The `for` loop of `runExport` from index `i` on, over the entries that are left. -/
def exportLoop (host : Host) (fuel : Nat) (useImageNames : Bool) (total : Nat) :
    Nat → List ExportEntry → RunState → RunState × LoopEnd
  | _, [], st => (st, LoopEnd.completed)
  | i, entry :: rest, st =>
    match resolveBlob host entry.image with
    | (calls, .error message) =>
      ({ st with trace := st.trace ++ calls }, LoopEnd.thrown message)
    | (calls, .ok blob) =>
      let ext := extensionOfBlob host.caseMapping blob
      match chooseFileName host.caseMapping fuel useImageNames st.usedNamesByFolder
          entry.folderName entry.image ext entry.indexInFolder with
      | none => ({ st with trace := st.trace ++ calls }, LoopEnd.bound)
      | some (fileName, table) =>
        let zipPath := zipPathOf entry.folderName fileName
        exportLoop host fuel useImageNames total (i + 1) rest
          { progress := st.progress ++
              [(progressAfter i total,
                "Exporting " ++ toString (i + 1) ++ " / " ++ toString total ++ "…")],
            trace := st.trace ++ calls,
            zip := st.zip ++ [(zipPath, blob)],
            usedNamesByFolder := table }

/-- The message shown for a caught error: `err.message || 'Export failed. Try again.'`. -/
def errorMessage (message : String) : String :=
  if message ≠ "" then message else "Export failed. Try again."

/-- The message of the failure for a selection without images. -/
def noImagesMessage : String :=
  "No images selected. Select one or more image items on the board, then try Export again."

/-- `runExport()`: the selection is read and filtered to images, the images are grouped, every
entry of the export list is resolved, named and put into the archive, and the archive is
generated. `fuel` bounds the loop of `chooseFileName`. -/
def runExport (host : Host) (fuel : Nat) : RunResult :=
  let start : List (ℚ × String) := [(0, "Getting selection…")]
  match host.getSelection with
  | .error message =>
    { progress := start, trace := [Event.getSelection], zip := [],
      outcome := Outcome.failed (errorMessage message) }
  | .ok selection =>
    let images := selection.filter fun item => decide (item.type = "image")
    if images.length = 0 then
      { progress := start, trace := [Event.getSelection], zip := [],
        outcome := Outcome.noImages noImagesMessage }
    else
      let found : ℚ × String :=
        (5, "Found " ++ toString images.length ++ " image(s). Resolving frames…")
      let exportList := buildExportList host.getById images
      let total := exportList.length
      let useImageNames := host.useNamesToggle.getD true
      let st : RunState :=
        { progress := start ++ [found],
          trace := [Event.getSelection, Event.buildExportList images] ++
            (truthyKeys (mapKeys (groupByParent images))).map Event.getById,
          zip := [], usedNamesByFolder := [] }
      match exportLoop host fuel useImageNames total 0 exportList st with
      | (st', LoopEnd.thrown message) =>
        { progress := st'.progress, trace := st'.trace, zip := st'.zip,
          outcome := Outcome.failed (errorMessage message) }
      | (st', LoopEnd.bound) =>
        { progress := st'.progress, trace := st'.trace, zip := st'.zip,
          outcome := Outcome.loopBound }
      | (st', LoopEnd.completed) =>
        let creating : ℚ × String := (95, "Creating ZIP…")
        match host.generateError with
        | some message =>
          { progress := st'.progress ++ [creating],
            trace := st'.trace ++ [Event.generateAsync], zip := st'.zip,
            outcome := Outcome.failed (errorMessage message) }
        | none =>
          { progress := st'.progress ++
              [creating, (100, "Done. " ++ toString total ++ " image(s) in ZIP.")],
            trace := st'.trace ++ [Event.generateAsync], zip := st'.zip,
            outcome := Outcome.done
              ("Exported " ++ toString total ++ " image(s). Click Download ZIP to save.")
              st'.zip }

/-- The percentages of a list of `setProgress` calls. -/
def percentages (progress : List (ℚ × String)) : List ℚ := progress.map Prod.fst

/-- The paths of a list of `zip.file` calls. -/
def zipPaths (zip : List (String × Blob)) : List String := zip.map Prod.fst

/-- The container lookup in which the ids selected by `failing` resolve to an untitled
container at the coordinates (0, 0) and every other id resolves as before. -/
def treatAsUntitled (failing : String → Bool)
    (getById : String → Except String (Option FrameData)) :
    String → Except String (Option FrameData) :=
  fun id => if failing id then .ok (some ⟨none, some 0, some 0⟩) else getById id

/-- One image whose parent id is the empty string. -/
def emptyParentItems : List Item :=
  [ ⟨"i1", "image", none, some "", some 0, some 0⟩ ]

/-- A board with two untitled containers at the same coordinates. -/
def twinBoard : String → Except String (Option FrameData)
  | "F1" => .ok (some ⟨none, some 0, some 0⟩)
  | "F2" => .ok (some ⟨some "  ", some 0, some 0⟩)
  | _ => .error "not found"

/-- One image in each of the containers `F1` and `F2`. -/
def twinImages : List Item :=
  [ ⟨"i1", "image", none, some "F1", some 10, some 10⟩,
    ⟨"i2", "image", none, some "F2", some 20, some 10⟩ ]

/-- A board with two containers whose different titles sanitize to the same name. -/
def mergeBoard : String → Except String (Option FrameData)
  | "F1" => .ok (some ⟨some "Q1/Q2", some 0, some 0⟩)
  | "F2" => .ok (some ⟨some "Q1:Q2", some 900, some 0⟩)
  | _ => .error "not found"

/-- The percentages of a run over `total` entries that completes: 0, 5, one value for each
entry, 95 and 100. -/
def expectedPercentages (total : Nat) : List ℚ :=
  [0, 5] ++ (List.range total).map (fun i => progressAfter i total) ++ [95, 100]

/-- The items of a selection that `runExport` keeps. -/
def imagesOf (selection : List Item) : List Item :=
  selection.filter fun item => decide (item.type = "image")

/-- The calls that fetch content: `getFile`, `getDataUrl` and `fetch`. -/
def Event.isContent : Event → Bool
  | Event.getFile _ => true
  | Event.getDataUrl _ => true
  | Event.fetch _ => true
  | _ => false

/-- The blob that `resolveBlob` yields for an image, `none` when it throws. -/
def resolvedBlob (host : Host) (image : Item) : Option Blob :=
  match (resolveBlob host image).2 with
  | .ok blob => some blob
  | .error _ => none

/-- A host for the sample images whose selection also holds a sticky note: every image has an
original file of type `image/png`, the title toggle is off. -/
def sampleHost : Host :=
  { getSelection := .ok (sampleImages ++ [⟨"s1", "sticky_note", none, none, none, none⟩]),
    getById := sampleBoard,
    getFile := fun img => .ok ⟨"image/png", img.id⟩,
    getDataUrl := fun img => .ok ("data:" ++ img.id),
    fetchBlob := fun url => .ok ⟨"image/png", url⟩,
    useNamesToggle := some false,
    generateError := none,
    caseMapping := asciiLower }

/-- A host whose selection holds a sticky note and a shape, and no image. -/
def noImageHost : Host :=
  { sampleHost with
    getSelection := .ok [⟨"s1", "sticky_note", none, none, none, none⟩,
      ⟨"s2", "shape", some "box", none, some 0, some 0⟩] }

/-- The state in which `runExport` enters its loop, for the images kept from the selection. -/
def initialState (images : List Item) : RunState :=
  { progress := [(0, "Getting selection…")] ++
      [(5, "Found " ++ toString images.length ++ " image(s). Resolving frames…")],
    trace := [Event.getSelection, Event.buildExportList images] ++
      (truthyKeys (mapKeys (groupByParent images))).map Event.getById,
    zip := [], usedNamesByFolder := [] }

/-- A host for the sample images in which the image `i1` has neither an original file nor a
data URL, and the image `i3` has no original file but a data URL; the title toggle is on. -/
def failingHost : Host :=
  { sampleHost with
    getFile := fun img =>
      if img.id = "i1" ∨ img.id = "i3" then .error "no file" else .ok ⟨"image/png", img.id⟩,
    getDataUrl := fun img =>
      if img.id = "i1" then .error "no data url" else .ok ("data:" ++ img.id),
    useNamesToggle := some true }

/-- A host with one selected image without a parent whose original file reports the content
type `image/a/b`. -/
def slashHost : Host :=
  { sampleHost with
    getSelection := .ok [⟨"i1", "image", none, none, some 0, some 0⟩],
    getFile := fun img => .ok ⟨"image/a/b", img.id⟩ }

/-- The board of the end-to-end scenario: the container `F1` titled `Sprint Plan` at `y = 0`. -/
def scenarioBoard : String → Except String (Option FrameData)
  | "F1" => .ok (some ⟨some "Sprint Plan", some 0, some 0⟩)
  | _ => .error "not found"

/-- The images of the end-to-end scenario: two in `F1` on one row with different `x`, and one
without a parent at `y = 100`. -/
def scenarioImages : List Item :=
  [ ⟨"right", "image", some "Right", some "F1", some 300, some 20⟩,
    ⟨"left", "image", some "Left", some "F1", some 100, some 20⟩,
    ⟨"free", "image", none, none, some 50, some 100⟩ ]

/-- The host of the end-to-end scenario: every image has an original file of type `image/png`,
the title toggle is off. -/
def scenarioHost : Host :=
  { getSelection := .ok scenarioImages,
    getById := scenarioBoard,
    getFile := fun img => .ok ⟨"image/png", img.id⟩,
    getDataUrl := fun _ => .error "no data url",
    fetchBlob := fun _ => .error "no network",
    useNamesToggle := some false,
    generateError := none,
    caseMapping := asciiLower }

/-- The paths of one folder in numeric naming mode for `count` images of type `image/png`. -/
def numericPaths (folderName : String) (count : Nat) : List String :=
  (List.range count).map fun j => zipPathOf folderName (numericName (j + 1) ".png")

/-- One image in each of the two containers of `mergeBoard`. -/
def mergeImages : List Item :=
  [ ⟨"i1", "image", none, some "F1", some 10, some 10⟩,
    ⟨"i2", "image", none, some "F2", some 910, some 10⟩ ]

/-- A host for `mergeBoard` and `mergeImages`: every image has an original file of type
`image/png`, the title toggle is off. -/
def mergeHost : Host :=
  { sampleHost with getSelection := .ok mergeImages, getById := mergeBoard }

/-- A case mapping that lowers the letters `A`..`Z` and keeps every other character below
128, whatever the context. -/
structure CaseMapping.LowersAscii (cm : CaseMapping) : Prop where
  lowers : ∀ (p q : List Char) (c : Char), c.toNat < 128 → cm.lowerAt p c q = [c.toLower]

/-! ## The comparators on coordinates that need not be whole numbers -/

/-- The coordinates of a board item as numbers of an ordered field, in which the subtractions
of the comparators are exact; an absent coordinate is `none`. -/
structure Position (K : Type) where
  x : Option K
  y : Option K

/-- The comparator of `sortByPosition` on coordinates of any ordered field. -/
def comparePositions {K : Type} [LinearOrderedField K] (a b : Position K) : K :=
  let yA := a.y.getD 0
  let yB := b.y.getD 0
  if |yA - yB| > 1 then yA - yB else a.x.getD 0 - b.x.getD 0

/-- The coordinates of an entry of `framesWithPosition`, where the absent ones are 0 already. -/
structure FramePosition (K : Type) where
  x : K
  y : K

/-- The comparator of `framesWithPosition.sort` on coordinates of any ordered field. -/
def compareFramePositions {K : Type} [LinearOrderedField K] (a b : FramePosition K) : K :=
  if |a.y - b.y| > 1 then a.y - b.y else a.x - b.x

/-- The coordinates of an item of the integer model, read in the field `K`. -/
def Item.position (K : Type) [LinearOrderedField K] (a : Item) : Position K :=
  { x := a.x.map fun v => (v : K), y := a.y.map fun v => (v : K) }

/-- The coordinates of a resolved container of the integer model, read in the field `K`. -/
def FrameEntry.position (K : Type) [LinearOrderedField K] (f : FrameEntry) : FramePosition K :=
  { x := (f.x : K), y := (f.y : K) }

/-! ## Grouping with any sort function -/

/-- A function in the role of `Array.prototype.sort`: for every element type, a comparator and
a list give a list. The engine's sort is one such function; which one is not fixed by the
source. -/
abbrev SortFunction : Type 1 := (α : Type) → (α → α → Int) → List α → List α

/-- What every engine's sort does, whatever the comparator: it rearranges the list. -/
def SortFunction.Permutes (sort : SortFunction) : Prop :=
  ∀ (α : Type) (compare : α → α → Int) (l : List α), (sort α compare l).Perm l

/-- The insertion sort `jsSort` as a sort function. -/
def insertionSortFunction : SortFunction := fun _ compare l => jsSort compare l

/-- `sortByPosition(items)` with the sort function `sort`. -/
def sortByPositionBy (sort : SortFunction) (items : List Item) : List Item :=
  sort Item comparePosition items

/-- The list `framesWithPosition` after `framesWithPosition.sort`, with the sort function
`sort`. -/
def framesWithPositionBy (sort : SortFunction)
    (getById : String → Except String (Option FrameData)) (images : List Item) :
    List FrameEntry :=
  sort FrameEntry compareFrames (resolvedFrames getById images)

/-- `buildExportList(images)` with the sort function `sort` and the container lookup
`getById`. -/
def buildExportListBy (sort : SortFunction)
    (getById : String → Except String (Option FrameData)) (images : List Item) :
    List ExportEntry :=
  let byParent := groupByParent images
  let frames := framesWithPositionBy sort getById images
  let names := frameNames frames
  let rootImages := sortByPositionBy sort ((mapGet byParent none).getD [])
  folderEntries "" rootImages ++
    frames.flatMap fun f =>
      let folderName := (mapGet names f.id).getD "Frame"
      let inFrame := sortByPositionBy sort ((mapGet byParent (some f.id)).getD [])
      folderEntries folderName inFrame

/-- What the language guarantees of the engine's sort when the comparator is consistent on the
elements of the list (here: swapping the arguments negates the result, and "not after" is
transitive): the result is in ascending order. Nothing is guaranteed for other comparators. -/
def SortFunction.SortsConsistent (sort : SortFunction) : Prop :=
  ∀ (α : Type) (compare : α → α → Int) (l : List α),
    (∀ a ∈ l, ∀ b ∈ l, compare b a = -compare a b) →
    (∀ a ∈ l, ∀ b ∈ l, ∀ c ∈ l, compare a b ≤ 0 → compare b c ≤ 0 → compare a c ≤ 0) →
    (sort α compare l).Pairwise fun x y => compare x y ≤ 0

/-! ## The run with any grouping and any sort function -/

/-- `runExport()` with the call `await buildExportList(images)` as a parameter: `grouper images`
gives the calls to the board made by that call and the export list that it returns. The rest is
the body of `runExport`. -/
def runExportWith (grouper : List Item → List Event × List ExportEntry) (host : Host)
    (fuel : Nat) : RunResult :=
  let start : List (ℚ × String) := [(0, "Getting selection…")]
  match host.getSelection with
  | .error message =>
    { progress := start, trace := [Event.getSelection], zip := [],
      outcome := Outcome.failed (errorMessage message) }
  | .ok selection =>
    let images := selection.filter fun item => decide (item.type = "image")
    if images.length = 0 then
      { progress := start, trace := [Event.getSelection], zip := [],
        outcome := Outcome.noImages noImagesMessage }
    else
      let found : ℚ × String :=
        (5, "Found " ++ toString images.length ++ " image(s). Resolving frames…")
      let exportList := (grouper images).2
      let total := exportList.length
      let useImageNames := host.useNamesToggle.getD true
      let st : RunState :=
        { progress := start ++ [found],
          trace := [Event.getSelection, Event.buildExportList images] ++ (grouper images).1,
          zip := [], usedNamesByFolder := [] }
      match exportLoop host fuel useImageNames total 0 exportList st with
      | (st', LoopEnd.thrown message) =>
        { progress := st'.progress, trace := st'.trace, zip := st'.zip,
          outcome := Outcome.failed (errorMessage message) }
      | (st', LoopEnd.bound) =>
        { progress := st'.progress, trace := st'.trace, zip := st'.zip,
          outcome := Outcome.loopBound }
      | (st', LoopEnd.completed) =>
        let creating : ℚ × String := (95, "Creating ZIP…")
        match host.generateError with
        | some message =>
          { progress := st'.progress ++ [creating],
            trace := st'.trace ++ [Event.generateAsync], zip := st'.zip,
            outcome := Outcome.failed (errorMessage message) }
        | none =>
          { progress := st'.progress ++
              [creating, (100, "Done. " ++ toString total ++ " image(s) in ZIP.")],
            trace := st'.trace ++ [Event.generateAsync], zip := st'.zip,
            outcome := Outcome.done
              ("Exported " ++ toString total ++ " image(s). Click Download ZIP to save.")
              st'.zip }

/-- The call `buildExportList(images)` with the sort function `sort`: one `getById` call for each
parent id that is kept, and the export list. -/
def groupingBy (sort : SortFunction) (host : Host) (images : List Item) :
    List Event × List ExportEntry :=
  ((truthyKeys (mapKeys (groupByParent images))).map Event.getById,
    buildExportListBy sort host.getById images)

/-- `runExport()` with the sort function `sort`. -/
def runExportBy (sort : SortFunction) (host : Host) (fuel : Nat) : RunResult :=
  runExportWith (groupingBy sort host) host fuel

/-- The files of the archive after the `zip.file(path, blob)` calls of `zip`, in the order in
which their paths were first used: the archive holds one file for a path, and a later call with
the same path replaces the blob. The folder entries that the archive library adds are not
part of this list. -/
def archiveFiles (zip : List (String × Blob)) : List (String × Blob) :=
  zip.foldl (fun files call => mapSet files call.1 call.2) []

/-- The host with the selection replaced by `selection`. -/
def Host.withSelection (host : Host) (selection : List Item) : Host :=
  { host with getSelection := .ok selection }

end BulkImageExport

namespace BulkImageExport

/-! ## Naming: `safeName`, `extensionFromMime`, numeric names -/

theorem mem_trimChars {c : Char} {cs : List Char} (h : c ∈ trimChars cs) : c ∈ cs := by
  unfold trimChars at h
  rw [List.mem_reverse] at h
  have h1 := (List.dropWhile_sublist isTrimSpace).subset h
  rw [List.mem_reverse] at h1
  exact (List.dropWhile_sublist isTrimSpace).subset h1

theorem safeName_ne_empty (raw : String) : safeName raw ≠ "" := by
  unfold safeName
  simp only
  split
  · decide
  · assumption

theorem safeName_legal (raw : String) : ∀ c ∈ illegalChars, c ∉ (safeName raw).data := by
  intro c hc hmem
  unfold safeName at hmem
  simp only at hmem
  split at hmem
  · revert c; decide
  · have h1 := mem_trimChars hmem
    rw [List.mem_map] at h1
    obtain ⟨d, -, hd⟩ := h1
    split at hd
    · subst hd; revert hc; decide
    · subst hd; contradiction

/-- C1: for every string `raw`, `safeName raw` is not the empty string and contains none of
the ten characters `/ \ ? % * : | " < >`. -/
theorem safeName_nonempty_without_illegal (raw : String) :
    safeName raw ≠ "" ∧ ∀ c ∈ illegalChars, c ∉ (safeName raw).data :=
  ⟨safeName_ne_empty raw, safeName_legal raw⟩

theorem drop_image_prefix (sub : String) : (⟨("image/" ++ sub).data.drop 6⟩ : String) = sub := by
  cases sub with
  | mk cs => rfl

theorem digitChar_spec : ∀ d : Nat, d < 10 →
    (Nat.digitChar d).toNat - 48 = d ∧ (Nat.digitChar d).isDigit = true := by
  decide

theorem decimalValue_snoc (pre : List Char) (c : Char) :
    decimalValue (pre ++ [c]) = decimalValue pre * 10 + (c.toNat - 48) := by
  simp [decimalValue, List.foldl_append]

theorem toDigitsCore_spec : ∀ (fuel n : Nat) (ds : List Char), n < fuel →
    ∃ pre, Nat.toDigitsCore 10 fuel n ds = pre ++ ds ∧ pre ≠ [] ∧
      (∀ c ∈ pre, c.isDigit = true) ∧ decimalValue pre = n := by
  intro fuel
  induction fuel with
  | zero => intro n ds h; omega
  | succ fuel ih =>
    intro n ds h
    have hd := digitChar_spec (n % 10) (Nat.mod_lt _ (by decide))
    unfold Nat.toDigitsCore
    simp only
    split
    · rename_i h0
      refine ⟨[Nat.digitChar (n % 10)], rfl, by simp, ?_, ?_⟩
      · intro c hc
        rw [List.mem_singleton] at hc
        rw [hc]; exact hd.2
      · have : decimalValue [Nat.digitChar (n % 10)] = (Nat.digitChar (n % 10)).toNat - 48 := by
          simp [decimalValue]
        rw [this, hd.1]
        omega
    · rename_i h0
      obtain ⟨pre, hpre, -, hdig, hval⟩ := ih (n / 10) (Nat.digitChar (n % 10) :: ds) (by omega)
      refine ⟨pre ++ [Nat.digitChar (n % 10)], by rw [hpre]; simp, by simp, ?_, ?_⟩
      · intro c hc
        rw [List.mem_append, List.mem_singleton] at hc
        rcases hc with hc | hc
        · exact hdig c hc
        · rw [hc]; exact hd.2
      · rw [decimalValue_snoc, hval, hd.1]
        omega

theorem toString_data (n : Nat) :
    (toString n).data ≠ [] ∧ (∀ c ∈ (toString n).data, c.isDigit = true) ∧
      decimalValue (toString n).data = n := by
  obtain ⟨pre, hpre, hne, hdig, hval⟩ := toDigitsCore_spec (n + 1) n [] (Nat.lt_succ_self n)
  have h : (toString n).data = pre := by
    show (Nat.repr n).data = pre
    unfold Nat.repr Nat.toDigits
    rw [hpre]
    simp [List.asString]
  rw [h]
  exact ⟨hne, hdig, hval⟩

theorem toString_injective {i j : Nat} (h : toString i = toString j) : i = j := by
  have hi := (toString_data i).2.2
  rw [h, (toString_data j).2.2] at hi
  exact hi.symm

theorem decimalValue_zeros (k : Nat) (cs : List Char) :
    decimalValue (List.replicate k '0' ++ cs) = decimalValue cs := by
  have h : ∀ k : Nat, List.foldl (fun acc c => acc * 10 + (c.toNat - 48)) 0
      (List.replicate k '0') = 0 := by
    intro k
    induction k with
    | zero => rfl
    | succ k ih =>
      rw [List.replicate_succ', List.foldl_append, ih]
      rfl
  unfold decimalValue
  rw [List.foldl_append, h]

theorem padStart_injective {i j : Nat}
    (h : padStart (toString i) 3 '0' = padStart (toString j) 3 '0') : i = j := by
  have h1 : decimalValue (padStart (toString i) 3 '0').data = i := by
    unfold padStart
    rw [decimalValue_zeros]
    exact (toString_data i).2.2
  have h2 : decimalValue (padStart (toString j) 3 '0').data = j := by
    unfold padStart
    rw [decimalValue_zeros]
    exact (toString_data j).2.2
  rw [h, h2] at h1
  exact h1.symm

theorem numericName_injective {i j : Nat} {ext : String}
    (h : numericName i ext = numericName j ext) : i = j := by
  unfold numericName at h
  have h1 := congrArg String.data h
  simp only [String.data_append, List.append_assoc] at h1
  have h2 := List.append_cancel_right (List.append_cancel_left h1)
  exact padStart_injective (String.ext h2)

/-! ## Maps -/

section MapLemmas

variable {κ ν : Type} [DecidableEq κ]

theorem mapGet_nil (k : κ) : mapGet ([] : List (κ × ν)) k = none := rfl

theorem mapGet_cons (e : κ × ν) (m : List (κ × ν)) (k : κ) :
    mapGet (e :: m) k = if e.1 = k then some e.2 else mapGet m k := by
  unfold mapGet
  by_cases h : e.1 = k <;> simp [List.find?_cons, h]

theorem mapHas_cons (e : κ × ν) (m : List (κ × ν)) (k : κ) :
    mapHas (e :: m) k = (decide (e.1 = k) || mapHas m k) := by
  simp [mapHas]

theorem mapHas_eq_isSome (m : List (κ × ν)) (k : κ) : mapHas m k = (mapGet m k).isSome := by
  induction m with
  | nil => rfl
  | cons e m ih =>
    rw [mapHas_cons, mapGet_cons, ih]
    by_cases h : e.1 = k <;> simp [h]

theorem mapHas_iff_mem_keys (m : List (κ × ν)) (k : κ) : mapHas m k = true ↔ k ∈ mapKeys m := by
  induction m with
  | nil => simp [mapHas, mapKeys]
  | cons e m ih =>
    rw [mapHas_cons, Bool.or_eq_true, ih]
    simp [mapKeys, eq_comm]

theorem mapGet_replace (m : List (κ × ν)) (k : κ) (v : ν) (k' : κ) :
    mapGet (m.map fun e => if e.1 = k then (k, v) else e) k' =
      if k' = k then (if mapHas m k then some v else none) else mapGet m k' := by
  induction m with
  | nil => simp [mapGet, mapHas]
  | cons e m ih =>
    rw [List.map_cons, mapGet_cons, ih, mapHas_cons, mapGet_cons]
    by_cases h1 : e.1 = k
    · by_cases h2 : k' = k
      · simp [h1, h2]
      · have h3 : ¬ k = k' := fun h => h2 h.symm
        have h4 : ¬ e.1 = k' := fun h => h3 (h1 ▸ h)
        simp [h1, h2, h3, h4]
    · by_cases h2 : k' = k
      · subst h2
        simp [h1]
      · simp [h1, h2]

theorem mapGet_append_single (m : List (κ × ν)) (k : κ) (v : ν) (k' : κ) :
    mapGet (m ++ [(k, v)]) k' =
      if mapHas m k' then mapGet m k' else if k = k' then some v else none := by
  induction m with
  | nil => simp [mapGet_cons, mapGet_nil, mapHas]
  | cons e m ih =>
    rw [List.cons_append, mapGet_cons, ih, mapHas_cons, mapGet_cons]
    by_cases h1 : e.1 = k' <;> simp [h1]

theorem mapGet_mapSet (m : List (κ × ν)) (k : κ) (v : ν) (k' : κ) :
    mapGet (mapSet m k v) k' = if k' = k then some v else mapGet m k' := by
  unfold mapSet
  by_cases h : mapHas m k = true
  · rw [if_pos h, mapGet_replace]
    simp [h]
  · rw [if_neg h, mapGet_append_single]
    by_cases h2 : k' = k
    · subst h2
      simp [h]
    · have h3 : ¬ k = k' := fun h => h2 h.symm
      by_cases h4 : mapHas m k' = true
      · simp [h2, h4]
      · have h5 : mapGet m k' = none := by
          rw [mapHas_eq_isSome] at h4
          simpa using h4
        simp [h2, h3, h4, h5]

theorem mapKeys_mapSet (m : List (κ × ν)) (k : κ) (v : ν) :
    mapKeys (mapSet m k v) = if mapHas m k then mapKeys m else mapKeys m ++ [k] := by
  unfold mapSet
  by_cases h : mapHas m k = true
  · rw [if_pos h, if_pos h]
    unfold mapKeys
    rw [List.map_map]
    apply List.map_congr_left
    intro e _
    by_cases h1 : e.1 = k <;> simp [h1]
  · rw [if_neg h, if_neg h]
    simp [mapKeys]

end MapLemmas

theorem usedOf_mapSet (table : List (String × List String)) (f g : String) (u : List String) :
    usedOf (mapSet table f u) g = if g = f then u else usedOf table g := by
  unfold usedOf
  rw [mapGet_mapSet]
  by_cases h : g = f <;> simp [h]

theorem usedOf_mapSet_self (table : List (String × List String)) (f g : String) :
    usedOf (mapSet table f (usedOf table f)) g = usedOf table g := by
  rw [usedOf_mapSet]
  by_cases h : g = f
  · rw [if_pos h, h]
  · rw [if_neg h]

/-- C5: when the title toggle is off, or the image has no title, or its title is blank after
trimming, `chooseFileName` returns `image-` followed by the decimal index padded with zeros to
at least three digits and the extension, the used names of every folder are the same after the call as before, and with the
same extension a different index gives a different name. -/
theorem chooseFileName_numeric (cm : CaseMapping) (fuel : Nat) (useImageNames : Bool)
    (table : List (String × List String)) (folderName : String) (image : Item) (ext : String)
    (indexInFolder : Nat)
    (h : useImageNames = false ∨ ∀ t, image.title = some t → jsTrim t = "") :
    (∃ table', chooseFileName cm fuel useImageNames table folderName image ext indexInFolder =
        some ("image-" ++ padStart (toString indexInFolder) 3 '0' ++ ext, table') ∧
      ∀ g, usedOf table' g = usedOf table g) ∧
    3 ≤ (padStart (toString indexInFolder) 3 '0').length ∧
    decimalValue (padStart (toString indexInFolder) 3 '0').data = indexInFolder ∧
    ∀ j, j ≠ indexInFolder →
      "image-" ++ padStart (toString j) 3 '0' ++ ext ≠
        "image-" ++ padStart (toString indexInFolder) 3 '0' ++ ext := by
  refine ⟨⟨mapSet table folderName (usedOf table folderName), ?_, usedOf_mapSet_self table _⟩,
    ?_, ?_, ?_⟩
  rotate_left
  · show 3 ≤ (List.replicate (3 - (toString indexInFolder).length) '0' ++
      (toString indexInFolder).data).length
    rw [List.length_append, List.length_replicate]
    show 3 ≤ 3 - (toString indexInFolder).data.length + (toString indexInFolder).data.length
    omega
  · unfold padStart
    rw [decimalValue_zeros]
    exact (toString_data indexInFolder).2.2
  rotate_left
  · unfold chooseFileName
    simp only
    by_cases hu : useImageNames = false
    · rw [if_pos hu]; rfl
    · rw [if_neg hu]
      have ht : nameOfTitle (image.title.map jsTrim) = none := by
        rcases h with h | h
        · exact absurd h hu
        · cases hti : image.title with
          | none => rfl
          | some t => simp [nameOfTitle, h t hti]
      rw [ht]; rfl
  · intro j hj heq
    exact hj (numericName_injective heq)

theorem chooseFileName_numeric_witness :
    (∃ table', chooseFileName asciiLower 0 true [("", ["a.png"])] ""
        ⟨"i1", "image", some "  ", none, none, none⟩ ".png" 7 =
        some ("image-" ++ padStart (toString 7) 3 '0' ++ ".png", table') ∧
      ∀ g, usedOf table' g = usedOf [("", ["a.png"])] g) ∧
    3 ≤ (padStart (toString 7) 3 '0').length ∧
    decimalValue (padStart (toString 7) 3 '0').data = 7 ∧
    ∀ j, j ≠ 7 →
      "image-" ++ padStart (toString j) 3 '0' ++ ".png" ≠
        "image-" ++ padStart (toString 7) 3 '0' ++ ".png" :=
  chooseFileName_numeric asciiLower 0 true [("", ["a.png"])] ""
    ⟨"i1", "image", some "  ", none, none, none⟩ ".png" 7
    (Or.inr (by intro t ht; cases ht; decide))

/-! ## The position comparator -/

/-! ## Lower-casing -/

theorem lowerFrom_cons (cm : CaseMapping) (pre : List Char) (c : Char) (rest : List Char) :
    cm.lowerFrom pre (c :: rest) = cm.lowerAt pre c rest ++ cm.lowerFrom (pre ++ [c]) rest := rfl

theorem lowerFrom_length (cm : CaseMapping) (h : cm.Regular) (cs : List Char) :
    ∀ pre, (cm.lowerFrom pre cs).length = lowerWidth cm cs := by
  induction cs with
  | nil => intro pre; rfl
  | cons c rest ih =>
    intro pre
    simp only [CaseMapping.lowerFrom, lowerWidth, List.length_append, List.map_cons,
      List.sum_cons]
    rw [ih, h.width pre rest [] [] c]
    rfl

theorem lowerFrom_append (cm : CaseMapping) (h : cm.Regular) (a b : List Char) :
    ∀ pre, ∃ X, cm.lowerFrom pre (a ++ b) = X ++ cm.lowerFrom (pre ++ a) b ∧
      X.length = lowerWidth cm a := by
  induction a with
  | nil => intro pre; exact ⟨[], by simp, rfl⟩
  | cons c rest ih =>
    intro pre
    obtain ⟨X, hX, hlen⟩ := ih (pre ++ [c])
    refine ⟨cm.lowerAt pre c (rest ++ b) ++ X, ?_, ?_⟩
    · rw [List.cons_append, lowerFrom_cons, hX]
      simp
    · simp only [List.length_append, lowerWidth, List.map_cons, List.sum_cons]
      rw [hlen, h.width pre (rest ++ b) [] [] c]
      rfl

theorem lowerFrom_fixed (cm : CaseMapping) (h : cm.Regular) (ds b : List Char)
    (hds : ∀ c ∈ ds, c.isDigit = true ∨ c = '-') :
    ∀ pre, cm.lowerFrom pre (ds ++ b) = ds ++ cm.lowerFrom (pre ++ ds) b := by
  induction ds with
  | nil => intro pre; simp
  | cons c rest ih =>
    intro pre
    rw [List.cons_append, lowerFrom_cons, h.fixed _ _ c (hds c (List.mem_cons_self _ _)),
      ih (fun d hd => hds d (List.mem_cons_of_mem _ hd))]
    simp

/-- Lower-casing keeps a run of digits and hyphens in place between a base and an extension. -/
theorem lower_mid (cm : CaseMapping) (h : cm.Regular) (base mid ext : List Char)
    (hmid : ∀ c ∈ mid, c.isDigit = true ∨ c = '-') :
    ∃ X Y, cm.lowerFrom [] (base ++ (mid ++ ext)) = X ++ (mid ++ Y) ∧
      X.length = lowerWidth cm base ∧ Y.length = lowerWidth cm ext := by
  obtain ⟨X, hX, hlen⟩ := lowerFrom_append cm h base (mid ++ ext) []
  refine ⟨X, cm.lowerFrom (([] ++ base) ++ mid) ext, ?_, hlen, lowerFrom_length cm h ext _⟩
  rw [hX, lowerFrom_fixed cm h mid ext hmid]

theorem lower_mid_injective (cm : CaseMapping) (h : cm.Regular) (base ext m1 m2 : List Char)
    (h1 : ∀ c ∈ m1, c.isDigit = true ∨ c = '-') (h2 : ∀ c ∈ m2, c.isDigit = true ∨ c = '-')
    (heq : cm.lowerFrom [] (base ++ (m1 ++ ext)) = cm.lowerFrom [] (base ++ (m2 ++ ext))) :
    m1 = m2 := by
  obtain ⟨X1, Y1, e1, lx1, ly1⟩ := lower_mid cm h base m1 ext h1
  obtain ⟨X2, Y2, e2, lx2, ly2⟩ := lower_mid cm h base m2 ext h2
  rw [e1, e2] at heq
  have hx := List.append_inj heq (by rw [lx1, lx2])
  exact (List.append_inj' hx.2 (by rw [ly1, ly2])).1

/-- The digits and hyphen that `nthName` puts between the base and the extension. -/
theorem nthName_data (base ext : String) (k : Nat) :
    ∃ mid : List Char, (nthName base ext k).data = base.data ++ (mid ++ ext.data) ∧
      (∀ c ∈ mid, c.isDigit = true ∨ c = '-') ∧
      (k ≤ 1 → mid = []) ∧ (¬ k ≤ 1 → mid = '-' :: (toString k).data) := by
  by_cases hk : k ≤ 1
  · refine ⟨[], ?_, by simp, fun _ => rfl, fun h => absurd hk h⟩
    simp [nthName, hk]
  · refine ⟨'-' :: (toString k).data, ?_, ?_, fun h => absurd h hk, fun _ => rfl⟩
    · simp only [nthName, if_neg hk, String.data_append, List.append_assoc]
      rfl
    · intro c hc
      rw [List.mem_cons] at hc
      rcases hc with hc | hc
      · exact Or.inr hc
      · exact Or.inl ((toString_data k).2.1 c hc)

theorem lower_nthName_injective (cm : CaseMapping) (h : cm.Regular) (base ext : String)
    {j k : Nat} (hj : 1 ≤ j) (hk : 1 ≤ k)
    (heq : toLowerCase cm (nthName base ext j) = toLowerCase cm (nthName base ext k)) :
    j = k := by
  obtain ⟨m1, d1, hm1, z1, n1⟩ := nthName_data base ext j
  obtain ⟨m2, d2, hm2, z2, n2⟩ := nthName_data base ext k
  have heq' := congrArg String.data heq
  simp only [toLowerCase] at heq'
  rw [d1, d2] at heq'
  have hm := lower_mid_injective cm h base.data ext.data m1 m2 hm1 hm2 heq'
  by_cases hj1 : j ≤ 1
  · by_cases hk1 : k ≤ 1
    · omega
    · rw [z1 hj1, n2 hk1] at hm
      cases hm
  · by_cases hk1 : k ≤ 1
    · rw [n1 hj1, z2 hk1] at hm
      cases hm
    · rw [n1 hj1, n2 hk1] at hm
      have := List.cons.inj hm
      exact toString_injective (String.ext this.2)

/-! ## Deduplicated names -/

theorem asciiLower_regular : asciiLower.Regular := by
  constructor
  · intro p q p' q' c
    rfl
  · intro p q c hc
    show [c.toLower] = [c]
    congr 1
    rcases hc with hc | hc
    · unfold Char.toLower
      unfold Char.isDigit at hc
      simp only [Bool.and_eq_true, decide_eq_true_eq, UInt32.le_def, Fin.le_def] at hc
      have h2 : c.toNat ≤ 57 := hc.2
      rw [if_neg (by omega)]
    · subst hc
      decide

theorem nthName_one (base ext : String) : nthName base ext 1 = base ++ ext := by
  simp [nthName]

theorem nthName_succ (base ext : String) (n : Nat) (hn : 1 ≤ n) :
    nthName base ext (n + 1) = base ++ "-" ++ toString (n + 1) ++ ext := by
  have : ¬ n + 1 ≤ 1 := by omega
  simp [nthName, this]

theorem dedupLoop_finds (cm : CaseMapping) (used : List String) (base ext : String) (k : Nat)
    (hin : ∀ j, 1 ≤ j → j < k → toLowerCase cm (nthName base ext j) ∈ used)
    (hout : toLowerCase cm (nthName base ext k) ∉ used) :
    ∀ (d n fuel : Nat), n + d = k → 1 ≤ n → d < fuel →
      dedupLoop cm used base ext fuel n (nthName base ext n) = some (nthName base ext k) := by
  intro d
  induction d with
  | zero =>
    intro n fuel hnk hn hf
    obtain ⟨f, rfl⟩ : ∃ f, fuel = f + 1 := ⟨fuel - 1, by omega⟩
    have : n = k := by omega
    subst this
    unfold dedupLoop
    rw [if_neg hout]
  | succ d ih =>
    intro n fuel hnk hn hf
    obtain ⟨f, rfl⟩ : ∃ f, fuel = f + 1 := ⟨fuel - 1, by omega⟩
    unfold dedupLoop
    rw [if_pos (hin n hn (by omega)), ← nthName_succ base ext n hn]
    exact ih (n + 1) f (by omega) (by omega) (by omega)

theorem expectedNames_succ (base ext : String) (i : Nat) :
    expectedNames base ext (i + 1) = expectedNames base ext i ++ [nthName base ext (i + 1)] := by
  simp [expectedNames, List.range_succ]

theorem mem_expectedNames {base ext : String} {i : Nat} {s : String} :
    s ∈ expectedNames base ext i ↔ ∃ j, 1 ≤ j ∧ j ≤ i ∧ s = nthName base ext j := by
  unfold expectedNames
  rw [List.mem_map]
  constructor
  · rintro ⟨a, ha, rfl⟩
    rw [List.mem_range] at ha
    exact ⟨a + 1, by omega, by omega, rfl⟩
  · rintro ⟨j, h1, h2, rfl⟩
    refine ⟨j - 1, List.mem_range.mpr (by omega), ?_⟩
    have : j - 1 + 1 = j := by omega
    rw [this]

theorem lower_expectedNames_nodup (cm : CaseMapping) (h : cm.Regular) (base ext : String)
    (n : Nat) : ((expectedNames base ext n).map (toLowerCase cm)).Nodup := by
  unfold expectedNames
  rw [List.map_map]
  refine (List.nodup_range n).map_on ?_
  intro a _ b _ hab
  have := lower_nthName_injective cm h base ext (by omega) (by omega) hab
  omega

/-- The loop of `chooseFileName` ends: under a regular case mapping some candidate among the
first `used.length + 1` is free, and with a bound of at least that many tests the loop returns
the first free one. -/
theorem dedupLoop_terminates (cm : CaseMapping) (h : cm.Regular) (used : List String)
    (base ext : String) :
    ∃ k, 1 ≤ k ∧ k ≤ used.length + 1 ∧
      toLowerCase cm (nthName base ext k) ∉ used ∧
      ∀ fuel, k ≤ fuel →
        dedupLoop cm used base ext fuel 1 (base ++ ext) = some (nthName base ext k) := by
  have hex : ∃ k, 1 ≤ k ∧ k ≤ used.length + 1 ∧ toLowerCase cm (nthName base ext k) ∉ used := by
    by_contra hno
    have hall : (expectedNames base ext (used.length + 1)).map (toLowerCase cm) ⊆ used := by
      intro s hs
      rw [List.mem_map] at hs
      obtain ⟨n, hn, rfl⟩ := hs
      obtain ⟨j, h1, h2, rfl⟩ := mem_expectedNames.mp hn
      by_contra hout
      exact hno ⟨j, h1, h2, hout⟩
    have hlen := (List.subperm_of_subset (lower_expectedNames_nodup cm h base ext _) hall).length_le
    simp [expectedNames] at hlen
  classical
  let P : Nat → Prop := fun k =>
    1 ≤ k ∧ k ≤ used.length + 1 ∧ toLowerCase cm (nthName base ext k) ∉ used
  have hP : ∃ k, P k := hex
  refine ⟨Nat.find hP, (Nat.find_spec hP).1, (Nat.find_spec hP).2.1, (Nat.find_spec hP).2.2, ?_⟩
  intro fuel hfuel
  have hin : ∀ j, 1 ≤ j → j < Nat.find hP → toLowerCase cm (nthName base ext j) ∈ used := by
    intro j h1 h2
    by_contra hout
    exact Nat.find_min hP h2 ⟨h1, by have := (Nat.find_spec hP).2.1; omega, hout⟩
  have := dedupLoop_finds cm used base ext (Nat.find hP) hin (Nat.find_spec hP).2.2
    (Nat.find hP - 1) 1 fuel (by have := (Nat.find_spec hP).1; omega) (le_refl 1)
    (by have := (Nat.find_spec hP).1; omega)
  rw [nthName_one] at this
  exact this

/-- One call in title mode when the folder has seen `i` calls with the same base and extension. -/
theorem chooseFileName_title_step (cm : CaseMapping) (h : cm.Regular) (fuel i : Nat)
    (table : List (String × List String)) (folderName title ext : String) (image : Item)
    (indexInFolder : Nat) (hfuel : i < fuel) (htitle : jsTrim title ≠ "")
    (himg : image.title = some title)
    (hused : usedOf table folderName =
      (expectedNames (safeName (jsTrim title)) ext i).map (toLowerCase cm)) :
    ∃ table', chooseFileName cm fuel true table folderName image ext indexInFolder =
        some (nthName (safeName (jsTrim title)) ext (i + 1), table') ∧
      usedOf table' folderName =
        (expectedNames (safeName (jsTrim title)) ext (i + 1)).map (toLowerCase cm) := by
  have hin : ∀ j, 1 ≤ j → j < i + 1 →
      toLowerCase cm (nthName (safeName (jsTrim title)) ext j) ∈ usedOf table folderName := by
    intro j h1 h2
    rw [hused]
    exact List.mem_map_of_mem _ (mem_expectedNames.mpr ⟨j, h1, by omega, rfl⟩)
  have hout : toLowerCase cm (nthName (safeName (jsTrim title)) ext (i + 1)) ∉
      usedOf table folderName := by
    rw [hused, List.mem_map]
    rintro ⟨s, hs, heq⟩
    obtain ⟨j, h1, h2, rfl⟩ := mem_expectedNames.mp hs
    have := lower_nthName_injective cm h _ ext h1 (by omega) heq
    omega
  have hloop := dedupLoop_finds cm (usedOf table folderName) (safeName (jsTrim title)) ext
    (i + 1) hin hout i 1 fuel (by omega) (le_refl 1) hfuel
  rw [nthName_one] at hloop
  refine ⟨mapSet (mapSet table folderName (usedOf table folderName)) folderName
    (usedOf table folderName ++
      [toLowerCase cm (nthName (safeName (jsTrim title)) ext (i + 1))]), ?_, ?_⟩
  · unfold chooseFileName
    simp only [himg, Option.map_some', nameOfTitle, if_pos htitle, if_pos (safeName_ne_empty _),
      hloop, if_neg hout]
    simp only [Bool.true_eq_false, if_false]
  · rw [usedOf_mapSet, if_pos rfl, expectedNames_succ, List.map_append, hused]
    rfl

theorem chooseFileNames_title_from (cm : CaseMapping) (h : cm.Regular) (fuel : Nat)
    (folderName title ext : String) (htitle : jsTrim title ≠ "") :
    ∀ (calls : List NameCall) (i : Nat) (table : List (String × List String)),
      i + calls.length ≤ fuel →
      usedOf table folderName =
        (expectedNames (safeName (jsTrim title)) ext i).map (toLowerCase cm) →
      (∀ c ∈ calls, c.folderName = folderName ∧ c.image.title = some title ∧ c.ext = ext) →
      ∃ final, chooseFileNames cm fuel true table calls =
        some ((List.range calls.length).map
          (fun j => nthName (safeName (jsTrim title)) ext (i + j + 1)), final) := by
  intro calls
  induction calls with
  | nil => intro i table _ _ _; exact ⟨table, rfl⟩
  | cons c rest ih =>
    intro i table hfuel hused hcalls
    obtain ⟨hf, ht, he⟩ := hcalls c (List.mem_cons_self _ _)
    obtain ⟨table', hstep, hused'⟩ := chooseFileName_title_step cm h fuel i table folderName
      title ext c.image c.indexInFolder (by simp at hfuel; omega) htitle ht hused
    obtain ⟨final, hrest⟩ := ih (i + 1) table' (by simp at hfuel; omega) hused'
      (fun d hd => hcalls d (List.mem_cons_of_mem _ hd))
    refine ⟨final, ?_⟩
    unfold chooseFileNames
    rw [hf, he, hstep]
    simp only [hrest]
    rw [List.length_cons, List.range_succ_eq_map, List.map_cons, List.map_map]
    congr 2
    refine congrArg₂ List.cons rfl ?_
    apply List.map_congr_left
    intro j _
    simp only [Function.comp]
    congr 1
    omega

/-- C3: with the title toggle on and no name used yet in the folder, consecutive calls of
`chooseFileName` in that folder with the same non-blank title and the same extension return
`base + ext`, `base-2 + ext`, `base-3 + ext`, ... in this order, where `base` is `safeName` of
the trimmed title, as soon as the loop bound is at least the number of calls; the lower-cased
names are pairwise distinct. -/
theorem chooseFileNames_same_title (cm : CaseMapping) (hcm : cm.Regular) (fuel : Nat)
    (table : List (String × List String)) (folderName title ext : String)
    (calls : List NameCall) (hfuel : calls.length ≤ fuel)
    (hfresh : usedOf table folderName = []) (htitle : jsTrim title ≠ "")
    (hcalls : ∀ c ∈ calls, c.folderName = folderName ∧ c.image.title = some title ∧ c.ext = ext) :
    (∃ final, chooseFileNames cm fuel true table calls =
      some (expectedNames (safeName (jsTrim title)) ext calls.length, final)) ∧
    ((expectedNames (safeName (jsTrim title)) ext calls.length).map (toLowerCase cm)).Nodup := by
  refine ⟨?_, lower_expectedNames_nodup cm hcm _ ext _⟩
  obtain ⟨final, hfinal⟩ := chooseFileNames_title_from cm hcm fuel folderName title ext htitle
    calls 0 table (by omega) (by rw [hfresh]; rfl) hcalls
  refine ⟨final, ?_⟩
  rw [hfinal]
  unfold expectedNames
  simp

theorem chooseFileNames_same_title_witness :
    (∃ final, chooseFileNames asciiLower 2 true [] diagramCalls =
      some (["Diagram.png", "Diagram-2.png"], final)) ∧
    (["Diagram.png", "Diagram-2.png"].map (toLowerCase asciiLower)).Nodup :=
  chooseFileNames_same_title asciiLower asciiLower_regular 2 [] "" "Diagram" ".png"
    diagramCalls (by decide) (by decide) (by decide) (by decide)

/-- C4, evaluated on the code: with the title toggle on, an untitled image with index 1 and an
image titled `image-001` with index 2, in the same folder and with the same extension, both get
the name `image-001.png`. -/
theorem chooseFileNames_numeric_title_clash :
    (chooseFileNames asciiLower 2 true [] clashCalls).map Prod.fst =
      some ["image-001.png", "image-001.png"] := by
  decide

/-! ## Sorting -/

section SortLemmas

variable {α : Type}

theorem jsSort_perm (cmp : α → α → Int) (l : List α) : (jsSort cmp l).Perm l :=
  List.perm_insertionSort _ l

theorem mem_jsSort (cmp : α → α → Int) (l : List α) (a : α) : a ∈ jsSort cmp l ↔ a ∈ l :=
  (jsSort_perm cmp l).mem_iff

theorem jsSort_length (cmp : α → α → Int) (l : List α) : (jsSort cmp l).length = l.length :=
  (jsSort_perm cmp l).length_eq

theorem jsSort_cons (cmp : α → α → Int) (a : α) (l : List α) :
    jsSort cmp (a :: l) = List.orderedInsert (fun x y => cmp x y ≤ 0) a (jsSort cmp l) := rfl

/-- Inserting into an ordered list keeps it ordered, when the comparator is total and
transitive on the elements involved. -/
theorem orderedInsert_pairwise (cmp : α → α → Int) (a : α) :
    ∀ s : List α, s.Pairwise (fun x y => cmp x y ≤ 0) →
      (∀ b ∈ s, cmp a b ≤ 0 ∨ cmp b a ≤ 0) →
      (∀ b ∈ s, ∀ c ∈ s, cmp a b ≤ 0 → cmp b c ≤ 0 → cmp a c ≤ 0) →
      (List.orderedInsert (fun x y => cmp x y ≤ 0) a s).Pairwise (fun x y => cmp x y ≤ 0) := by
  intro s
  induction s with
  | nil => intro _ _ _; simp
  | cons b t ih =>
    intro hs htot htr
    rw [List.pairwise_cons] at hs
    by_cases hab : cmp a b ≤ 0
    · rw [List.orderedInsert, if_pos hab, List.pairwise_cons, List.pairwise_cons]
      refine ⟨?_, hs⟩
      intro c hc
      rw [List.mem_cons] at hc
      rcases hc with rfl | hc
      · exact hab
      · exact htr b (List.mem_cons_self _ _) c (List.mem_cons_of_mem _ hc) hab (hs.1 c hc)
    · have hba : cmp b a ≤ 0 := (htot b (List.mem_cons_self _ _)).resolve_left hab
      rw [List.orderedInsert, if_neg hab, List.pairwise_cons]
      refine ⟨?_, ih hs.2 (fun c hc => htot c (List.mem_cons_of_mem _ hc))
        (fun c hc d hd => htr c (List.mem_cons_of_mem _ hc) d (List.mem_cons_of_mem _ hd))⟩
      intro c hc
      rw [List.mem_orderedInsert] at hc
      rcases hc with rfl | hc
      · exact hba
      · exact hs.1 c hc

/-- The sort returns an ordered list when the comparator is total and transitive on the
elements of the list. -/
theorem jsSort_pairwise (cmp : α → α → Int) :
    ∀ l : List α, (∀ a ∈ l, ∀ b ∈ l, cmp a b ≤ 0 ∨ cmp b a ≤ 0) →
      (∀ a ∈ l, ∀ b ∈ l, ∀ c ∈ l, cmp a b ≤ 0 → cmp b c ≤ 0 → cmp a c ≤ 0) →
      (jsSort cmp l).Pairwise (fun x y => cmp x y ≤ 0) := by
  intro l
  induction l with
  | nil => intro _ _; exact List.Pairwise.nil
  | cons a t ih =>
    intro htot htr
    rw [jsSort_cons]
    refine orderedInsert_pairwise cmp a _
      (ih (fun b hb c hc => htot b (List.mem_cons_of_mem _ hb) c (List.mem_cons_of_mem _ hc))
        (fun b hb c hc d hd => htr b (List.mem_cons_of_mem _ hb) c (List.mem_cons_of_mem _ hc)
          d (List.mem_cons_of_mem _ hd)))
      ?_ ?_
    · intro b hb
      rw [mem_jsSort] at hb
      exact htot a (List.mem_cons_self _ _) b (List.mem_cons_of_mem _ hb)
    · intro b hb c hc
      rw [mem_jsSort] at hb hc
      exact htr a (List.mem_cons_self _ _) b (List.mem_cons_of_mem _ hb) c
        (List.mem_cons_of_mem _ hc)

/-- Two ordered lists with the same elements are equal when the order has no ties between
different elements. -/
theorem eq_of_perm_of_pairwise (r : α → α → Prop) :
    ∀ l₁ l₂ : List α, l₁.Perm l₂ → l₁.Pairwise r → l₂.Pairwise r →
      (∀ a ∈ l₁, ∀ b ∈ l₁, r a b → r b a → a = b) → l₁ = l₂ := by
  intro l₁
  induction l₁ with
  | nil => intro l₂ hp _ _ _; exact hp.nil_eq
  | cons a t₁ ih =>
    intro l₂ hp h₁ h₂ hanti
    cases l₂ with
    | nil => exact absurd hp.symm.nil_eq (by simp)
    | cons b t₂ =>
      rw [List.pairwise_cons] at h₁ h₂
      have hab : a = b := by
        by_contra hne
        have ha : a ∈ t₂ := by
          have := hp.subset (List.mem_cons_self a t₁)
          rw [List.mem_cons] at this
          exact this.resolve_left hne
        have hb : b ∈ t₁ := by
          have := hp.symm.subset (List.mem_cons_self b t₂)
          rw [List.mem_cons] at this
          exact this.resolve_left (fun h => hne h.symm)
        exact hne (hanti a (List.mem_cons_self _ _) b (List.mem_cons_of_mem _ hb)
          (h₁.1 b hb) (h₂.1 a ha))
      subst hab
      rw [ih t₂ (List.Perm.cons_inv hp) h₁.2 h₂.2
        (fun c hc d hd => hanti c (List.mem_cons_of_mem _ hc) d (List.mem_cons_of_mem _ hd))]

/-- Sorting does not depend on the order of the input when the comparator is total and
transitive on the elements and only equal elements tie. -/
theorem jsSort_eq_of_perm (cmp : α → α → Int) (l₁ l₂ : List α) (hp : l₁.Perm l₂)
    (htot : ∀ a ∈ l₁, ∀ b ∈ l₁, cmp a b ≤ 0 ∨ cmp b a ≤ 0)
    (htr : ∀ a ∈ l₁, ∀ b ∈ l₁, ∀ c ∈ l₁, cmp a b ≤ 0 → cmp b c ≤ 0 → cmp a c ≤ 0)
    (hanti : ∀ a ∈ l₁, ∀ b ∈ l₁, cmp a b ≤ 0 → cmp b a ≤ 0 → a = b) :
    jsSort cmp l₁ = jsSort cmp l₂ := by
  refine eq_of_perm_of_pairwise (fun x y => cmp x y ≤ 0) _ _
    ((jsSort_perm cmp l₁).trans (hp.trans (jsSort_perm cmp l₂).symm))
    (jsSort_pairwise cmp l₁ htot htr)
    (jsSort_pairwise cmp l₂
      (fun a ha b hb => htot a (hp.mem_iff.mpr ha) b (hp.mem_iff.mpr hb))
      (fun a ha b hb c hc => htr a (hp.mem_iff.mpr ha) b (hp.mem_iff.mpr hb) c
        (hp.mem_iff.mpr hc)))
    ?_
  intro a ha b hb
  rw [mem_jsSort] at ha hb
  exact hanti a ha b hb

end SortLemmas

theorem comparePosition_swap (a b : Item) : comparePosition b a = -comparePosition a b := by
  unfold comparePosition
  simp only
  rw [abs_sub_comm (b.y.getD 0) (a.y.getD 0)]
  split <;> omega

theorem compareFrames_swap (a b : FrameEntry) : compareFrames b a = -compareFrames a b := by
  unfold compareFrames
  rw [abs_sub_comm b.y a.y]
  split <;> omega

theorem comparePosition_total (a b : Item) :
    comparePosition a b ≤ 0 ∨ comparePosition b a ≤ 0 := by
  rw [comparePosition_swap a b]
  omega

theorem compareFrames_total (a b : FrameEntry) :
    compareFrames a b ≤ 0 ∨ compareFrames b a ≤ 0 := by
  rw [compareFrames_swap a b]
  omega

/-! ## Grouping by parent -/

theorem groupStep_get (m : List (Option String × List Item)) (img : Item) (k : Option String) :
    mapGet (groupStep m img) k =
      if k = img.parentId then some ((mapGet m k).getD [] ++ [img]) else mapGet m k := by
  unfold groupStep
  simp only
  rw [mapGet_mapSet]
  by_cases hk : k = img.parentId
  · subst hk
    rw [if_pos rfl, if_pos rfl]
    by_cases hh : mapHas m img.parentId = true
    · rw [if_pos hh]
    · rw [if_neg hh, mapGet_mapSet, if_pos rfl]
      have : mapGet m img.parentId = none := by
        rw [mapHas_eq_isSome] at hh
        simpa using hh
      rw [this]
      rfl
  · rw [if_neg hk, if_neg hk]
    by_cases hh : mapHas m img.parentId = true
    · rw [if_pos hh]
    · rw [if_neg hh, mapGet_mapSet, if_neg hk]

theorem groupStep_keys (m : List (Option String × List Item)) (img : Item) :
    mapKeys (groupStep m img) =
      if mapHas m img.parentId then mapKeys m else mapKeys m ++ [img.parentId] := by
  unfold groupStep
  simp only
  by_cases hh : mapHas m img.parentId = true
  · rw [if_pos hh, if_pos hh, mapKeys_mapSet, if_pos hh]
  · have h2 : mapHas (mapSet m img.parentId []) img.parentId = true := by
      rw [mapHas_eq_isSome, mapGet_mapSet, if_pos rfl]
      rfl
    rw [if_neg hh, if_neg hh, mapKeys_mapSet, if_pos h2, mapKeys_mapSet, if_neg hh]

theorem groupByParent_snoc (l : List Item) (img : Item) :
    groupByParent (l ++ [img]) = groupStep (groupByParent l) img := by
  simp [groupByParent, List.foldl_append]

theorem groupByParent_get (l : List Item) (k : Option String) :
    (mapGet (groupByParent l) k).getD [] = l.filter fun i => decide (i.parentId = k) := by
  induction l using List.reverseRecOn with
  | nil =>
    show (mapGet [(none, [])] k).getD [] = []
    rw [mapGet_cons]
    split <;> rfl
  | append_singleton l img ih =>
    rw [groupByParent_snoc, groupStep_get, List.filter_append]
    by_cases hk : k = img.parentId
    · rw [if_pos hk, Option.getD_some, ih]
      simp [hk]
    · rw [if_neg hk, ih]
      have : ¬ img.parentId = k := fun h => hk h.symm
      simp [this]

theorem groupByParent_keys_nodup (l : List Item) : (mapKeys (groupByParent l)).Nodup := by
  induction l using List.reverseRecOn with
  | nil => simp [groupByParent, mapKeys]
  | append_singleton l img ih =>
    rw [groupByParent_snoc, groupStep_keys]
    by_cases hh : mapHas (groupByParent l) img.parentId = true
    · rw [if_pos hh]; exact ih
    · rw [if_neg hh]
      rw [mapHas_iff_mem_keys] at hh
      exact List.Nodup.append ih (List.nodup_singleton _) (by simpa using hh)

theorem groupByParent_mem_keys (l : List Item) :
    ∀ k : Option String,
      k ∈ mapKeys (groupByParent l) ↔ k = none ∨ ∃ img ∈ l, img.parentId = k := by
  induction l using List.reverseRecOn with
  | nil => intro k; simp [groupByParent, mapKeys]
  | append_singleton l img ih =>
    intro k
    rw [groupByParent_snoc, groupStep_keys]
    by_cases hh : mapHas (groupByParent l) img.parentId = true
    · rw [if_pos hh, ih]
      rw [mapHas_iff_mem_keys, ih] at hh
      constructor
      · rintro (h | ⟨i, hi, rfl⟩)
        · exact Or.inl h
        · exact Or.inr ⟨i, List.mem_append_left _ hi, rfl⟩
      · rintro (h | ⟨i, hi, rfl⟩)
        · exact Or.inl h
        · rw [List.mem_append, List.mem_singleton] at hi
          rcases hi with hi | rfl
          · exact Or.inr ⟨i, hi, rfl⟩
          · exact hh
    · rw [if_neg hh, List.mem_append, List.mem_singleton, ih]
      constructor
      · rintro ((h | ⟨i, hi, rfl⟩) | rfl)
        · exact Or.inl h
        · exact Or.inr ⟨i, List.mem_append_left _ hi, rfl⟩
        · exact Or.inr ⟨img, by simp, rfl⟩
      · rintro (h | ⟨i, hi, rfl⟩)
        · exact Or.inl (Or.inl h)
        · rw [List.mem_append, List.mem_singleton] at hi
          rcases hi with hi | rfl
          · exact Or.inl (Or.inr ⟨i, hi, rfl⟩)
          · exact Or.inr rfl

theorem mem_truthyKeys (keys : List (Option String)) (id : String) :
    id ∈ truthyKeys keys ↔ some id ∈ keys ∧ id ≠ "" := by
  unfold truthyKeys
  rw [List.mem_filterMap]
  constructor
  · rintro ⟨k, hk, h⟩
    cases k with
    | none => simp at h
    | some s =>
      by_cases hs : s = ""
      · simp [hs] at h
      · simp only [ne_eq, hs, not_false_eq_true, if_true, Option.some.injEq] at h
        subst h
        exact ⟨hk, hs⟩
  · rintro ⟨hk, hne⟩
    exact ⟨some id, hk, by simp [hne]⟩

theorem truthyKeys_nodup (keys : List (Option String)) (h : keys.Nodup) :
    (truthyKeys keys).Nodup := by
  unfold truthyKeys
  refine List.Nodup.filterMap ?_ h
  intro a a' b hb hb'
  cases a with
  | none => simp at hb
  | some s =>
    cases a' with
    | none => simp at hb'
    | some s' =>
      by_cases hs : s = ""
      · simp [hs] at hb
      · by_cases hs' : s' = ""
        · simp [hs'] at hb'
        · simp [hs] at hb
          simp [hs'] at hb'
          rw [hb, hb']

theorem truthyKeys_perm {k₁ k₂ : List (Option String)} (h : k₁.Perm k₂) :
    (truthyKeys k₁).Perm (truthyKeys k₂) :=
  h.filterMap _

theorem resolveFrame_id (getById : String → Except String (Option FrameData)) (id : String) :
    (resolveFrame getById id).id = id := by
  unfold resolveFrame
  split <;> rfl

/-! ## Containers and their names -/

theorem framesWithPosition_ids_perm (getById : String → Except String (Option FrameData))
    (images : List Item) :
    ((framesWithPosition getById images).map fun f => f.id).Perm
      (truthyKeys (mapKeys (groupByParent images))) := by
  unfold framesWithPosition resolvedFrames
  refine ((jsSort_perm compareFrames _).map _).trans ?_
  rw [List.map_map]
  have : ((fun f : FrameEntry => f.id) ∘ resolveFrame getById) = id := by
    funext id
    exact resolveFrame_id getById id
  rw [this, List.map_id]

theorem framesWithPosition_ids_nodup (getById : String → Except String (Option FrameData))
    (images : List Item) : ((framesWithPosition getById images).map fun f => f.id).Nodup :=
  (framesWithPosition_ids_perm getById images).nodup_iff.mpr
    (truthyKeys_nodup _ (groupByParent_keys_nodup images))

theorem mem_framesWithPosition_ids (getById : String → Except String (Option FrameData))
    (images : List Item) (id : String) :
    id ∈ (framesWithPosition getById images).map (fun f => f.id) ↔
      id ≠ "" ∧ ∃ img ∈ images, img.parentId = some id := by
  rw [(framesWithPosition_ids_perm getById images).mem_iff, mem_truthyKeys,
    groupByParent_mem_keys]
  constructor
  · rintro ⟨h | h, hne⟩
    · cases h
    · exact ⟨hne, h⟩
  · rintro ⟨hne, h⟩
    exact ⟨Or.inr h, hne⟩

theorem mem_framesWithPosition (getById : String → Except String (Option FrameData))
    (images : List Item) (f : FrameEntry) (hf : f ∈ framesWithPosition getById images) :
    f = resolveFrame getById f.id := by
  unfold framesWithPosition resolvedFrames at hf
  rw [mem_jsSort, List.mem_map] at hf
  obtain ⟨id, -, rfl⟩ := hf
  rw [resolveFrame_id]

theorem frameNames_snoc (fs : List FrameEntry) (f : FrameEntry) :
    frameNames (fs ++ [f]) = mapSet (frameNames fs) f.id (displayName fs.length f) := by
  unfold frameNames
  rw [List.enum_append, List.foldl_append]
  rfl

theorem frameNames_get (fs : List FrameEntry) :
    (fs.map fun f => f.id).Nodup → ∀ (i : Nat) (f : FrameEntry), fs[i]? = some f →
      mapGet (frameNames fs) f.id = some (displayName i f) := by
  induction fs using List.reverseRecOn with
  | nil => intro _ i f h; simp at h
  | append_singleton fs g ih =>
    intro hnd i f hi
    rw [List.map_append, List.nodup_append] at hnd
    rw [frameNames_snoc, mapGet_mapSet]
    by_cases hlt : i < fs.length
    · rw [List.getElem?_append_left hlt] at hi
      have hmem : f ∈ fs := List.getElem?_mem hi
      have hne : f.id ≠ g.id := by
        intro heq
        exact hnd.2.2 (List.mem_map_of_mem _ hmem) (by simp [heq])
      rw [if_neg hne]
      exact ih hnd.1 i f hi
    · have hi' : i = fs.length := by
        by_contra hne
        have : fs.length + 1 ≤ i := by omega
        rw [List.getElem?_eq_none (by simpa using this)] at hi
        cases hi
      subst hi'
      rw [List.getElem?_append_right (le_refl _)] at hi
      simp at hi
      subst hi
      rw [if_pos rfl]

/-- The entries of one folder: images in order, the folder name, indices from 1. -/
theorem folderEntries_getElem? (folderName : String) (imgs : List Item) (j : Nat) :
    (folderEntries folderName imgs)[j]? =
      imgs[j]?.map fun img => { image := img, folderName := folderName, indexInFolder := j + 1 } := by
  unfold folderEntries
  rw [List.getElem?_map, List.getElem?_enum]
  cases imgs[j]? <;> rfl

theorem folderEntries_length (folderName : String) (imgs : List Item) :
    (folderEntries folderName imgs).length = imgs.length := by
  simp [folderEntries]

theorem folderEntries_images (folderName : String) (imgs : List Item) :
    (folderEntries folderName imgs).map (fun e => e.image) = imgs := by
  unfold folderEntries
  rw [List.map_map]
  exact List.enum_map_snd imgs

/-- The blocks of the plan, one for each frame of `fs` numbered from `n`. -/
theorem flatMap_enumFrom_blocks (images : List Item) (names : List (String × String)) :
    ∀ (fs : List FrameEntry) (n : Nat),
      (∀ p ∈ fs.enumFrom n, mapGet names p.2.id = some (displayName p.1 p.2)) →
      (fs.flatMap fun f =>
        folderEntries ((mapGet names f.id).getD "Frame")
          (sortByPosition ((mapGet (groupByParent images) (some f.id)).getD []))) =
      (fs.enumFrom n).flatMap fun p =>
        folderEntries (displayName p.1 p.2)
          (sortByPosition (images.filter fun i => decide (i.parentId = some p.2.id))) := by
  intro fs
  induction fs with
  | nil => intro n _; rfl
  | cons f t ih =>
    intro n h
    rw [List.enumFrom_cons, List.flatMap_cons, List.flatMap_cons,
      ih (n + 1) (fun p hp => h p (by rw [List.enumFrom_cons]; exact List.mem_cons_of_mem _ hp)),
      h (n, f) (by rw [List.enumFrom_cons]; exact List.mem_cons_self _ _), groupByParent_get]
    rfl

/-- The plan is the root block followed by one block for each container, in the order of
`framesWithPosition`. -/
theorem buildExportList_eq (getById : String → Except String (Option FrameData))
    (images : List Item) :
    buildExportList getById images =
      folderEntries "" (sortByPosition (images.filter fun i => decide (i.parentId = none))) ++
        (framesWithPosition getById images).enum.flatMap fun p =>
          folderEntries (displayName p.1 p.2)
            (sortByPosition (images.filter fun i => decide (i.parentId = some p.2.id))) := by
  unfold buildExportList
  simp only
  rw [groupByParent_get, List.enum]
  congr 1
  apply flatMap_enumFrom_blocks
  intro p hp
  have hget : (framesWithPosition getById images)[p.1]? = some p.2 := by
    have := List.mem_iff_getElem?.mp hp
    obtain ⟨j, hj⟩ := this
    rw [List.getElem?_enumFrom] at hj
    cases hfj : (framesWithPosition getById images)[j]? with
    | none => rw [hfj] at hj; cases hj
    | some g =>
      rw [hfj] at hj
      simp only [Option.map_some', Option.some.injEq] at hj
      subst hj
      simpa using hfj
  exact frameNames_get _ (framesWithPosition_ids_nodup getById images) p.1 p.2 hget

/-! ## The plan -/

/-! ## Order of the output -/

/-- No arrangement of the three items of `cycleItems` is in ascending position order. -/
theorem cycleItems_no_order (out : List Item) (hp : out.Perm cycleItems) :
    ¬ out.Pairwise (fun a b => comparePosition a b ≤ 0) := by
  intro hpw
  have hlen := hp.length_eq
  have hnd : out.Nodup := hp.nodup_iff.mpr (by decide)
  match out, hlen with
  | [x, y, z], _ =>
    have hx : x ∈ cycleItems := hp.subset (by simp)
    have hy : y ∈ cycleItems := hp.subset (by simp)
    have hz : z ∈ cycleItems := hp.subset (by simp)
    simp only [cycleItems, List.mem_cons, List.mem_singleton, List.not_mem_nil, or_false]
      at hx hy hz
    rcases hx with rfl | rfl | rfl <;> rcases hy with rfl | rfl | rfl <;>
      rcases hz with rfl | rfl | rfl <;>
      first
        | exact absurd hnd (by decide)
        | exact absurd hpw (by decide)

/-! ## Grouping and the order of the input -/

/-- C7, as stated, fails: two images at the same position come out in the order in which they
were put in, so the plan of the reversed list is a different plan. -/
theorem buildExportList_depends_on_input_order :
    tiedItems.reverse.Perm tiedItems ∧
      buildExportList noFrames tiedItems.reverse ≠ buildExportList noFrames tiedItems := by
  decide

theorem groupByParent_keys_perm {l₁ l₂ : List Item} (hp : l₁.Perm l₂) :
    (mapKeys (groupByParent l₁)).Perm (mapKeys (groupByParent l₂)) := by
  rw [List.perm_ext_iff_of_nodup (groupByParent_keys_nodup l₁) (groupByParent_keys_nodup l₂)]
  intro k
  rw [groupByParent_mem_keys, groupByParent_mem_keys]
  constructor
  · rintro (h | ⟨i, hi, h⟩)
    · exact Or.inl h
    · exact Or.inr ⟨i, hp.mem_iff.mp hi, h⟩
  · rintro (h | ⟨i, hi, h⟩)
    · exact Or.inl h
    · exact Or.inr ⟨i, hp.mem_iff.mpr hi, h⟩

theorem resolvedFrames_perm (getById : String → Except String (Option FrameData))
    {l₁ l₂ : List Item} (hp : l₁.Perm l₂) :
    (resolvedFrames getById l₁).Perm (resolvedFrames getById l₂) :=
  (truthyKeys_perm (groupByParent_keys_perm hp)).map _

theorem tie_of_le_le {α : Type} (cmp : α → α → Int) (hswap : ∀ a b, cmp b a = -cmp a b)
    {a b : α} (h₁ : cmp a b ≤ 0) (h₂ : cmp b a ≤ 0) : cmp a b = 0 := by
  rw [hswap a b] at h₂
  omega

/-- C7, amended: the plan does not depend on the order of the input list, provided that among the
images with the same parent the position comparator is transitive and only equal images tie, and
that among the resolved containers the container comparator is transitive and only equal
containers tie. -/
theorem buildExportList_perm_invariant (getById : String → Except String (Option FrameData))
    (images images' : List Item) (hp : images'.Perm images)
    (htr : ∀ a ∈ images, ∀ b ∈ images, ∀ c ∈ images, a.parentId = b.parentId →
      b.parentId = c.parentId →
      comparePosition a b ≤ 0 → comparePosition b c ≤ 0 → comparePosition a c ≤ 0)
    (htie : ∀ a ∈ images, ∀ b ∈ images, a.parentId = b.parentId →
      comparePosition a b = 0 → a = b)
    (hftr : ∀ a ∈ resolvedFrames getById images, ∀ b ∈ resolvedFrames getById images,
      ∀ c ∈ resolvedFrames getById images,
      compareFrames a b ≤ 0 → compareFrames b c ≤ 0 → compareFrames a c ≤ 0)
    (hftie : ∀ a ∈ resolvedFrames getById images, ∀ b ∈ resolvedFrames getById images,
      compareFrames a b = 0 → a = b) :
    buildExportList getById images' = buildExportList getById images := by
  have hframes : framesWithPosition getById images' = framesWithPosition getById images := by
    unfold framesWithPosition
    refine (jsSort_eq_of_perm compareFrames _ _ (resolvedFrames_perm getById hp.symm)
      (fun a _ b _ => compareFrames_total a b) hftr ?_).symm
    intro a ha b hb h₁ h₂
    exact hftie a ha b hb (tie_of_le_le compareFrames compareFrames_swap h₁ h₂)
  have hgroup : ∀ k : Option String,
      sortByPosition (images'.filter fun i => decide (i.parentId = k)) =
        sortByPosition (images.filter fun i => decide (i.parentId = k)) := by
    intro k
    unfold sortByPosition
    refine (jsSort_eq_of_perm comparePosition _ _ (hp.symm.filter _)
      (fun a _ b _ => comparePosition_total a b) ?_ ?_).symm
    · intro a ha b hb c hc
      rw [List.mem_filter, decide_eq_true_eq] at ha hb hc
      exact htr a ha.1 b hb.1 c hc.1 (ha.2.trans hb.2.symm) (hb.2.trans hc.2.symm)
    · intro a ha b hb h₁ h₂
      rw [List.mem_filter, decide_eq_true_eq] at ha hb
      exact htie a ha.1 b hb.1 (ha.2.trans hb.2.symm)
        (tie_of_le_le comparePosition comparePosition_swap h₁ h₂)
  rw [buildExportList_eq, buildExportList_eq, hframes, hgroup none]
  congr 1
  rw [List.flatMap_def, List.flatMap_def]
  congr 1
  apply List.map_congr_left
  intro p _
  rw [hgroup]

theorem buildExportList_perm_invariant_witness :
    buildExportList sampleBoard sampleImages.reverse = buildExportList sampleBoard sampleImages :=
  buildExportList_perm_invariant sampleBoard sampleImages sampleImages.reverse
    (List.reverse_perm sampleImages) (by decide) (by decide) (by decide) (by decide)

/-! ## Images kept by the grouping -/

theorem filter_parent_cons_pos (a : Item) (l : List Item) (k : Option String)
    (h : a.parentId = k) :
    ((a :: l).filter fun i => decide (i.parentId = k)) =
      a :: l.filter fun i => decide (i.parentId = k) := by
  simp [List.filter_cons, h]

theorem filter_parent_cons_neg (a : Item) (l : List Item) (k : Option String)
    (h : a.parentId ≠ k) :
    ((a :: l).filter fun i => decide (i.parentId = k)) =
      l.filter fun i => decide (i.parentId = k) := by
  simp [List.filter_cons, h]

theorem flatMap_const_nil {α β : Type} (l : List α) :
    (l.flatMap fun _ => ([] : List β)) = [] := by
  induction l with
  | nil => rfl
  | cons b t ih => rw [List.flatMap_cons, List.nil_append]; exact ih

theorem flatMap_filter_skip (a : Item) (l : List Item) (ids : List String)
    (h : ∀ id ∈ ids, a.parentId ≠ some id) :
    (ids.flatMap fun id => (a :: l).filter fun i => decide (i.parentId = some id)) =
      ids.flatMap fun id => l.filter fun i => decide (i.parentId = some id) := by
  rw [List.flatMap_def, List.flatMap_def]
  congr 1
  apply List.map_congr_left
  intro id hid
  exact filter_parent_cons_neg a l (some id) (h id hid)

theorem flatMap_filter_insert (a : Item) (id0 : String) (l : List Item)
    (h : a.parentId = some id0) :
    ∀ ids : List String, ids.Nodup → id0 ∈ ids →
      (ids.flatMap fun id => (a :: l).filter fun i => decide (i.parentId = some id)).Perm
        (a :: ids.flatMap fun id => l.filter fun i => decide (i.parentId = some id)) := by
  intro ids
  induction ids with
  | nil => intro _ hmem; cases hmem
  | cons b t ih =>
    intro hnd hmem
    rw [List.nodup_cons] at hnd
    rw [List.flatMap_cons, List.flatMap_cons]
    by_cases hb : b = id0
    · subst hb
      have hskip : ∀ id ∈ t, a.parentId ≠ some id := by
        intro id hid heq
        rw [h] at heq
        cases heq
        exact hnd.1 hid
      rw [flatMap_filter_skip a l t hskip, filter_parent_cons_pos a l (some b) h]
      exact List.Perm.refl _
    · have hmem' : id0 ∈ t := by
        rw [List.mem_cons] at hmem
        rcases hmem with hmem | hmem
        · exact absurd hmem.symm hb
        · exact hmem
      have hneg : a.parentId ≠ some b := by
        rw [h]
        intro heq
        cases heq
        exact hb rfl
      rw [filter_parent_cons_neg a l (some b) hneg]
      exact ((ih hnd.2 hmem').append_left _).trans List.perm_middle

/-- The root group followed by the groups of the non-empty parent ids holds the images whose
parent id is not the empty string. -/
theorem groups_perm (ids : List String) (hnd : ids.Nodup) (hne : "" ∉ ids) :
    ∀ l : List Item, (∀ img ∈ l, ∀ id, img.parentId = some id → id ≠ "" → id ∈ ids) →
      ((l.filter fun i => decide (i.parentId = none)) ++
        ids.flatMap fun id => l.filter fun i => decide (i.parentId = some id)).Perm
        (l.filter fun i => decide (i.parentId ≠ some "")) := by
  intro l
  induction l with
  | nil =>
    intro _
    simp [flatMap_const_nil]
  | cons a l ih =>
    intro hall
    have ih' := ih (fun img himg => hall img (List.mem_cons_of_mem _ himg))
    cases hp : a.parentId with
    | none =>
      have hskip : ∀ id ∈ ids, a.parentId ≠ some id := by
        intro id _ heq
        rw [hp] at heq
        cases heq
      rw [flatMap_filter_skip a l ids hskip, filter_parent_cons_pos a l none hp,
        List.filter_cons_of_pos (by simp [hp]), List.cons_append]
      exact ih'.cons a
    | some id0 =>
      rw [filter_parent_cons_neg a l none (by rw [hp]; exact Option.some_ne_none id0)]
      by_cases h0 : id0 = ""
      · subst h0
        have hskip : ∀ id ∈ ids, a.parentId ≠ some id := by
          intro id hid heq
          rw [hp] at heq
          cases heq
          exact hne hid
        rw [flatMap_filter_skip a l ids hskip, List.filter_cons_of_neg (by simp [hp])]
        exact ih'
      · have hmem : id0 ∈ ids := hall a (List.mem_cons_self _ _) id0 hp h0
        rw [List.filter_cons_of_pos (by simp [hp, h0])]
        exact ((flatMap_filter_insert a id0 l hp ids hnd hmem).append_left _).trans
          (List.perm_middle.trans (ih'.cons a))

theorem flatMap_enum_images (images : List Item) (fs : List FrameEntry) :
    ∀ n : Nat,
      (((fs.enumFrom n).flatMap fun p =>
        folderEntries (displayName p.1 p.2)
          (sortByPosition (images.filter fun i => decide (i.parentId = some p.2.id)))).map
        fun e => e.image).Perm
      ((fs.map fun f => f.id).flatMap fun id =>
        images.filter fun i => decide (i.parentId = some id)) := by
  induction fs with
  | nil => intro n; exact List.Perm.refl _
  | cons f t ih =>
    intro n
    rw [List.enumFrom_cons, List.flatMap_cons, List.map_append, folderEntries_images,
      List.map_cons, List.flatMap_cons]
    exact (jsSort_perm comparePosition _).append (ih (n + 1))

/-- The images of the plan are the selected images whose parent id is not the empty string. -/
theorem buildExportList_images_perm (getById : String → Except String (Option FrameData))
    (images : List Item) :
    ((buildExportList getById images).map fun e => e.image).Perm
      (images.filter fun i => decide (i.parentId ≠ some "")) := by
  rw [buildExportList_eq, List.map_append, folderEntries_images]
  refine ((jsSort_perm comparePosition _).append (flatMap_enum_images images _ 0)).trans ?_
  refine groups_perm _ (framesWithPosition_ids_nodup getById images) ?_ images ?_
  · intro hmem
    exact ((mem_framesWithPosition_ids getById images "").mp hmem).1 rfl
  · intro img himg id hid hne
    exact (mem_framesWithPosition_ids getById images id).mpr ⟨hne, img, himg, hid⟩

/-! ## Containers: failed lookups, fallback names, folder names -/

theorem resolveFrame_treatAsUntitled (getById : String → Except String (Option FrameData))
    (failing : String → Bool) (hfail : ∀ id, failing id = true → ∃ e, getById id = .error e)
    (id : String) :
    resolveFrame (treatAsUntitled failing getById) id = resolveFrame getById id := by
  unfold resolveFrame treatAsUntitled
  by_cases hf : failing id = true
  · obtain ⟨e, he⟩ := hfail id hf
    rw [if_pos hf, he]
    rfl
  · rw [if_neg hf]

/-- C11: when the lookup of some parent ids fails, `buildExportList` returns the same plan as
for the lookup in which these ids resolve to an untitled container at (0, 0); the entry made
for such an id has no name and the coordinates (0, 0); and every image with a non-empty parent
id is in the plan, whether the lookup of its parent failed or not. -/
theorem buildExportList_lookup_failure (getById : String → Except String (Option FrameData))
    (images : List Item) (failing : String → Bool)
    (hfail : ∀ id, failing id = true → ∃ e, getById id = .error e) :
    buildExportList getById images =
      buildExportList (treatAsUntitled failing getById) images ∧
    (∀ id, failing id = true →
      resolveFrame getById id = { id := id, name := none, x := 0, y := 0 }) ∧
    (∀ img ∈ images, ∀ id, img.parentId = some id → id ≠ "" →
      img ∈ (buildExportList getById images).map fun e => e.image) := by
  refine ⟨?_, ?_, ?_⟩
  · have hres : resolvedFrames (treatAsUntitled failing getById) images =
        resolvedFrames getById images := by
      unfold resolvedFrames
      apply List.map_congr_left
      intro id _
      exact resolveFrame_treatAsUntitled getById failing hfail id
    have hfr : framesWithPosition (treatAsUntitled failing getById) images =
        framesWithPosition getById images := by
      unfold framesWithPosition
      rw [hres]
    rw [buildExportList_eq, buildExportList_eq, hfr]
  · intro id hid
    obtain ⟨e, he⟩ := hfail id hid
    unfold resolveFrame
    rw [he]
  · intro img himg id hid hne
    rw [(buildExportList_images_perm getById images).mem_iff, List.mem_filter]
    refine ⟨himg, ?_⟩
    rw [decide_eq_true_eq, hid]
    intro heq
    cases heq
    exact hne rfl

theorem buildExportList_lookup_failure_witness :
    buildExportList sampleBoard (sampleImages ++ [⟨"i5", "image", none, some "F3", none, none⟩]) =
      buildExportList (treatAsUntitled (fun id => decide (id = "F3")) sampleBoard)
        (sampleImages ++ [⟨"i5", "image", none, some "F3", none, none⟩]) ∧
    (∀ id, (fun id => decide (id = "F3")) id = true →
      resolveFrame sampleBoard id = { id := id, name := none, x := 0, y := 0 }) ∧
    (∀ img ∈ sampleImages ++ [⟨"i5", "image", none, some "F3", none, none⟩], ∀ id,
      img.parentId = some id → id ≠ "" →
      img ∈ (buildExportList sampleBoard
        (sampleImages ++ [⟨"i5", "image", none, some "F3", none, none⟩])).map fun e => e.image) :=
  buildExportList_lookup_failure sampleBoard
    (sampleImages ++ [⟨"i5", "image", none, some "F3", none, none⟩])
    (fun id => decide (id = "F3"))
    (by
      intro id hid
      have : id = "F3" := by simpa using hid
      subst this
      exact ⟨"not found", rfl⟩)

/-- C18, evaluated on the code: an image whose parent id is the empty string is grouped under
that key, the key is then dropped with the falsy keys, and the plan is empty. -/
theorem buildExportList_drops_empty_parent :
    buildExportList noFrames emptyParentItems = [] ∧
      (mapGet (groupByParent emptyParentItems) (some "")).getD [] = emptyParentItems := by
  decide

theorem frame_at_index_unique (getById : String → Except String (Option FrameData))
    (images : List Item) {i j : Nat} {f g : FrameEntry}
    (hf : (framesWithPosition getById images)[i]? = some f)
    (hg : (framesWithPosition getById images)[j]? = some g) (hij : i = j) : f = g := by
  subst hij
  rw [hf] at hg
  exact Option.some.inj hg

theorem name_none_of_untitled (getById : String → Except String (Option FrameData))
    (images : List Item) (f : FrameEntry) (hmem : f ∈ framesWithPosition getById images)
    (h : ∀ d t, getById f.id = .ok (some d) → d.title = some t → jsTrim t = "") :
    f.name = none := by
  rw [mem_framesWithPosition getById images f hmem]
  unfold resolveFrame
  cases hg : getById f.id with
  | error e => rfl
  | ok frame =>
    cases frame with
    | none => rfl
    | some d =>
      cases ht : d.title with
      | none => simp [nameOfTitle, ht]
      | some t => simp [nameOfTitle, ht, h d t hg ht]

/-- C19: two different containers without a usable title (no title, a blank title, no object or
a failed lookup) at the positions `i` and `j` of the sorted container list get the names `Frame`
followed by `i + 1` and `Frame` followed by `j + 1`; the positions differ and the names differ,
whatever the coordinates are. -/
theorem untitled_names_distinct (getById : String → Except String (Option FrameData))
    (images : List Item) (i j : Nat) (f g : FrameEntry)
    (hf : (framesWithPosition getById images)[i]? = some f)
    (hg : (framesWithPosition getById images)[j]? = some g)
    (hne : f.id ≠ g.id)
    (hft : ∀ d t, getById f.id = .ok (some d) → d.title = some t → jsTrim t = "")
    (hgt : ∀ d t, getById g.id = .ok (some d) → d.title = some t → jsTrim t = "") :
    displayName i f = "Frame " ++ toString (i + 1) ∧
    displayName j g = "Frame " ++ toString (j + 1) ∧
    i ≠ j ∧ displayName i f ≠ displayName j g := by
  have hfn := name_none_of_untitled getById images f (List.getElem?_mem hf) hft
  have hgn := name_none_of_untitled getById images g (List.getElem?_mem hg) hgt
  have hi : displayName i f = "Frame " ++ toString (i + 1) := by simp [displayName, hfn]
  have hj : displayName j g = "Frame " ++ toString (j + 1) := by simp [displayName, hgn]
  have hij : i ≠ j := by
    intro h
    exact hne (congrArg FrameEntry.id (frame_at_index_unique getById images hf hg h))
  refine ⟨hi, hj, hij, ?_⟩
  rw [hi, hj]
  intro heq
  have h1 := congrArg String.data heq
  simp only [String.data_append] at h1
  have h2 := toString_injective (String.ext (List.append_cancel_left h1))
  omega

theorem untitled_names_distinct_witness :
    displayName 0 ⟨"F1", none, 0, 0⟩ = "Frame " ++ toString (0 + 1) ∧
    displayName 1 ⟨"F2", none, 0, 0⟩ = "Frame " ++ toString (1 + 1) ∧
    0 ≠ 1 ∧ displayName 0 ⟨"F1", none, 0, 0⟩ ≠ displayName 1 ⟨"F2", none, 0, 0⟩ :=
  untitled_names_distinct twinBoard twinImages 0 1 ⟨"F1", none, 0, 0⟩ ⟨"F2", none, 0, 0⟩
    (by decide) (by decide) (by decide)
    (by
      intro d t hd ht
      have hd' : (Except.ok (some ⟨none, some 0, some 0⟩) : Except String (Option FrameData)) =
          Except.ok (some d) := hd
      cases hd'
      cases ht)
    (by
      intro d t hd ht
      have hd' : (Except.ok (some ⟨some "  ", some 0, some 0⟩) :
          Except String (Option FrameData)) = Except.ok (some d) := hd
      cases hd'
      cases ht
      decide)

/-! ## Folder names -/

theorem mem_folderEntries {folderName : String} {imgs : List Item} {e : ExportEntry}
    (h : e ∈ folderEntries folderName imgs) : e.folderName = folderName ∧ e.image ∈ imgs := by
  unfold folderEntries at h
  rw [List.mem_map] at h
  obtain ⟨p, hp, rfl⟩ := h
  refine ⟨rfl, ?_⟩
  have : p.2 ∈ imgs.enum.map Prod.snd := List.mem_map_of_mem _ hp
  rwa [List.enum_map_snd] at this

theorem resolveFrame_name_some (getById : String → Except String (Option FrameData))
    (id n : String) (h : (resolveFrame getById id).name = some n) : ∃ t, n = safeName t := by
  unfold resolveFrame at h
  cases hg : getById id with
  | error e => rw [hg] at h; cases h
  | ok frame =>
    rw [hg] at h
    simp only [nameOfTitle] at h
    split at h
    · split at h
      · exact ⟨_, (Option.some.inj h).symm⟩
      · cases h
    · cases h

theorem frame_text_legal : ∀ c ∈ illegalChars, c ∉ "Frame ".data ∧ c.isDigit = false := by
  decide

theorem displayName_legal (getById : String → Except String (Option FrameData))
    (images : List Item) (i : Nat) (f : FrameEntry)
    (hmem : f ∈ framesWithPosition getById images) :
    displayName i f ≠ "" ∧ ∀ c ∈ illegalChars, c ∉ (displayName i f).data := by
  cases hn : f.name with
  | none =>
    have hd : displayName i f = "Frame " ++ toString (i + 1) := by simp [displayName, hn]
    rw [hd]
    constructor
    · intro heq
      have := congrArg String.length heq
      simp [String.length_append] at this
      exact absurd this.1 (by decide)
    · intro c hc hmemc
      rw [String.data_append, List.mem_append] at hmemc
      rcases hmemc with h1 | h1
      · exact (frame_text_legal c hc).1 h1
      · have := (toString_data (i + 1)).2.1 c h1
        rw [(frame_text_legal c hc).2] at this
        cases this
  | some n =>
    have hd : displayName i f = n := by simp [displayName, hn]
    have hres := mem_framesWithPosition getById images f hmem
    rw [hres] at hn
    obtain ⟨t, rfl⟩ := resolveFrame_name_some getById f.id n hn
    rw [hd]
    exact ⟨safeName_ne_empty t, safeName_legal t⟩

/-- Every entry of the plan is an entry of the root block, for an image without a parent, or an
entry of the block of a container, for an image of that container. -/
theorem mem_buildExportList (getById : String → Except String (Option FrameData))
    (images : List Item) (e : ExportEntry) (he : e ∈ buildExportList getById images) :
    (e.image.parentId = none ∧ e.folderName = "" ∧ e.image ∈ images) ∨
    ∃ i f, (framesWithPosition getById images)[i]? = some f ∧
      e.image.parentId = some f.id ∧ e.folderName = displayName i f ∧ e.image ∈ images := by
  rw [buildExportList_eq, List.mem_append] at he
  rcases he with he | he
  · left
    obtain ⟨hf, hi⟩ := mem_folderEntries he
    unfold sortByPosition at hi
    rw [mem_jsSort, List.mem_filter, decide_eq_true_eq] at hi
    exact ⟨hi.2, hf, hi.1⟩
  · right
    rw [List.mem_flatMap] at he
    obtain ⟨p, hp, hep⟩ := he
    obtain ⟨hf, hi⟩ := mem_folderEntries hep
    unfold sortByPosition at hi
    rw [mem_jsSort, List.mem_filter, decide_eq_true_eq] at hi
    refine ⟨p.1, p.2, ?_, hi.2, hf, hi.1⟩
    have : (p.1, p.2) ∈ (framesWithPosition getById images).enum := hp
    rwa [List.mk_mem_enum_iff_getElem?] at this

/-- C20: an entry of the plan for an image with a parent has a folder name that is not empty
and contains none of the characters `/ \ ? % * : | " < >`; an entry for an image without a
parent has the folder name `""`; so the folder name is `""` exactly for the images without a
parent. -/
theorem folderName_spec (getById : String → Except String (Option FrameData))
    (images : List Item) :
    ∀ e ∈ buildExportList getById images,
      (e.image.parentId = none → e.folderName = "") ∧
      (e.image.parentId ≠ none →
        e.folderName ≠ "" ∧ ∀ c ∈ illegalChars, c ∉ e.folderName.data) ∧
      (e.folderName = "" ↔ e.image.parentId = none) := by
  intro e he
  rcases mem_buildExportList getById images e he with ⟨hp, hf, -⟩ | ⟨i, f, hfr, hp, hf, -⟩
  · refine ⟨fun _ => hf, fun h => absurd hp h, fun _ => hp, fun _ => hf⟩
  · have hleg := displayName_legal getById images i f (List.getElem?_mem hfr)
    rw [← hf] at hleg
    have hsome : e.image.parentId ≠ none := by rw [hp]; exact Option.some_ne_none _
    exact ⟨fun h => absurd h hsome, fun _ => hleg, fun h => absurd h hleg.1,
      fun h => absurd h hsome⟩

theorem folderName_spec_witness :
    ((⟨"i3", "image", none, some "F1", some 10, some 0⟩ : Item).parentId = none →
      "Sprint Plan" = "") ∧
    ((⟨"i3", "image", none, some "F1", some 10, some 0⟩ : Item).parentId ≠ none →
      "Sprint Plan" ≠ "" ∧ ∀ c ∈ illegalChars, c ∉ "Sprint Plan".data) ∧
    ("Sprint Plan" = "" ↔
      (⟨"i3", "image", none, some "F1", some 10, some 0⟩ : Item).parentId = none) :=
  folderName_spec sampleBoard sampleImages
    { image := ⟨"i3", "image", none, some "F1", some 10, some 0⟩, folderName := "Sprint Plan",
      indexInFolder := 1 }
    (by decide)

/-! ## Progress of a run -/

theorem progressAfter_bounds (i total : Nat) (h : i < total) :
    10 < progressAfter i total ∧ progressAfter i total ≤ 90 := by
  unfold progressAfter
  have ht : (0 : ℚ) < (total : ℚ) := by exact_mod_cast (by omega : 0 < total)
  have hi : (i : ℚ) + 1 ≤ (total : ℚ) := by exact_mod_cast (by omega : i + 1 ≤ total)
  have hpos : (0 : ℚ) < 80 * ((i : ℚ) + 1) / (total : ℚ) := by positivity
  have hle : 80 * ((i : ℚ) + 1) / (total : ℚ) ≤ 80 := by
    rw [div_le_iff₀ ht]
    linarith
  constructor <;> linarith

theorem progressAfter_mono (i j total : Nat) (h : i ≤ j) :
    progressAfter i total ≤ progressAfter j total := by
  unfold progressAfter
  have hij : (i : ℚ) ≤ (j : ℚ) := by exact_mod_cast h
  have : 80 * ((i : ℚ) + 1) / (total : ℚ) ≤ 80 * ((j : ℚ) + 1) / (total : ℚ) := by
    gcongr
  linarith

/-- The loop adds one progress report for each entry it finishes, with the percentages of
the consecutive indices, and it finishes every entry when it completes. -/
theorem exportLoop_progress (host : Host) (fuel : Nat) (useImageNames : Bool) (total : Nat) :
    ∀ (entries : List ExportEntry) (i : Nat) (st : RunState),
      ∃ n, n ≤ entries.length ∧
        percentages (exportLoop host fuel useImageNames total i entries st).1.progress =
          percentages st.progress ++ (List.range n).map (fun j => progressAfter (i + j) total) ∧
        ((exportLoop host fuel useImageNames total i entries st).2 = LoopEnd.completed →
          n = entries.length) := by
  intro entries
  induction entries with
  | nil =>
    intro i st
    exact ⟨0, le_refl _, by simp [exportLoop], fun _ => rfl⟩
  | cons entry rest ih =>
    intro i st
    rcases hres : resolveBlob host entry.image with ⟨calls, result⟩
    cases result with
    | error message =>
      refine ⟨0, Nat.zero_le _, ?_, ?_⟩
      · simp [exportLoop, hres]
      · simp [exportLoop, hres]
    | ok blob =>
      cases hname : chooseFileName host.caseMapping fuel useImageNames st.usedNamesByFolder
          entry.folderName entry.image (extensionOfBlob host.caseMapping blob)
          entry.indexInFolder with
      | none =>
        refine ⟨0, Nat.zero_le _, ?_, ?_⟩
        · simp [exportLoop, hres, hname]
        · simp [exportLoop, hres, hname]
      | some named =>
        obtain ⟨fileName, table⟩ := named
        obtain ⟨n, hn, hprog, hdone⟩ := ih (i + 1)
          { progress := st.progress ++
              [(progressAfter i total,
                "Exporting " ++ toString (i + 1) ++ " / " ++ toString total ++ "…")],
            trace := st.trace ++ calls,
            zip := st.zip ++ [(zipPathOf entry.folderName fileName, blob)],
            usedNamesByFolder := table }
        refine ⟨n + 1, by simp; omega, ?_, ?_⟩
        · simp only [exportLoop, hres, hname]
          rw [hprog]
          simp only [percentages, List.map_append, List.map_cons, List.map_nil,
            List.append_assoc, List.singleton_append]
          rw [List.range_succ_eq_map, List.map_cons, List.map_map]
          congr 2
          apply List.map_congr_left
          intro j _
          simp only [Function.comp]
          congr 1
          omega
        · intro hc
          simp only [exportLoop, hres, hname] at hc
          rw [hdone hc]
          rfl

theorem runExport_progress_cases (host : Host) (fuel : Nat) :
    (∃ message zipBlob selection,
      (runExport host fuel).outcome = Outcome.done message zipBlob ∧
      host.getSelection = .ok selection ∧
      percentages (runExport host fuel).progress =
        expectedPercentages (buildExportList host.getById (imagesOf selection)).length) ∨
    ((∀ message zipBlob, (runExport host fuel).outcome ≠ Outcome.done message zipBlob) ∧
      ∀ p ∈ percentages (runExport host fuel).progress, p ≤ 95) := by
  cases hsel : host.getSelection with
  | error message =>
    right
    unfold runExport
    simp only [hsel]
    refine ⟨fun _ _ h => (by cases h), ?_⟩
    intro p hp
    simp [percentages] at hp
    rw [hp]; norm_num
  | ok selection =>
    by_cases himg : (imagesOf selection).length = 0
    · right
      unfold runExport
      simp only [hsel]
      unfold imagesOf at himg
      rw [if_pos himg]
      refine ⟨fun _ _ h => (by cases h), ?_⟩
      intro p hp
      simp [percentages] at hp
      rw [hp]; norm_num
    · obtain ⟨n, hn, hprog, hdone⟩ := exportLoop_progress host fuel
        (host.useNamesToggle.getD true)
        (buildExportList host.getById (imagesOf selection)).length
        (buildExportList host.getById (imagesOf selection)) 0
        { progress := [(0, "Getting selection…")] ++
            [(5, "Found " ++ toString (imagesOf selection).length ++
              " image(s). Resolving frames…")],
          trace := [Event.getSelection, Event.buildExportList (imagesOf selection)] ++
            (truthyKeys (mapKeys (groupByParent (imagesOf selection)))).map Event.getById,
          zip := [], usedNamesByFolder := [] }
      have hsmall : ∀ p ∈ (List.range n).map (fun j =>
          progressAfter (0 + j) (buildExportList host.getById (imagesOf selection)).length),
          p ≤ 95 := by
        intro p hp
        rw [List.mem_map] at hp
        obtain ⟨j, hj, rfl⟩ := hp
        rw [List.mem_range] at hj
        have := (progressAfter_bounds (0 + j) _ (by omega : 0 + j <
          (buildExportList host.getById (imagesOf selection)).length)).2
        linarith
      unfold runExport
      simp only [hsel]
      unfold imagesOf at himg hprog hdone hsmall hn
      rw [if_neg himg]
      split
      · right
        rename_i st' message heq
        rw [heq] at hprog
        refine ⟨fun _ _ h => (by cases h), ?_⟩
        intro p hp
        simp only at hp hprog
        rw [hprog] at hp
        simp only [percentages, List.map_append, List.map_cons, List.map_nil, List.mem_append,
          List.mem_cons, List.not_mem_nil, or_false] at hp
        rcases hp with (hp | hp) | hp
        · rw [hp]; norm_num
        · rw [hp]; norm_num
        · exact hsmall p hp
      · right
        rename_i st' heq
        rw [heq] at hprog
        refine ⟨fun _ _ h => (by cases h), ?_⟩
        intro p hp
        simp only at hp hprog
        rw [hprog] at hp
        simp only [percentages, List.map_append, List.map_cons, List.map_nil, List.mem_append,
          List.mem_cons, List.not_mem_nil, or_false] at hp
        rcases hp with (hp | hp) | hp
        · rw [hp]; norm_num
        · rw [hp]; norm_num
        · exact hsmall p hp
      · rename_i st' heq
        rw [heq] at hprog hdone
        simp only at hprog hdone
        have hn' := hdone trivial
        subst hn'
        split
        · right
          refine ⟨fun _ _ h => (by cases h), ?_⟩
          intro p hp
          simp only [percentages, List.map_append] at hp hprog
          rw [hprog] at hp
          simp only [List.map_cons, List.map_nil, List.mem_append,
            List.mem_cons, List.not_mem_nil, or_false] at hp
          rcases hp with ((hp | hp) | hp) | hp
          · rw [hp]; norm_num
          · rw [hp]; norm_num
          · exact hsmall p hp
          · rw [hp]
        · left
          refine ⟨_, _, selection, rfl, rfl, ?_⟩
          simp only [percentages, List.map_append] at hprog ⊢
          rw [hprog]
          simp [expectedPercentages, imagesOf]

theorem mem_middle_percentages {total : Nat} {p : ℚ}
    (hp : p ∈ (List.range total).map (fun i => progressAfter i total)) : 10 < p ∧ p ≤ 90 := by
  rw [List.mem_map] at hp
  obtain ⟨i, hi, rfl⟩ := hp
  exact progressAfter_bounds i total (List.mem_range.mp hi)

theorem middle_percentages_pairwise (total : Nat) :
    ((List.range total).map (fun i => progressAfter i total)).Pairwise (· ≤ ·) := by
  rw [List.pairwise_map]
  refine (List.pairwise_lt_range total).imp ?_
  intro i j hij
  exact progressAfter_mono i j total (Nat.le_of_lt hij)

theorem expectedPercentages_spec (total : Nat) :
    (expectedPercentages total).Pairwise (· ≤ ·) ∧
    (∀ p ∈ expectedPercentages total, 0 ≤ p ∧ p ≤ 100) ∧
    (expectedPercentages total).getLast? = some 100 ∧
    100 ∉ (expectedPercentages total).dropLast := by
  have hlast : expectedPercentages total =
      ([0, 5] ++ (List.range total).map (fun i => progressAfter i total) ++ [95]) ++ [100] := by
    simp [expectedPercentages]
  have hdrop : (expectedPercentages total).dropLast =
      [0, 5] ++ (List.range total).map (fun i => progressAfter i total) ++ [95] := by
    rw [hlast, List.dropLast_concat]
  refine ⟨?_, ?_, ?_, ?_⟩
  · unfold expectedPercentages
    rw [List.pairwise_append, List.pairwise_append]
    refine ⟨⟨by norm_num, middle_percentages_pairwise total, ?_⟩, by norm_num, ?_⟩
    · intro a ha b hb
      have hb' := mem_middle_percentages hb
      simp only [List.mem_cons, List.mem_singleton, List.not_mem_nil, or_false] at ha
      rcases ha with rfl | rfl <;> linarith [hb'.1]
    · intro a ha b hb
      simp only [List.mem_cons, List.mem_singleton, List.not_mem_nil, or_false] at hb
      rw [List.mem_append] at ha
      rcases ha with ha | ha
      · simp only [List.mem_cons, List.mem_singleton, List.not_mem_nil, or_false] at ha
        rcases ha with rfl | rfl <;> rcases hb with rfl | rfl <;> norm_num
      · have ha' := mem_middle_percentages ha
        rcases hb with rfl | rfl <;> linarith [ha'.2]
  · intro p hp
    unfold expectedPercentages at hp
    rw [List.mem_append, List.mem_append] at hp
    rcases hp with (hp | hp) | hp
    · simp only [List.mem_cons, List.mem_singleton, List.not_mem_nil, or_false] at hp
      rcases hp with rfl | rfl <;> norm_num
    · have := mem_middle_percentages hp
      constructor <;> linarith [this.1, this.2]
    · simp only [List.mem_cons, List.mem_singleton, List.not_mem_nil, or_false] at hp
      rcases hp with rfl | rfl <;> norm_num
  · rw [hlast, List.getLast?_append]
    rfl
  · rw [hdrop]
    intro hmem
    rw [List.mem_append, List.mem_append] at hmem
    rcases hmem with (hmem | hmem) | hmem
    · simp only [List.mem_cons, List.mem_singleton, List.not_mem_nil, or_false] at hmem
      rcases hmem with h | h <;> norm_num at h
    · have := mem_middle_percentages hmem
      linarith [this.2]
    · simp only [List.mem_singleton] at hmem
      norm_num at hmem

/-- C14: a run that ends successfully reports the percentages 0, 5, then `10 + 80 * i / N` for
`i = 1..N`, then 95 and 100, where `N` is the number of entries of the export list (the number
of images whose parent id is not the empty string); this list is non-decreasing, lies between 0 and 100, ends with 100 and has no other 100. A run that does not
end successfully never reports 100. -/
theorem progress_spec (host : Host) (fuel : Nat) :
    (∀ message zipBlob, (runExport host fuel).outcome = Outcome.done message zipBlob →
      ∃ selection, host.getSelection = .ok selection ∧
        percentages (runExport host fuel).progress =
          [0, 5] ++
            (List.range (buildExportList host.getById (imagesOf selection)).length).map
              (fun i : Nat => 10 + (80 * ((i : ℚ) + 1)) /
                ((buildExportList host.getById (imagesOf selection)).length : ℚ)) ++
            [95, 100] ∧
        (buildExportList host.getById (imagesOf selection)).length =
          ((imagesOf selection).filter fun i => decide (i.parentId ≠ some "")).length ∧
        (percentages (runExport host fuel).progress).Pairwise (· ≤ ·) ∧
        (∀ p ∈ percentages (runExport host fuel).progress, 0 ≤ p ∧ p ≤ 100) ∧
        (percentages (runExport host fuel).progress).getLast? = some 100 ∧
        100 ∉ (percentages (runExport host fuel).progress).dropLast) ∧
    ((∀ message zipBlob, (runExport host fuel).outcome ≠ Outcome.done message zipBlob) →
      100 ∉ percentages (runExport host fuel).progress) := by
  rcases runExport_progress_cases host fuel with ⟨m, z, selection, hout, hsel, hperc⟩ | ⟨hnot, hle⟩
  · constructor
    · intro message zipBlob _
      have hspec := expectedPercentages_spec
        (buildExportList host.getById (imagesOf selection)).length
      rw [← hperc] at hspec
      have hlen := (buildExportList_images_perm host.getById (imagesOf selection)).length_eq
      rw [List.length_map] at hlen
      exact ⟨selection, hsel, hperc, hlen, hspec⟩
    · intro h
      exact absurd hout (h m z)
  · constructor
    · intro message zipBlob h
      exact absurd h (hnot message zipBlob)
    · intro _ hmem
      have := hle 100 hmem
      norm_num at this

/-! ## Selection and calls of a run -/

theorem resolveBlob_events (host : Host) (image : Item) :
    ∀ ev ∈ (resolveBlob host image).1, ev.isContent = true := by
  unfold resolveBlob
  intro ev hev
  split at hev
  · simp at hev; rw [hev]; rfl
  · split at hev
    · simp at hev; rcases hev with rfl | rfl <;> rfl
    · split at hev
      · simp at hev; rcases hev with rfl | rfl | rfl <;> rfl
      · simp at hev; rcases hev with rfl | rfl | rfl <;> rfl

/-- The loop only adds content calls to the trace. -/
theorem exportLoop_trace (host : Host) (fuel : Nat) (useImageNames : Bool) (total : Nat) :
    ∀ (entries : List ExportEntry) (i : Nat) (st : RunState),
      ∃ added, (exportLoop host fuel useImageNames total i entries st).1.trace =
          st.trace ++ added ∧ ∀ ev ∈ added, ev.isContent = true := by
  intro entries
  induction entries with
  | nil =>
    intro i st
    exact ⟨[], by simp [exportLoop], by simp⟩
  | cons entry rest ih =>
    intro i st
    have hcalls := resolveBlob_events host entry.image
    rcases hres : resolveBlob host entry.image with ⟨calls, result⟩
    rw [hres] at hcalls
    cases result with
    | error message => exact ⟨calls, by simp [exportLoop, hres], hcalls⟩
    | ok blob =>
      cases hname : chooseFileName host.caseMapping fuel useImageNames st.usedNamesByFolder
          entry.folderName entry.image (extensionOfBlob host.caseMapping blob)
          entry.indexInFolder with
      | none => exact ⟨calls, by simp [exportLoop, hres, hname], hcalls⟩
      | some named =>
        obtain ⟨fileName, table⟩ := named
        obtain ⟨added, hadd, hev⟩ := ih (i + 1)
          { progress := st.progress ++
              [(progressAfter i total,
                "Exporting " ++ toString (i + 1) ++ " / " ++ toString total ++ "…")],
            trace := st.trace ++ calls,
            zip := st.zip ++ [(zipPathOf entry.folderName fileName, blob)],
            usedNamesByFolder := table }
        refine ⟨calls ++ added, ?_, ?_⟩
        · simp only [exportLoop, hres, hname]
          rw [hadd, List.append_assoc]
        · intro ev hmem
          rw [List.mem_append] at hmem
          rcases hmem with h | h
          · exact hcalls ev h
          · exact hev ev h

/-! ## Content resolution and failure of a run -/

/-- With a regular case mapping and a bound above the number of used names of the folder,
`chooseFileName` returns a name, and no folder gains more than one used name. -/
theorem chooseFileName_some (cm : CaseMapping) (h : cm.Regular) (fuel : Nat)
    (useImageNames : Bool) (table : List (String × List String)) (folderName : String)
    (image : Item) (ext : String) (indexInFolder : Nat)
    (hfuel : (usedOf table folderName).length < fuel) :
    ∃ name table', chooseFileName cm fuel useImageNames table folderName image ext
        indexInFolder = some (name, table') ∧
      ∀ g, (usedOf table' g).length ≤ (usedOf table g).length + 1 := by
  have hsame : ∀ g, (usedOf (mapSet table folderName (usedOf table folderName)) g).length ≤
      (usedOf table g).length + 1 := by
    intro g
    rw [usedOf_mapSet_self]
    omega
  unfold chooseFileName
  simp only
  by_cases hu : useImageNames = false
  · rw [if_pos hu]
    exact ⟨_, _, rfl, hsame⟩
  · rw [if_neg hu]
    cases hn : nameOfTitle (image.title.map jsTrim) with
    | none => exact ⟨_, _, rfl, hsame⟩
    | some base =>
      simp only
      by_cases hb : base ≠ ""
      · rw [if_pos hb]
        obtain ⟨k, -, hk, hout, hloop⟩ := dedupLoop_terminates cm h (usedOf table folderName)
          base ext
        rw [hloop fuel (by omega)]
        simp only [if_neg hout]
        refine ⟨_, _, rfl, ?_⟩
        intro g
        rw [usedOf_mapSet, usedOf_mapSet_self]
        by_cases hg : g = folderName
        · rw [if_pos hg, hg]
          simp
        · rw [if_neg hg]
          omega
      · rw [if_neg hb]
        exact ⟨_, _, rfl, hsame⟩

theorem resolvedBlob_eq_some {host : Host} {image : Item} {blob : Blob} :
    resolvedBlob host image = some blob ↔ (resolveBlob host image).2 = .ok blob := by
  unfold resolvedBlob
  cases (resolveBlob host image).2 with
  | error e => simp
  | ok b => simp

/-- The loop over entries whose content resolves, followed by further entries: the loop goes
on with the further entries, after the calls, the archive entries and the progress reports of
the resolved ones. -/
theorem exportLoop_resolved (host : Host) (h : host.caseMapping.Regular) (fuel : Nat)
    (useImageNames : Bool) (total : Nat) (rest : List ExportEntry) :
    ∀ (done : List ExportEntry) (i : Nat) (st : RunState),
      (∀ p ∈ done, ∃ blob, (resolveBlob host p.image).2 = .ok blob) →
      (∀ g, (usedOf st.usedNamesByFolder g).length + done.length ≤ fuel) →
      ∃ st', exportLoop host fuel useImageNames total i (done ++ rest) st =
          exportLoop host fuel useImageNames total (i + done.length) rest st' ∧
        st'.trace = st.trace ++ done.flatMap (fun p => (resolveBlob host p.image).1) ∧
        st'.zip.map Prod.snd =
          st.zip.map Prod.snd ++ done.filterMap (fun p => resolvedBlob host p.image) ∧
        (∀ g, (usedOf st'.usedNamesByFolder g).length ≤
          (usedOf st.usedNamesByFolder g).length + done.length) := by
  intro done
  induction done with
  | nil =>
    intro i st _ _
    exact ⟨st, rfl, by simp, by simp, fun g => by simp⟩
  | cons entry more ih =>
    intro i st hres hfuel
    obtain ⟨blob, hblob⟩ := hres entry (List.mem_cons_self _ _)
    rcases hr : resolveBlob host entry.image with ⟨calls, result⟩
    rw [hr] at hblob
    simp only at hblob
    subst hblob
    obtain ⟨name, table, hname, hgrow⟩ := chooseFileName_some host.caseMapping h fuel
      useImageNames st.usedNamesByFolder entry.folderName entry.image
      (extensionOfBlob host.caseMapping blob) entry.indexInFolder
      (by have := hfuel entry.folderName; simp at this; omega)
    obtain ⟨st', hloop, htrace, hzip, hused⟩ := ih (i + 1)
      { progress := st.progress ++
          [(progressAfter i total,
            "Exporting " ++ toString (i + 1) ++ " / " ++ toString total ++ "…")],
        trace := st.trace ++ calls,
        zip := st.zip ++ [(zipPathOf entry.folderName name, blob)],
        usedNamesByFolder := table }
      (fun p hp => hres p (List.mem_cons_of_mem _ hp))
      (by
        intro g
        have h1 := hfuel g
        have h2 := hgrow g
        simp only [List.length_cons] at h1
        simp only
        omega)
    refine ⟨st', ?_, ?_, ?_, ?_⟩
    · rw [List.cons_append]
      simp only [exportLoop, hr, hname]
      rw [hloop, List.length_cons]
      congr 1
      omega
    · rw [htrace, List.flatMap_cons, hr]
      simp
    · rw [hzip, List.filterMap_cons]
      have : resolvedBlob host entry.image = some blob := by
        rw [resolvedBlob_eq_some, hr]
      rw [this]
      simp
    · intro g
      have h1 := hused g
      have h2 := hgrow g
      simp only [List.length_cons] at h1 ⊢
      omega

theorem exists_first_failure (host : Host) :
    ∀ entries : List ExportEntry,
      (∃ e ∈ entries, ∃ message, (resolveBlob host e.image).2 = .error message) →
      ∃ done e rest message, entries = done ++ e :: rest ∧
        (∀ p ∈ done, ∃ blob, (resolveBlob host p.image).2 = .ok blob) ∧
        (resolveBlob host e.image).2 = .error message := by
  intro entries
  induction entries with
  | nil => rintro ⟨e, he, -⟩; cases he
  | cons a t ih =>
    rintro ⟨e, he, message, hmsg⟩
    cases ha : (resolveBlob host a.image).2 with
    | error m => exact ⟨[], a, t, m, rfl, by simp, ha⟩
    | ok blob =>
      rw [List.mem_cons] at he
      rcases he with rfl | he
      · rw [ha] at hmsg
        cases hmsg
      · obtain ⟨done, e', rest, m, heq, hdone, hfail⟩ := ih ⟨e, he, message, hmsg⟩
        refine ⟨a :: done, e', rest, m, by rw [heq]; rfl, ?_, hfail⟩
        intro p hp
        rw [List.mem_cons] at hp
        rcases hp with rfl | hp
        · exact ⟨blob, ha⟩
        · exact hdone p hp

theorem runExport_of_thrown (host : Host) (fuel : Nat) (selection : List Item)
    (hsel : host.getSelection = .ok selection) (himg : imagesOf selection ≠ [])
    (st' : RunState) (message : String)
    (hloop : exportLoop host fuel (host.useNamesToggle.getD true)
      (buildExportList host.getById (imagesOf selection)).length 0
      (buildExportList host.getById (imagesOf selection)) (initialState (imagesOf selection)) =
      (st', LoopEnd.thrown message)) :
    (runExport host fuel).outcome = Outcome.failed (errorMessage message) ∧
    (runExport host fuel).trace = st'.trace ∧ (runExport host fuel).zip = st'.zip := by
  have hne : ¬ (imagesOf selection).length = 0 := by
    rw [List.length_eq_zero]; exact himg
  unfold initialState imagesOf at hloop
  unfold imagesOf at hne
  unfold runExport
  simp only [hsel]
  rw [if_neg hne]
  simp only [hloop]
  exact ⟨trivial, trivial, trivial⟩

theorem runExport_of_completed (host : Host) (fuel : Nat) (selection : List Item)
    (hsel : host.getSelection = .ok selection) (himg : imagesOf selection ≠ [])
    (hgen : host.generateError = none) (st' : RunState)
    (hloop : exportLoop host fuel (host.useNamesToggle.getD true)
      (buildExportList host.getById (imagesOf selection)).length 0
      (buildExportList host.getById (imagesOf selection)) (initialState (imagesOf selection)) =
      (st', LoopEnd.completed)) :
    (∃ message, (runExport host fuel).outcome = Outcome.done message st'.zip) ∧
    (runExport host fuel).trace = st'.trace ++ [Event.generateAsync] ∧
    (runExport host fuel).zip = st'.zip := by
  have hne : ¬ (imagesOf selection).length = 0 := by
    rw [List.length_eq_zero]; exact himg
  unfold initialState imagesOf at hloop
  unfold imagesOf at hne
  unfold runExport
  simp only [hsel]
  rw [if_neg hne]
  simp only [hloop, hgen]
  exact ⟨⟨_, rfl⟩, trivial, trivial⟩

theorem imagesOf_ne_nil {selection : List Item}
    (h : ∃ item ∈ selection, item.type = "image") : imagesOf selection ≠ [] := by
  obtain ⟨item, hitem, htype⟩ := h
  intro hnil
  have hmem : item ∈ imagesOf selection := by
    unfold imagesOf
    rw [List.mem_filter]
    exact ⟨hitem, by simpa using htype⟩
  rw [hnil] at hmem
  cases hmem

theorem resolveBlob_error_iff (host : Host) (image : Item) (message : String) :
    (resolveBlob host image).2 = .error message ↔
      (∃ e, host.getFile image = .error e) ∧
        (host.getDataUrl image = .error message ∨
          ∃ url, host.getDataUrl image = .ok url ∧ host.fetchBlob url = .error message) := by
  unfold resolveBlob
  cases hf : host.getFile image with
  | ok file => simp
  | error e =>
    cases hd : host.getDataUrl image with
    | error e' => simp
    | ok url =>
      cases hb : host.fetchBlob url with
      | error e'' => simp [hb]
      | ok blob => simp [hb]

/-- C12: the content of an image is its original file when `getFile` succeeds, and then
`getFile` is the only call made; it is the blob fetched from the data URL when `getFile` fails
and the data URL and its fetch succeed; it is an error exactly when `getFile` fails and the data
URL or its fetch fails. In a run with at least one image, a regular case mapping, a loop bound of
at least the length of the export list and an archive that can be generated, the run ends in
failure exactly when the content of some entry of the export list is an error; it then ends with
the message of the first such entry, after the content calls for the entries up to and
including that one and no others, with the blobs of the earlier entries put into the archive. -/
theorem content_resolution (host : Host) (fuel : Nat) (selection : List Item)
    (hsel : host.getSelection = .ok selection)
    (himg : ∃ item ∈ selection, item.type = "image")
    (hgen : host.generateError = none) (hreg : host.caseMapping.Regular)
    (hfuel : (buildExportList host.getById (imagesOf selection)).length ≤ fuel) :
    (∀ img blob, host.getFile img = .ok blob →
      resolveBlob host img = ([Event.getFile img], .ok blob)) ∧
    (∀ img e url blob, host.getFile img = .error e → host.getDataUrl img = .ok url →
      host.fetchBlob url = .ok blob →
      resolveBlob host img =
        ([Event.getFile img, Event.getDataUrl img, Event.fetch url], .ok blob)) ∧
    (∀ img message, (resolveBlob host img).2 = .error message ↔
      (∃ e, host.getFile img = .error e) ∧
        (host.getDataUrl img = .error message ∨
          ∃ url, host.getDataUrl img = .ok url ∧ host.fetchBlob url = .error message)) ∧
    ((∃ message, (runExport host fuel).outcome = Outcome.failed message) ↔
      ∃ e ∈ buildExportList host.getById (imagesOf selection), ∃ message,
        (resolveBlob host e.image).2 = .error message) ∧
    (∀ done e rest message,
      buildExportList host.getById (imagesOf selection) = done ++ e :: rest →
      (∀ p ∈ done, ∃ blob, (resolveBlob host p.image).2 = .ok blob) →
      (resolveBlob host e.image).2 = .error message →
      (runExport host fuel).outcome = Outcome.failed (errorMessage message) ∧
      (runExport host fuel).trace =
        (initialState (imagesOf selection)).trace ++
          (done ++ [e]).flatMap (fun p => (resolveBlob host p.image).1) ∧
      (runExport host fuel).zip.map Prod.snd =
        done.filterMap (fun p => resolvedBlob host p.image)) := by
  have hne := imagesOf_ne_nil himg
  have hstop : ∀ done e rest message,
      buildExportList host.getById (imagesOf selection) = done ++ e :: rest →
      (∀ p ∈ done, ∃ blob, (resolveBlob host p.image).2 = .ok blob) →
      (resolveBlob host e.image).2 = .error message →
      (runExport host fuel).outcome = Outcome.failed (errorMessage message) ∧
      (runExport host fuel).trace =
        (initialState (imagesOf selection)).trace ++
          (done ++ [e]).flatMap (fun p => (resolveBlob host p.image).1) ∧
      (runExport host fuel).zip.map Prod.snd =
        done.filterMap (fun p => resolvedBlob host p.image) := by
    intro done e rest message hplan hdone hfail
    have hlen : done.length ≤ (buildExportList host.getById (imagesOf selection)).length := by
      rw [hplan]; simp
    obtain ⟨st', hloop, htrace, hzip, -⟩ := exportLoop_resolved host hreg fuel
      (host.useNamesToggle.getD true)
      (buildExportList host.getById (imagesOf selection)).length (e :: rest) done 0
      (initialState (imagesOf selection)) hdone
      (by intro g; simp [initialState, usedOf, mapGet]; omega)
    rcases hr : resolveBlob host e.image with ⟨calls, result⟩
    rw [hr] at hfail
    simp only at hfail
    subst hfail
    have hstep : exportLoop host fuel (host.useNamesToggle.getD true)
        (buildExportList host.getById (imagesOf selection)).length (0 + done.length)
        (e :: rest) st' =
        ({ st' with trace := st'.trace ++ calls }, LoopEnd.thrown message) := by
      simp only [exportLoop, hr]
    rw [← hplan, hstep] at hloop
    obtain ⟨hout, htr, hz⟩ := runExport_of_thrown host fuel selection hsel hne _ message hloop
    refine ⟨hout, ?_, ?_⟩
    · rw [htr]
      simp only
      rw [htrace, List.flatMap_append, List.append_assoc]
      simp [hr]
    · rw [hz]
      simp only
      rw [hzip]
      simp [initialState]
  refine ⟨?_, ?_, resolveBlob_error_iff host, ?_, hstop⟩
  · intro img blob hf
    unfold resolveBlob
    rw [hf]
  · intro img e url blob hf hd hb
    unfold resolveBlob
    rw [hf]
    simp only [hd, hb]
  · constructor
    · rintro ⟨message, hout⟩
      by_contra hno
      have hall : ∀ p ∈ buildExportList host.getById (imagesOf selection),
          ∃ blob, (resolveBlob host p.image).2 = .ok blob := by
        intro p hp
        cases hres : (resolveBlob host p.image).2 with
        | error m => exact absurd ⟨p, hp, m, hres⟩ hno
        | ok blob => exact ⟨blob, rfl⟩
      obtain ⟨st', hloop, -, -, -⟩ := exportLoop_resolved host hreg fuel
        (host.useNamesToggle.getD true)
        (buildExportList host.getById (imagesOf selection)).length []
        (buildExportList host.getById (imagesOf selection)) 0
        (initialState (imagesOf selection)) hall
        (by intro g; simp [initialState, usedOf, mapGet]; omega)
      rw [List.append_nil] at hloop
      have hend : exportLoop host fuel (host.useNamesToggle.getD true)
          (buildExportList host.getById (imagesOf selection)).length
          (0 + (buildExportList host.getById (imagesOf selection)).length) [] st' =
          (st', LoopEnd.completed) := by
        simp only [exportLoop]
      rw [hend] at hloop
      obtain ⟨⟨m, hdone⟩, -, -⟩ := runExport_of_completed host fuel selection hsel hne hgen
        st' hloop
      rw [hdone] at hout
      cases hout
    · intro hex
      obtain ⟨done, e, rest, message, hplan, hdone, hfail⟩ := exists_first_failure host _ hex
      exact ⟨_, (hstop done e rest message hplan hdone hfail).1⟩

theorem content_resolution_witness :
    (∃ message, (runExport failingHost 4).outcome = Outcome.failed message) ↔
      ∃ e ∈ buildExportList failingHost.getById (imagesOf
        (sampleImages ++ [(⟨"s1", "sticky_note", none, none, none, none⟩ : Item)])), ∃ message,
        (resolveBlob failingHost e.image).2 = .error message :=
  (content_resolution failingHost 4
    (sampleImages ++ [(⟨"s1", "sticky_note", none, none, none, none⟩ : Item)]) rfl
    ⟨⟨"i1", "image", none, some "F1", some 30, some 0⟩, by decide, rfl⟩ rfl
    asciiLower_regular (by decide)).2.2.2.1

/-! ## Archive paths -/

/-- C15, as stated, fails: for a root image whose blob reports the content type `image/a/b`
the extension is `.a/b`, and the path put into the archive contains a `/` although the folder
name is `""`. -/
theorem zipPath_with_slash_in_extension :
    buildExportList slashHost.getById [⟨"i1", "image", none, none, some 0, some 0⟩] =
      [{ image := ⟨"i1", "image", none, none, some 0, some 0⟩, folderName := "",
         indexInFolder := 1 }] ∧
    zipPaths (runExport slashHost 1).zip = ["image-001.a/b"] ∧
    '/' ∈ "image-001.a/b".data := by
  decide

theorem dedupLoop_result (cm : CaseMapping) (used : List String) (base ext : String) :
    ∀ (fuel n : Nat) (c : String), 1 ≤ n →
      dedupLoop cm used base ext fuel n (nthName base ext n) = some c →
      ∃ k, c = nthName base ext k := by
  intro fuel
  induction fuel with
  | zero =>
    intro n c _ h
    simp [dedupLoop] at h
  | succ fuel ih =>
    intro n c hn h
    unfold dedupLoop at h
    split at h
    · rw [← nthName_succ base ext n hn] at h
      exact ih (n + 1) c (by omega) h
    · exact ⟨n, (Option.some.inj h).symm⟩

theorem slash_not_in_numericName (indexInFolder : Nat) (ext : String)
    (hext : '/' ∉ ext.data) : '/' ∉ (numericName indexInFolder ext).data := by
  unfold numericName padStart
  simp only [String.data_append, List.mem_append, not_or]
  refine ⟨⟨by decide, ?_, ?_⟩, hext⟩
  · intro h
    have := List.eq_of_mem_replicate h
    cases this
  · intro h
    have := (toString_data indexInFolder).2.1 _ h
    revert this
    decide

theorem slash_not_in_nthName (base ext : String) (k : Nat)
    (hbase : '/' ∉ base.data) (hext : '/' ∉ ext.data) :
    '/' ∉ (nthName base ext k).data := by
  obtain ⟨mid, hdata, hmid, -, -⟩ := nthName_data base ext k
  rw [hdata]
  simp only [List.mem_append, not_or]
  refine ⟨hbase, ?_, hext⟩
  intro h
  rcases hmid _ h with h1 | h1
  · revert h1; decide
  · revert h1; decide

/-- A file name returned by `chooseFileName` has no `/` when the extension has none. -/
theorem slash_not_in_fileName (cm : CaseMapping) (fuel : Nat) (useImageNames : Bool)
    (table : List (String × List String)) (folderName : String) (image : Item) (ext : String)
    (indexInFolder : Nat) (fileName : String) (table' : List (String × List String))
    (hname : chooseFileName cm fuel useImageNames table folderName image ext indexInFolder =
      some (fileName, table'))
    (hext : '/' ∉ ext.data) : '/' ∉ fileName.data := by
  have hnum := slash_not_in_numericName indexInFolder ext hext
  unfold chooseFileName at hname
  simp only at hname
  split at hname
  · cases hname; exact hnum
  · split at hname
    · rename_i base hbase
      split at hname
      · split at hname
        · rename_i candidate hloop
          cases hname
          rw [← nthName_one] at hloop
          obtain ⟨k, rfl⟩ := dedupLoop_result cm _ base ext fuel 1 _ (le_refl 1) hloop
          obtain ⟨t, rfl⟩ : ∃ t, base = safeName t := by
            unfold nameOfTitle at hbase
            split at hbase
            · split at hbase
              · exact ⟨_, (Option.some.inj hbase).symm⟩
              · cases hbase
            · cases hbase
          exact slash_not_in_nthName _ ext k (safeName_legal t '/' (by decide)) hext
        · cases hname
      · cases hname; exact hnum
    · cases hname; exact hnum

/-- C15, amended: for every entry of the plan, both toggle values, every title and every blob
whose extension holds no `/`, the path put into the archive is the file name and holds no `/`
when the folder name is `""`, and is the folder name, a `/` and the file name, with exactly one
`/`, when the folder name is not `""`. -/
theorem zipPath_shape (cm : CaseMapping) (fuel : Nat) (useImageNames : Bool)
    (table : List (String × List String))
    (getById : String → Except String (Option FrameData)) (images : List Item)
    (e : ExportEntry) (he : e ∈ buildExportList getById images) (blob : Blob)
    (fileName : String) (table' : List (String × List String))
    (hname : chooseFileName cm fuel useImageNames table e.folderName e.image
      (extensionOfBlob cm blob) e.indexInFolder = some (fileName, table'))
    (hext : '/' ∉ (extensionOfBlob cm blob).data) :
    (e.folderName = "" →
      zipPathOf e.folderName fileName = fileName ∧
      (zipPathOf e.folderName fileName).data.count '/' = 0) ∧
    (e.folderName ≠ "" →
      zipPathOf e.folderName fileName = e.folderName ++ "/" ++ fileName ∧
      (zipPathOf e.folderName fileName).data.count '/' = 1) := by
  have hfile := slash_not_in_fileName cm fuel useImageNames table e.folderName e.image _
    e.indexInFolder fileName table' hname hext
  constructor
  · intro hf
    have hz : zipPathOf e.folderName fileName = fileName := by
      unfold zipPathOf
      rw [if_neg (by simpa using hf)]
    rw [hz]
    exact ⟨rfl, List.count_eq_zero.mpr hfile⟩
  · intro hf
    have hz : zipPathOf e.folderName fileName = e.folderName ++ "/" ++ fileName := by
      unfold zipPathOf
      rw [if_pos hf]
    have hfolder : '/' ∉ e.folderName.data := by
      rcases mem_buildExportList getById images e he with ⟨-, h0, -⟩ | ⟨i, f, hfr, -, hd, -⟩
      · exact absurd h0 hf
      · rw [hd]
        exact (displayName_legal getById images i f (List.getElem?_mem hfr)).2 '/' (by decide)
    rw [hz]
    refine ⟨rfl, ?_⟩
    simp only [String.data_append, List.count_append]
    rw [List.count_eq_zero.mpr hfolder, List.count_eq_zero.mpr hfile]
    rfl

theorem zipPath_shape_witness :
    ("Sprint Plan" = "" →
      zipPathOf "Sprint Plan" "image-002.png" = "image-002.png" ∧
      (zipPathOf "Sprint Plan" "image-002.png").data.count '/' = 0) ∧
    ("Sprint Plan" ≠ "" →
      zipPathOf "Sprint Plan" "image-002.png" = "Sprint Plan" ++ "/" ++ "image-002.png" ∧
      (zipPathOf "Sprint Plan" "image-002.png").data.count '/' = 1) :=
  zipPath_shape asciiLower 0 false [] sampleBoard sampleImages
    { image := ⟨"i1", "image", none, some "F1", some 30, some 0⟩, folderName := "Sprint Plan",
      indexInFolder := 2 }
    (by decide) ⟨"image/png", "i1"⟩ "image-002.png"
    (mapSet [] "Sprint Plan" (usedOf [] "Sprint Plan")) (by decide) (by decide)

theorem extensionFromMime_png (cm : CaseMapping) (hlower : toLowerCase cm "png" = "png") :
    extensionFromMime cm (some "image/png") = ".png" := by
  have hdrop : (⟨"image/png".data.drop 6⟩ : String) = "png" := by decide
  unfold extensionFromMime
  simp only
  rw [if_neg (by decide), hdrop, hlower, if_neg (by decide)]
  rfl

/-! ## Numeric naming, end to end -/

theorem chooseFileName_numeric_eq (cm : CaseMapping) (fuel : Nat) (useImageNames : Bool)
    (table : List (String × List String)) (folderName : String) (image : Item) (ext : String)
    (indexInFolder : Nat)
    (h : useImageNames = false ∨ ∀ t, image.title = some t → jsTrim t = "") :
    chooseFileName cm fuel useImageNames table folderName image ext indexInFolder =
      some (numericName indexInFolder ext, mapSet table folderName (usedOf table folderName)) := by
  unfold chooseFileName
  simp only
  by_cases hu : useImageNames = false
  · rw [if_pos hu]
  · rw [if_neg hu]
    have ht : nameOfTitle (image.title.map jsTrim) = none := by
      rcases h with h | h
      · exact absurd h hu
      · cases hti : image.title with
        | none => rfl
        | some t => simp [nameOfTitle, h t hti]
    rw [ht]

theorem extensionOfBlob_png (cm : CaseMapping) (hlower : toLowerCase cm "png" = "png")
    (blob : Blob) (h : blob.type = "image/png") : extensionOfBlob cm blob = ".png" := by
  unfold extensionOfBlob
  rw [h, if_pos (by decide)]
  have := (extensionFromMime_png cm hlower)
  exact this

/-- The loop in numeric naming mode over entries whose content resolves with the type
`image/png`: it completes, and puts one path for each entry into the archive. -/
theorem exportLoop_numeric (host : Host) (fuel : Nat) (useImageNames : Bool) (total : Nat)
    (hlower : toLowerCase host.caseMapping "png" = "png") :
    ∀ (entries : List ExportEntry) (i : Nat) (st : RunState),
      (∀ e ∈ entries, ∃ blob, (resolveBlob host e.image).2 = .ok blob ∧
        blob.type = "image/png") →
      (∀ e ∈ entries, useImageNames = false ∨ ∀ t, e.image.title = some t → jsTrim t = "") →
      ∃ st', exportLoop host fuel useImageNames total i entries st = (st', LoopEnd.completed) ∧
        zipPaths st'.zip = zipPaths st.zip ++
          entries.map (fun e => zipPathOf e.folderName (numericName e.indexInFolder ".png")) ∧
        st'.zip.map Prod.snd =
          st.zip.map Prod.snd ++ entries.filterMap (fun e => resolvedBlob host e.image) := by
  intro entries
  induction entries with
  | nil =>
    intro i st _ _
    exact ⟨st, rfl, by simp, by simp⟩
  | cons entry rest ih =>
    intro i st hres hnum
    obtain ⟨blob, hblob, htype⟩ := hres entry (List.mem_cons_self _ _)
    rcases hr : resolveBlob host entry.image with ⟨calls, result⟩
    rw [hr] at hblob
    simp only at hblob
    subst hblob
    have hname := chooseFileName_numeric_eq host.caseMapping fuel useImageNames
      st.usedNamesByFolder entry.folderName entry.image
      (extensionOfBlob host.caseMapping blob) entry.indexInFolder
      (hnum entry (List.mem_cons_self _ _))
    rw [extensionOfBlob_png host.caseMapping hlower blob htype] at hname
    obtain ⟨st', hloop, hpaths, hblobs⟩ := ih (i + 1)
      { progress := st.progress ++
          [(progressAfter i total,
            "Exporting " ++ toString (i + 1) ++ " / " ++ toString total ++ "…")],
        trace := st.trace ++ calls,
        zip := st.zip ++
          [(zipPathOf entry.folderName (numericName entry.indexInFolder ".png"), blob)],
        usedNamesByFolder :=
          mapSet st.usedNamesByFolder entry.folderName
            (usedOf st.usedNamesByFolder entry.folderName) }
      (fun e he => hres e (List.mem_cons_of_mem _ he))
      (fun e he => hnum e (List.mem_cons_of_mem _ he))
    refine ⟨st', ?_, ?_, ?_⟩
    · simp only [exportLoop, hr, extensionOfBlob_png host.caseMapping hlower blob htype, hname]
      exact hloop
    · rw [hpaths]
      simp [zipPaths]
    · rw [hblobs, List.filterMap_cons]
      have : resolvedBlob host entry.image = some blob := by
        rw [resolvedBlob_eq_some, hr]
      rw [this]
      simp

theorem map_paths_folderEntries (folderName : String) (imgs : List Item) :
    (folderEntries folderName imgs).map
        (fun e => zipPathOf e.folderName (numericName e.indexInFolder ".png")) =
      numericPaths folderName imgs.length := by
  unfold folderEntries numericPaths
  rw [List.map_map, ← List.enum_map_fst imgs, List.map_map]
  rfl

theorem numericPaths_root (count : Nat) :
    numericPaths "" count = (List.range count).map fun j => numericName (j + 1) ".png" := by
  unfold numericPaths zipPathOf
  apply List.map_congr_left
  intro j _
  rw [if_neg (by simp)]

theorem numericPaths_folder (folderName : String) (h : folderName ≠ "") (count : Nat) :
    numericPaths folderName count =
      (List.range count).map fun j => folderName ++ "/" ++ numericName (j + 1) ".png" := by
  unfold numericPaths zipPathOf
  apply List.map_congr_left
  intro j _
  rw [if_pos h]

theorem flatMap_enumFrom_images (images : List Item) (fs : List FrameEntry) :
    ∀ n : Nat,
      ((fs.enumFrom n).flatMap fun p =>
        folderEntries (displayName p.1 p.2)
          (sortByPosition (images.filter fun i => decide (i.parentId = some p.2.id)))).map
        (fun e => e.image) =
      fs.flatMap fun f =>
        sortByPosition (images.filter fun i => decide (i.parentId = some f.id)) := by
  induction fs with
  | nil => intro n; rfl
  | cons f t ih =>
    intro n
    rw [List.enumFrom_cons, List.flatMap_cons, List.map_append, folderEntries_images,
      List.flatMap_cons, ih (n + 1)]

/-- The images of the plan, in plan order: the images without a parent in sorted order, then
for each container in the order of `framesWithPosition` its images in sorted order. -/
theorem buildExportList_images (getById : String → Except String (Option FrameData))
    (images : List Item) :
    (buildExportList getById images).map (fun e => e.image) =
      sortByPosition (images.filter fun i => decide (i.parentId = none)) ++
        (framesWithPosition getById images).flatMap fun f =>
          sortByPosition (images.filter fun i => decide (i.parentId = some f.id)) := by
  rw [buildExportList_eq, List.map_append, folderEntries_images, List.enum,
    flatMap_enumFrom_images]

theorem buildExportList_numericPaths (getById : String → Except String (Option FrameData))
    (images : List Item) :
    (buildExportList getById images).map
        (fun e => zipPathOf e.folderName (numericName e.indexInFolder ".png")) =
      ((List.range (images.filter fun i => decide (i.parentId = none)).length).map
        fun j => numericName (j + 1) ".png") ++
      (framesWithPosition getById images).enum.flatMap fun p =>
        (List.range (images.filter fun i => decide (i.parentId = some p.2.id)).length).map
          fun j => displayName p.1 p.2 ++ "/" ++ numericName (j + 1) ".png" := by
  rw [buildExportList_eq, List.map_append, map_paths_folderEntries, numericPaths_root,
    List.map_flatMap, List.flatMap_def, List.flatMap_def]
  unfold sortByPosition
  rw [jsSort_length]
  congr 2
  apply List.map_congr_left
  intro p hp
  have hget : (framesWithPosition getById images)[p.1]? = some p.2 := by
    have : (p.1, p.2) ∈ (framesWithPosition getById images).enum := hp
    rwa [List.mk_mem_enum_iff_getElem?] at this
  rw [map_paths_folderEntries, jsSort_length,
    numericPaths_folder _ (displayName_legal getById images p.1 p.2 (List.getElem?_mem hget)).1]

/-! ## Containers with the same display name -/

/-- C17: the containers `F1` and `F2` of `mergeBoard` are different, their titles `Q1/Q2` and
`Q1:Q2` both give the display name `Q1_Q2`, the plan holds one entry of each container under
that folder name, both with index 1, and with the title toggle off and the same extension the
two different images are put into the archive under the same path. -/
theorem merged_folders :
    (framesWithPosition mergeBoard mergeImages).map (fun f => f.id) = ["F1", "F2"] ∧
    mapGet (frameNames (framesWithPosition mergeBoard mergeImages)) "F1" = some "Q1_Q2" ∧
    mapGet (frameNames (framesWithPosition mergeBoard mergeImages)) "F2" = some "Q1_Q2" ∧
    buildExportList mergeBoard mergeImages =
      [ { image := ⟨"i1", "image", none, some "F1", some 10, some 10⟩, folderName := "Q1_Q2",
          indexInFolder := 1 },
        { image := ⟨"i2", "image", none, some "F2", some 910, some 10⟩, folderName := "Q1_Q2",
          indexInFolder := 1 } ] ∧
    (runExport mergeHost 0).zip =
      [ ("Q1_Q2/image-001.png", ⟨"image/png", "i1"⟩),
        ("Q1_Q2/image-001.png", ⟨"image/png", "i2"⟩) ] := by
  decide

/-! ## The extension of a mime type -/

theorem asciiLower_lowersAscii : asciiLower.LowersAscii :=
  ⟨fun _ _ _ _ => rfl⟩

theorem lowerFrom_ascii (cm : CaseMapping) (h : cm.LowersAscii) :
    ∀ (cs pre : List Char), (∀ c ∈ cs, c.toNat < 128) →
      cm.lowerFrom pre cs = cs.map Char.toLower := by
  intro cs
  induction cs with
  | nil => intro pre _; rfl
  | cons c rest ih =>
    intro pre hall
    rw [lowerFrom_cons, h.lowers pre rest c (hall c (List.mem_cons_self _ _)),
      ih (pre ++ [c]) (fun d hd => hall d (List.mem_cons_of_mem _ hd))]
    rfl

theorem toLowerCase_ascii (cm : CaseMapping) (h : cm.LowersAscii) (s : String)
    (hs : ∀ c ∈ s.data, c.toNat < 128) :
    toLowerCase cm s = ⟨s.data.map Char.toLower⟩ := by
  unfold toLowerCase
  rw [lowerFrom_ascii cm h s.data [] hs]

/-- C2: `extensionFromMime` always starts with a dot; it is `.png` when the mime type is absent,
empty or does not start with `image/`; for `image/` followed by `sub` it is `.jpg` when the
lower-cased `sub` is `jpeg`, and otherwise the dot followed by the lower-cased `sub`. When
`toLowerCase` lowers the letters `A`..`Z` and keeps the other characters below 128, a subtype
below 128 that spells `jpeg` in any letter case gives `.jpg`, so `image/jpeg` and `image/JPEG`
give `.jpg`, and every other such subtype gives the dot followed by its lower-cased letters. -/
theorem extensionFromMime_spec (cm : CaseMapping) (mime : Option String) :
    (∃ rest, (extensionFromMime cm mime).data = '.' :: rest) ∧
    ((∀ m, mime = some m → m = "" ∨ ¬ ("image/".data <+: m.data)) →
      extensionFromMime cm mime = ".png") ∧
    (∀ sub, mime = some ("image/" ++ sub) →
      extensionFromMime cm mime =
        if toLowerCase cm sub = "jpeg" then ".jpg" else "." ++ toLowerCase cm sub) ∧
    (cm.LowersAscii →
      extensionFromMime cm (some "image/jpeg") = ".jpg" ∧
      extensionFromMime cm (some "image/JPEG") = ".jpg" ∧
      extensionFromMime cm (some "image/PNG") = ".png" ∧
      ∀ sub : String, (∀ c ∈ sub.data, c.toNat < 128) → mime = some ("image/" ++ sub) →
        (sub.data.map Char.toLower = "jpeg".data → extensionFromMime cm mime = ".jpg") ∧
        (sub.data.map Char.toLower ≠ "jpeg".data →
          extensionFromMime cm mime = "." ++ ⟨sub.data.map Char.toLower⟩)) := by
  have hgen : ∀ (sub : String), extensionFromMime cm (some ("image/" ++ sub)) =
      if toLowerCase cm sub = "jpeg" then ".jpg" else "." ++ toLowerCase cm sub := by
    intro sub
    unfold extensionFromMime
    have hne : ¬ (("image/" ++ sub) = "" ∨ ¬ ("image/".data <+: ("image/" ++ sub).data)) := by
      intro h
      rcases h with h | h
      · have := congrArg String.length h
        simp [String.length_append] at this
        exact absurd this.1 (by decide)
      · exact h ⟨sub.data, rfl⟩
    simp only
    rw [if_neg hne, drop_image_prefix]
  have hascii : cm.LowersAscii → ∀ sub : String, (∀ c ∈ sub.data, c.toNat < 128) →
      (sub.data.map Char.toLower = "jpeg".data →
        extensionFromMime cm (some ("image/" ++ sub)) = ".jpg") ∧
      (sub.data.map Char.toLower ≠ "jpeg".data →
        extensionFromMime cm (some ("image/" ++ sub)) = "." ++ ⟨sub.data.map Char.toLower⟩) := by
    intro h sub hs
    rw [hgen sub, toLowerCase_ascii cm h sub hs]
    constructor
    · intro heq
      rw [if_pos (String.ext heq)]
    · intro hne
      rw [if_neg (fun heq => hne (congrArg String.data heq))]
  refine ⟨?_, ?_, ?_, ?_⟩
  · unfold extensionFromMime
    split
    · exact ⟨_, rfl⟩
    · split
      · exact ⟨_, rfl⟩
      · simp only
        split
        · exact ⟨_, rfl⟩
        · exact ⟨_, rfl⟩
  · intro h
    unfold extensionFromMime
    split
    · rfl
    · rw [if_pos (h _ rfl)]
  · intro sub h
    subst h
    exact hgen sub
  · intro h
    refine ⟨(hascii h "jpeg" (by decide)).1 (by decide),
      (hascii h "JPEG" (by decide)).1 (by decide),
      (hascii h "PNG" (by decide)).2 (by decide), ?_⟩
    intro sub hs hm
    subst hm
    exact hascii h sub hs

theorem extensionFromMime_spec_witness :
    extensionFromMime asciiLower (some "image/JPEG") = ".jpg" ∧
    extensionFromMime asciiLower (some "image/PNG") = ".png" :=
  ⟨((extensionFromMime_spec asciiLower none).2.2.2 asciiLower_lowersAscii).2.1,
   ((extensionFromMime_spec asciiLower none).2.2.2 asciiLower_lowersAscii).2.2.1⟩

/-! ## The comparators -/

theorem getD_map_cast {K : Type} [LinearOrderedField K] (v : Option Int) :
    (v.map fun z => (z : K)).getD 0 = ((v.getD 0 : Int) : K) := by
  cases v <;> simp

theorem comparePosition_cast (K : Type) [LinearOrderedField K] (a b : Item) :
    ((comparePosition a b : Int) : K) = comparePositions (a.position K) (b.position K) := by
  unfold comparePosition comparePositions Item.position
  simp only [getD_map_cast]
  have habs : |((a.y.getD 0 : Int) : K) - ((b.y.getD 0 : Int) : K)| > 1 ↔
      |a.y.getD 0 - b.y.getD 0| > 1 := by
    rw [← Int.cast_sub, ← Int.cast_abs]
    exact_mod_cast Iff.rfl
  by_cases h : |a.y.getD 0 - b.y.getD 0| > 1
  · rw [if_pos h, if_pos (habs.mpr h)]
    push_cast
    rfl
  · rw [if_neg h, if_neg (fun h' => h (habs.mp h'))]
    push_cast
    rfl

theorem compareFrames_cast (K : Type) [LinearOrderedField K] (f g : FrameEntry) :
    ((compareFrames f g : Int) : K) = compareFramePositions (f.position K) (g.position K) := by
  unfold compareFrames compareFramePositions FrameEntry.position
  simp only
  have habs : |((f.y : Int) : K) - ((g.y : Int) : K)| > 1 ↔ |f.y - g.y| > 1 := by
    rw [← Int.cast_sub, ← Int.cast_abs]
    exact_mod_cast Iff.rfl
  by_cases h : |f.y - g.y| > 1
  · rw [if_pos h, if_pos (habs.mpr h)]
    push_cast
    rfl
  · rw [if_neg h, if_neg (fun h' => h (habs.mp h'))]
    push_cast
    rfl

/-- C6: for two items with coordinates in any ordered field, whole or fractional, an absent
coordinate read as 0, the comparator of `sortByPosition` is `a.x - b.x` when the `y` values
differ by at most 1 and `a.y - b.y` when they differ by more than 1, so its sign is the sign of
the `x` difference, respectively of the `y` difference, whatever the other coordinates are; the
comparator used for the containers returns the same result on the same coordinates; and the
two comparators of the integer model are these comparators on integer coordinates. -/
theorem comparePosition_spec {K : Type} [LinearOrderedField K] (a b : Position K) :
    (|a.y.getD 0 - b.y.getD 0| ≤ 1 →
      comparePositions a b = a.x.getD 0 - b.x.getD 0 ∧
      (comparePositions a b < 0 ↔ a.x.getD 0 < b.x.getD 0) ∧
      (comparePositions a b = 0 ↔ a.x.getD 0 = b.x.getD 0) ∧
      (comparePositions a b > 0 ↔ a.x.getD 0 > b.x.getD 0)) ∧
    (|a.y.getD 0 - b.y.getD 0| > 1 →
      comparePositions a b = a.y.getD 0 - b.y.getD 0 ∧
      (comparePositions a b < 0 ↔ a.y.getD 0 < b.y.getD 0) ∧
      (comparePositions a b > 0 ↔ a.y.getD 0 > b.y.getD 0) ∧
      comparePositions a b ≠ 0) ∧
    compareFramePositions ⟨a.x.getD 0, a.y.getD 0⟩ ⟨b.x.getD 0, b.y.getD 0⟩ =
      comparePositions a b ∧
    (∀ i j : Item, ((comparePosition i j : Int) : K) =
      comparePositions (i.position K) (j.position K)) ∧
    (∀ f g : FrameEntry, ((compareFrames f g : Int) : K) =
      compareFramePositions (f.position K) (g.position K)) := by
  refine ⟨?_, ?_, rfl, comparePosition_cast K, compareFrames_cast K⟩
  · intro h
    have hc : comparePositions a b = a.x.getD 0 - b.x.getD 0 := by
      unfold comparePositions
      simp only
      rw [if_neg (not_lt.mpr h)]
    rw [hc]
    exact ⟨rfl, sub_neg, sub_eq_zero, sub_pos⟩
  · intro h
    have hc : comparePositions a b = a.y.getD 0 - b.y.getD 0 := by
      unfold comparePositions
      simp only
      rw [if_pos h]
    rw [hc]
    refine ⟨rfl, sub_neg, sub_pos, ?_⟩
    intro h0
    rw [h0, abs_zero] at h
    exact absurd h (by norm_num)

theorem comparePosition_spec_witness :
    comparePositions (K := ℚ) ⟨some 0, some (7 / 5)⟩ ⟨some 9, some 0⟩ = 7 / 5 ∧
    comparePositions (K := ℚ) ⟨some 0, some (3 / 5)⟩ ⟨some 9, some 0⟩ = -9 := by
  constructor
  · have h := (comparePosition_spec (K := ℚ) ⟨some 0, some (7 / 5)⟩ ⟨some 9, some 0⟩).2.1
      (by norm_num [abs_of_pos])
    rw [h.1]; norm_num
  · have h := (comparePosition_spec (K := ℚ) ⟨some 0, some (3 / 5)⟩ ⟨some 9, some 0⟩).1
      (by norm_num [abs_of_pos])
    rw [h.1]; norm_num

/-! ## The plan with any sort function -/

theorem insertionSortFunction_permutes : insertionSortFunction.Permutes :=
  fun _ compare l => jsSort_perm compare l

theorem buildExportListBy_insertionSort (getById : String → Except String (Option FrameData))
    (images : List Item) :
    buildExportListBy insertionSortFunction getById images = buildExportList getById images :=
  rfl

theorem framesWithPositionBy_insertionSort
    (getById : String → Except String (Option FrameData)) (images : List Item) :
    framesWithPositionBy insertionSortFunction getById images =
      framesWithPosition getById images :=
  rfl

theorem framesWithPositionBy_ids_perm (sort : SortFunction) (hs : sort.Permutes)
    (getById : String → Except String (Option FrameData)) (images : List Item) :
    ((framesWithPositionBy sort getById images).map fun f => f.id).Perm
      (truthyKeys (mapKeys (groupByParent images))) := by
  unfold framesWithPositionBy resolvedFrames
  refine ((hs FrameEntry compareFrames _).map _).trans ?_
  rw [List.map_map]
  have : ((fun f : FrameEntry => f.id) ∘ resolveFrame getById) = id := by
    funext id
    exact resolveFrame_id getById id
  rw [this, List.map_id]

theorem framesWithPositionBy_ids_nodup (sort : SortFunction) (hs : sort.Permutes)
    (getById : String → Except String (Option FrameData)) (images : List Item) :
    ((framesWithPositionBy sort getById images).map fun f => f.id).Nodup :=
  (framesWithPositionBy_ids_perm sort hs getById images).nodup_iff.mpr
    (truthyKeys_nodup _ (groupByParent_keys_nodup images))

theorem mem_framesWithPositionBy_ids (sort : SortFunction) (hs : sort.Permutes)
    (getById : String → Except String (Option FrameData)) (images : List Item) (id : String) :
    id ∈ (framesWithPositionBy sort getById images).map (fun f => f.id) ↔
      id ≠ "" ∧ ∃ img ∈ images, img.parentId = some id := by
  rw [(framesWithPositionBy_ids_perm sort hs getById images).mem_iff, mem_truthyKeys,
    groupByParent_mem_keys]
  constructor
  · rintro ⟨h | h, hne⟩
    · cases h
    · exact ⟨hne, h⟩
  · rintro ⟨hne, h⟩
    exact ⟨Or.inr h, hne⟩

theorem mem_framesWithPositionBy (sort : SortFunction) (hs : sort.Permutes)
    (getById : String → Except String (Option FrameData)) (images : List Item)
    (f : FrameEntry) (hf : f ∈ framesWithPositionBy sort getById images) :
    f = resolveFrame getById f.id := by
  unfold framesWithPositionBy at hf
  rw [(hs FrameEntry compareFrames _).mem_iff] at hf
  unfold resolvedFrames at hf
  rw [List.mem_map] at hf
  obtain ⟨id, -, rfl⟩ := hf
  rw [resolveFrame_id]

theorem flatMap_enumFrom_blocksBy (sort : SortFunction) (images : List Item)
    (names : List (String × String)) :
    ∀ (fs : List FrameEntry) (n : Nat),
      (∀ p ∈ fs.enumFrom n, mapGet names p.2.id = some (displayName p.1 p.2)) →
      (fs.flatMap fun f =>
        folderEntries ((mapGet names f.id).getD "Frame")
          (sortByPositionBy sort ((mapGet (groupByParent images) (some f.id)).getD []))) =
      (fs.enumFrom n).flatMap fun p =>
        folderEntries (displayName p.1 p.2)
          (sortByPositionBy sort (images.filter fun i => decide (i.parentId = some p.2.id))) := by
  intro fs
  induction fs with
  | nil => intro n _; rfl
  | cons f t ih =>
    intro n h
    rw [List.enumFrom_cons, List.flatMap_cons, List.flatMap_cons,
      ih (n + 1) (fun p hp => h p (by rw [List.enumFrom_cons]; exact List.mem_cons_of_mem _ hp)),
      h (n, f) (by rw [List.enumFrom_cons]; exact List.mem_cons_self _ _), groupByParent_get]
    rfl

theorem getElem?_of_mem_enum {α : Type} {l : List α} {p : Nat × α} (hp : p ∈ l.enum) :
    l[p.1]? = some p.2 := by
  have : (p.1, p.2) ∈ l.enum := hp
  rwa [List.mk_mem_enum_iff_getElem?] at this

/-- With any sort function that rearranges its input, the plan is the root block followed by
one block for each container, in the order of the sorted container list. -/
theorem buildExportListBy_eq (sort : SortFunction) (hs : sort.Permutes)
    (getById : String → Except String (Option FrameData)) (images : List Item) :
    buildExportListBy sort getById images =
      folderEntries ""
          (sortByPositionBy sort (images.filter fun i => decide (i.parentId = none))) ++
        (framesWithPositionBy sort getById images).enum.flatMap fun p =>
          folderEntries (displayName p.1 p.2)
            (sortByPositionBy sort
              (images.filter fun i => decide (i.parentId = some p.2.id))) := by
  unfold buildExportListBy
  simp only
  rw [groupByParent_get, List.enum]
  congr 1
  apply flatMap_enumFrom_blocksBy
  intro p hp
  exact frameNames_get _ (framesWithPositionBy_ids_nodup sort hs getById images) p.1 p.2
    (getElem?_of_mem_enum hp)

/-- C8: whatever rearrangement the engine's sort returns, the plan is the block of the images
without a parent, under the folder name `""`, followed by one block for each container in the
order of the sorted container list; the block of a container holds its images, sorted, under its
display name; in every block the entry at position `j` (from 0) has index `j + 1`; the
containers are the non-empty parent ids, each once. -/
theorem buildExportListBy_blocks (sort : SortFunction) (hs : sort.Permutes)
    (getById : String → Except String (Option FrameData)) (images : List Item) :
    ∃ blocks : List (List ExportEntry),
      buildExportListBy sort getById images =
        folderEntries ""
            (sortByPositionBy sort (images.filter fun i => decide (i.parentId = none))) ++
          blocks.flatten ∧
      blocks.length = (framesWithPositionBy sort getById images).length ∧
      (∀ (i : Nat) (f : FrameEntry), (framesWithPositionBy sort getById images)[i]? = some f →
        blocks[i]? = some (folderEntries (displayName i f)
          (sortByPositionBy sort
            (images.filter fun img => decide (img.parentId = some f.id))))) ∧
      (∀ k : Option String,
        (sortByPositionBy sort (images.filter fun img => decide (img.parentId = k))).Perm
          (images.filter fun img => decide (img.parentId = k))) ∧
      (∀ (folderName : String) (imgs : List Item),
        (folderEntries folderName imgs).length = imgs.length ∧
        ∀ (j : Nat) (img : Item), imgs[j]? = some img →
          (folderEntries folderName imgs)[j]? =
            some { image := img, folderName := folderName, indexInFolder := j + 1 }) ∧
      ((framesWithPositionBy sort getById images).map fun f => f.id).Nodup ∧
      (∀ id : String, id ∈ (framesWithPositionBy sort getById images).map (fun f => f.id) ↔
        id ≠ "" ∧ ∃ img ∈ images, img.parentId = some id) := by
  refine ⟨(framesWithPositionBy sort getById images).enum.map fun p =>
      folderEntries (displayName p.1 p.2)
        (sortByPositionBy sort (images.filter fun i => decide (i.parentId = some p.2.id))),
    ?_, ?_, ?_, ?_, ?_, framesWithPositionBy_ids_nodup sort hs getById images,
    mem_framesWithPositionBy_ids sort hs getById images⟩
  · rw [buildExportListBy_eq sort hs, List.flatMap_def]
  · simp
  · intro i f hf
    rw [List.getElem?_map, List.getElem?_enum, hf]
    rfl
  · intro k
    exact hs Item comparePosition _
  · intro folderName imgs
    refine ⟨folderEntries_length folderName imgs, ?_⟩
    intro j img hj
    rw [folderEntries_getElem?, hj]
    rfl

theorem buildExportListBy_blocks_witness :
    ∃ blocks : List (List ExportEntry),
      buildExportListBy insertionSortFunction sampleBoard sampleImages =
        folderEntries ""
            (sortByPositionBy insertionSortFunction
              (sampleImages.filter fun i => decide (i.parentId = none))) ++
          blocks.flatten ∧
      blocks.length = (framesWithPositionBy insertionSortFunction sampleBoard sampleImages).length :=
  let ⟨blocks, h1, h2, _⟩ :=
    buildExportListBy_blocks insertionSortFunction insertionSortFunction_permutes sampleBoard
      sampleImages
  ⟨blocks, h1, h2⟩

/-- C10: whatever rearrangement the engine's sort returns, the container at position `i`
(from 0) of the sorted list of all containers is named, in the map `frameNames`, by `safeName`
of its trimmed title when the lookup returns a title that is not blank, and by `Frame` followed
by `i + 1` in every other case; that name is the folder name of the entries of its block. -/
theorem displayNameBy_spec (sort : SortFunction) (hs : sort.Permutes)
    (getById : String → Except String (Option FrameData))
    (images : List Item) (i : Nat) (f : FrameEntry)
    (hf : (framesWithPositionBy sort getById images)[i]? = some f) :
    mapGet (frameNames (framesWithPositionBy sort getById images)) f.id =
      some (displayName i f) ∧
    (∀ d t, getById f.id = .ok (some d) → d.title = some t → jsTrim t ≠ "" →
      displayName i f = safeName (jsTrim t)) ∧
    ((∀ d t, getById f.id = .ok (some d) → d.title = some t → jsTrim t = "") →
      displayName i f = "Frame " ++ toString (i + 1)) ∧
    (∀ e ∈ buildExportListBy sort getById images, e.image.parentId = some f.id →
      e.folderName = displayName i f) := by
  have hres := mem_framesWithPositionBy sort hs getById images f (List.getElem?_mem hf)
  refine ⟨frameNames_get _ (framesWithPositionBy_ids_nodup sort hs getById images) i f hf,
    ?_, ?_, ?_⟩
  · intro d t hd ht hne
    rw [hres]
    simp [displayName, resolveFrame, resolveFrame_id, hd, ht, nameOfTitle, hne]
  · intro h
    have hname : f.name = none := by
      rw [hres]
      unfold resolveFrame
      cases hg : getById f.id with
      | error e => rfl
      | ok frame =>
        cases frame with
        | none => rfl
        | some d =>
          cases ht : d.title with
          | none => simp [nameOfTitle, ht]
          | some t => simp [nameOfTitle, ht, h d t hg ht]
    simp [displayName, hname]
  · intro e he hpar
    rw [buildExportListBy_eq sort hs, List.mem_append] at he
    rcases he with he | he
    · obtain ⟨hfn, himg⟩ := mem_folderEntries he
      have := (hs Item comparePosition _).mem_iff.mp himg
      simp [hpar] at this
    · rw [List.mem_flatMap] at he
      obtain ⟨p, hp, hep⟩ := he
      obtain ⟨hfn, himg⟩ := mem_folderEntries hep
      have hmem := (hs Item comparePosition _).mem_iff.mp himg
      simp only [List.mem_filter, decide_eq_true_eq] at hmem
      have hid : p.2.id = f.id := by
        have := hmem.2
        rw [hpar] at this
        exact (Option.some.inj this).symm
      have hp2 := getElem?_of_mem_enum hp
      have hnd := framesWithPositionBy_ids_nodup sort hs getById images
      have hi : p.1 = i := by
        have h1 : ((framesWithPositionBy sort getById images).map fun f => f.id)[p.1]? =
            some f.id := by rw [List.getElem?_map, hp2, ← hid]; rfl
        have h2 : ((framesWithPositionBy sort getById images).map fun f => f.id)[i]? =
            some f.id := by rw [List.getElem?_map, hf]; rfl
        have hlt1 := (List.getElem?_eq_some_iff.mp h1).1
        have hlt2 := (List.getElem?_eq_some_iff.mp h2).1
        have e1 := (List.getElem?_eq_some_iff.mp h1).2
        have e2 := (List.getElem?_eq_some_iff.mp h2).2
        exact (List.Nodup.getElem_inj_iff hnd).mp (e1.trans e2.symm)
      have hpf : p.2 = f := by
        rw [hi] at hp2
        rw [hf] at hp2
        exact (Option.some.inj hp2).symm
      rw [hfn, hi, hpf]

/-! ## Order of the output, with any sort function -/

theorem insertionSortFunction_sortsConsistent : insertionSortFunction.SortsConsistent := by
  intro α compare l hneg htr
  refine jsSort_pairwise compare l ?_ htr
  intro a ha b hb
  have := hneg a ha b hb
  omega

/-- On a comparator that is consistent on the elements of the list and under which no two
different elements tie, every sort function that sorts consistent comparators returns the list
of `jsSort`. -/
theorem sort_eq_jsSort (sort : SortFunction) (hs : sort.Permutes) (hc : sort.SortsConsistent)
    {α : Type} (compare : α → α → Int) (l : List α)
    (hneg : ∀ a ∈ l, ∀ b ∈ l, compare b a = -compare a b)
    (htr : ∀ a ∈ l, ∀ b ∈ l, ∀ c ∈ l, compare a b ≤ 0 → compare b c ≤ 0 → compare a c ≤ 0)
    (hanti : ∀ a ∈ l, ∀ b ∈ l, compare a b ≤ 0 → compare b a ≤ 0 → a = b) :
    sort α compare l = jsSort compare l := by
  refine eq_of_perm_of_pairwise (fun x y => compare x y ≤ 0) _ _
    ((hs α compare l).trans (jsSort_perm compare l).symm) (hc α compare l hneg htr)
    (insertionSortFunction_sortsConsistent α compare l hneg htr) ?_
  intro a ha b hb
  exact hanti a ((hs α compare l).mem_iff.mp ha) b ((hs α compare l).mem_iff.mp hb)

/-- C9, as stated, fails whatever the engine's sort does: the three items of `cycleItems`
compare in a cycle, so no rearrangement of them is in ascending position order. -/
theorem cycleItems_never_ordered :
    ¬ ∃ out : List Item, out.Perm cycleItems ∧
        out.Pairwise fun a b => comparePosition a b ≤ 0 :=
  fun ⟨out, hp, hpw⟩ => cycleItems_no_order out hp hpw

/-- C9, amended: whatever the engine's sort, `sortByPosition` returns a permutation of its
input, and so do the sort of the containers and the sort of each group of images. For an engine
that sorts consistent comparators, whenever the comparator is transitive on the elements of one
of these lists, the sort of that list is in ascending order: every earlier element compares
less than or equal to every later one. -/
theorem sortByPositionBy_ordered (sort : SortFunction) (hs : sort.Permutes)
    (getById : String → Except String (Option FrameData)) (images : List Item) :
    ((sortByPositionBy sort images).Perm images ∧
      (framesWithPositionBy sort getById images).Perm (resolvedFrames getById images) ∧
      ∀ k : Option String,
        (sortByPositionBy sort (images.filter fun i => decide (i.parentId = k))).Perm
          (images.filter fun i => decide (i.parentId = k))) ∧
    (sort.SortsConsistent →
      ((∀ a ∈ images, ∀ b ∈ images, ∀ c ∈ images,
          comparePosition a b ≤ 0 → comparePosition b c ≤ 0 → comparePosition a c ≤ 0) →
        (sortByPositionBy sort images).Pairwise fun a b => comparePosition a b ≤ 0) ∧
      ((∀ a ∈ resolvedFrames getById images, ∀ b ∈ resolvedFrames getById images,
          ∀ c ∈ resolvedFrames getById images,
          compareFrames a b ≤ 0 → compareFrames b c ≤ 0 → compareFrames a c ≤ 0) →
        (framesWithPositionBy sort getById images).Pairwise
          fun a b => compareFrames a b ≤ 0) ∧
      ∀ k : Option String,
        (∀ a ∈ images, ∀ b ∈ images, ∀ c ∈ images,
          a.parentId = k → b.parentId = k → c.parentId = k →
          comparePosition a b ≤ 0 → comparePosition b c ≤ 0 → comparePosition a c ≤ 0) →
        (sortByPositionBy sort (images.filter fun i => decide (i.parentId = k))).Pairwise
          fun a b => comparePosition a b ≤ 0) := by
  refine ⟨⟨hs _ _ _, hs _ _ _, fun _ => hs _ _ _⟩, fun hc => ⟨?_, ?_, ?_⟩⟩
  · intro htr
    exact hc Item comparePosition images (fun a _ b _ => comparePosition_swap a b) htr
  · intro htr
    exact hc FrameEntry compareFrames _ (fun a _ b _ => compareFrames_swap a b) htr
  · intro k htr
    refine hc Item comparePosition _ (fun a _ b _ => comparePosition_swap a b) ?_
    intro a ha b hb c hc
    simp only [List.mem_filter, decide_eq_true_eq] at ha hb hc
    exact htr a ha.1 b hb.1 c hc.1 ha.2 hb.2 hc.2

theorem sortByPositionBy_ordered_witness :
    (sortByPositionBy insertionSortFunction sampleImages).Perm sampleImages ∧
    (sortByPositionBy insertionSortFunction sampleImages).Pairwise
      (fun a b => comparePosition a b ≤ 0) ∧
    (framesWithPositionBy insertionSortFunction sampleBoard sampleImages).Pairwise
      (fun a b => compareFrames a b ≤ 0) :=
  let h := sortByPositionBy_ordered insertionSortFunction insertionSortFunction_permutes
    sampleBoard sampleImages
  ⟨h.1.1, (h.2 insertionSortFunction_sortsConsistent).1 (by decide),
    (h.2 insertionSortFunction_sortsConsistent).2.1 (by decide)⟩

theorem displayNameBy_spec_witness :
    mapGet (frameNames (framesWithPositionBy insertionSortFunction sampleBoard sampleImages))
        "F2" = some (displayName 1 ⟨"F2", none, 500, 0⟩) ∧
    (∀ e ∈ buildExportListBy insertionSortFunction sampleBoard sampleImages,
      e.image.parentId = some "F2" → e.folderName = displayName 1 ⟨"F2", none, 500, 0⟩) :=
  let h := displayNameBy_spec insertionSortFunction insertionSortFunction_permutes sampleBoard
    sampleImages 1 ⟨"F2", none, 500, 0⟩ (by decide)
  ⟨h.1, h.2.2.2⟩

/-! ## The run with any grouping -/

theorem runExport_eq_runExportBy (host : Host) (fuel : Nat) :
    runExport host fuel = runExportBy insertionSortFunction host fuel := rfl

theorem mapHas_eq_false_of_not_mem {κ ν : Type} [DecidableEq κ] (m : List (κ × ν)) (k : κ)
    (h : k ∉ mapKeys m) : mapHas m k = false := by
  unfold mapHas
  rw [List.any_eq_false]
  intro e he
  simp only [decide_eq_true_eq]
  intro hk
  exact h (by unfold mapKeys; rw [← hk]; exact List.mem_map_of_mem _ he)

theorem foldl_mapSet_of_nodup :
    ∀ (zip files : List (String × Blob)),
      (mapKeys files ++ zip.map Prod.fst).Nodup →
      zip.foldl (fun files call => mapSet files call.1 call.2) files = files ++ zip := by
  intro zip
  induction zip with
  | nil => intro files _; simp
  | cons c t ih =>
    intro files hnd
    have hc : c.1 ∉ mapKeys files := by
      intro hmem
      rw [List.nodup_append] at hnd
      exact hnd.2.2 hmem (by simp)
    rw [List.foldl_cons]
    have hset : mapSet files c.1 c.2 = files ++ [c] := by
      unfold mapSet
      rw [mapHas_eq_false_of_not_mem files c.1 hc]
      simp
    rw [hset, ih (files ++ [c]), List.append_assoc]
    · rfl
    · unfold mapKeys at hnd ⊢
      simpa [List.map_append, List.append_assoc] using hnd

/-- When no path is used twice, the files of the archive are the `zip.file` calls, in order. -/
theorem archiveFiles_of_nodup (zip : List (String × Blob)) (h : (zipPaths zip).Nodup) :
    archiveFiles zip = zip := by
  unfold archiveFiles
  rw [foldl_mapSet_of_nodup zip [] (by simpa [mapKeys, zipPaths] using h)]
  rfl

theorem runExportWith_of_completed (grouper : List Item → List Event × List ExportEntry)
    (host : Host) (fuel : Nat) (selection : List Item)
    (hsel : host.getSelection = .ok selection) (himg : imagesOf selection ≠ [])
    (hgen : host.generateError = none) (st' : RunState)
    (hloop : exportLoop host fuel (host.useNamesToggle.getD true)
      (grouper (imagesOf selection)).2.length 0 (grouper (imagesOf selection)).2
      { progress := [(0, "Getting selection…")] ++
          [(5, "Found " ++ toString (imagesOf selection).length ++
            " image(s). Resolving frames…")],
        trace := [Event.getSelection, Event.buildExportList (imagesOf selection)] ++
          (grouper (imagesOf selection)).1,
        zip := [], usedNamesByFolder := [] } = (st', LoopEnd.completed)) :
    (∃ message, (runExportWith grouper host fuel).outcome = Outcome.done message st'.zip) ∧
    (runExportWith grouper host fuel).trace = st'.trace ++ [Event.generateAsync] ∧
    (runExportWith grouper host fuel).zip = st'.zip := by
  have hne : ¬ (imagesOf selection).length = 0 := by
    rw [List.length_eq_zero]; exact himg
  unfold imagesOf at hloop hne
  unfold runExportWith
  simp only [hsel, hne, if_false, hloop, hgen]
  exact ⟨⟨_, rfl⟩, trivial, trivial⟩

theorem mem_buildExportListBy (sort : SortFunction) (hs : sort.Permutes)
    (getById : String → Except String (Option FrameData)) (images : List Item)
    (e : ExportEntry) (he : e ∈ buildExportListBy sort getById images) : e.image ∈ images := by
  rw [buildExportListBy_eq sort hs, List.mem_append] at he
  rcases he with he | he
  · have := (hs Item comparePosition _).mem_iff.mp (mem_folderEntries he).2
    exact List.mem_of_mem_filter this
  · rw [List.mem_flatMap] at he
    obtain ⟨p, -, hep⟩ := he
    have := (hs Item comparePosition _).mem_iff.mp (mem_folderEntries hep).2
    exact List.mem_of_mem_filter this

theorem displayName_ne_empty_of_resolved (getById : String → Except String (Option FrameData))
    (i : Nat) (f : FrameEntry) (hres : f = resolveFrame getById f.id) :
    displayName i f ≠ "" := by
  cases hn : f.name with
  | none =>
    have hd : displayName i f = "Frame " ++ toString (i + 1) := by simp [displayName, hn]
    rw [hd]
    intro heq
    have := congrArg String.length heq
    simp [String.length_append] at this
    exact absurd this.1 (by decide)
  | some n =>
    have hd : displayName i f = n := by simp [displayName, hn]
    rw [hres] at hn
    obtain ⟨t, rfl⟩ := resolveFrame_name_some getById f.id n hn
    rw [hd]
    exact safeName_ne_empty t

theorem flatMap_enumFrom_imagesBy (sort : SortFunction) (images : List Item)
    (fs : List FrameEntry) :
    ∀ n : Nat,
      ((fs.enumFrom n).flatMap fun p =>
        folderEntries (displayName p.1 p.2)
          (sortByPositionBy sort (images.filter fun i => decide (i.parentId = some p.2.id)))).map
        (fun e => e.image) =
      fs.flatMap fun f =>
        sortByPositionBy sort (images.filter fun i => decide (i.parentId = some f.id)) := by
  induction fs with
  | nil => intro n; rfl
  | cons f t ih =>
    intro n
    rw [List.enumFrom_cons, List.flatMap_cons, List.map_append, folderEntries_images,
      List.flatMap_cons, ih (n + 1)]

/-- The images of the plan, in plan order, with any sort function. -/
theorem buildExportListBy_images (sort : SortFunction) (hs : sort.Permutes)
    (getById : String → Except String (Option FrameData)) (images : List Item) :
    (buildExportListBy sort getById images).map (fun e => e.image) =
      sortByPositionBy sort (images.filter fun i => decide (i.parentId = none)) ++
        (framesWithPositionBy sort getById images).flatMap fun f =>
          sortByPositionBy sort (images.filter fun i => decide (i.parentId = some f.id)) := by
  rw [buildExportListBy_eq sort hs, List.map_append, folderEntries_images, List.enum,
    flatMap_enumFrom_imagesBy]

theorem buildExportListBy_numericPaths (sort : SortFunction) (hs : sort.Permutes)
    (getById : String → Except String (Option FrameData)) (images : List Item) :
    (buildExportListBy sort getById images).map
        (fun e => zipPathOf e.folderName (numericName e.indexInFolder ".png")) =
      ((List.range (images.filter fun i => decide (i.parentId = none)).length).map
        fun j => numericName (j + 1) ".png") ++
      (framesWithPositionBy sort getById images).enum.flatMap fun p =>
        (List.range (images.filter fun i => decide (i.parentId = some p.2.id)).length).map
          fun j => displayName p.1 p.2 ++ "/" ++ numericName (j + 1) ".png" := by
  rw [buildExportListBy_eq sort hs, List.map_append, map_paths_folderEntries, numericPaths_root,
    List.map_flatMap, List.flatMap_def, List.flatMap_def]
  unfold sortByPositionBy
  rw [(hs Item comparePosition _).length_eq]
  congr 2
  apply List.map_congr_left
  intro p hp
  have hget := getElem?_of_mem_enum hp
  rw [map_paths_folderEntries, (hs Item comparePosition _).length_eq,
    numericPaths_folder _ (displayName_ne_empty_of_resolved getById p.1 p.2
      (mem_framesWithPositionBy sort hs getById images p.2 (List.getElem?_mem hget)))]

/-! ## The archive in numeric naming mode -/

theorem eq_of_append_slash_append {d₁ d₂ n₁ n₂ : List Char} (h₁ : '/' ∉ n₁) (h₂ : '/' ∉ n₂)
    (h : d₁ ++ '/' :: n₁ = d₂ ++ '/' :: n₂) : d₁ = d₂ ∧ n₁ = n₂ := by
  have hr := congrArg List.reverse h
  simp only [List.reverse_append, List.reverse_cons, List.append_assoc, List.singleton_append]
    at hr
  have key : ∀ (a b : List Char) (x y : List Char), '/' ∉ a → '/' ∉ b →
      a ++ '/' :: x = b ++ '/' :: y → a = b ∧ x = y := by
    intro a
    induction a with
    | nil =>
      intro b x y _ hb hab
      cases b with
      | nil => simpa using hab
      | cons c t =>
        simp only [List.nil_append, List.cons_append, List.cons.injEq] at hab
        exact absurd (hab.1 ▸ List.mem_cons_self _ _) hb
    | cons c t ih =>
      intro b x y ha hb hab
      cases b with
      | nil =>
        simp only [List.nil_append, List.cons_append, List.cons.injEq] at hab
        exact absurd (hab.1 ▸ List.mem_cons_self _ _) ha
      | cons c' t' =>
        simp only [List.cons_append, List.cons.injEq] at hab
        obtain ⟨h1, h2⟩ := ih t' x y (fun hm => ha (List.mem_cons_of_mem _ hm))
          (fun hm => hb (List.mem_cons_of_mem _ hm)) hab.2
        exact ⟨by rw [hab.1, h1], h2⟩
  obtain ⟨hn, hd⟩ := key n₁.reverse n₂.reverse d₁.reverse d₂.reverse
    (by simpa using h₁) (by simpa using h₂) hr
  exact ⟨List.reverse_injective hd, List.reverse_injective hn⟩

theorem numericName_map_nodup (prefixText : String) (count : Nat) :
    ((List.range count).map fun j => prefixText ++ numericName (j + 1) ".png").Nodup := by
  refine (List.nodup_range count).map_on ?_
  intro i _ j _ h
  have h1 := congrArg String.data h
  simp only [String.data_append] at h1
  have h2 : numericName (i + 1) ".png" = numericName (j + 1) ".png" :=
    String.ext (List.append_cancel_left h1)
  exact Nat.succ_injective (numericName_injective h2)

/-- The paths of the numeric layout are pairwise distinct when the folder names are. -/
theorem numericLayout_nodup (rootCount : Nat) (blocks : List (String × Nat))
    (hnd : (blocks.map Prod.fst).Nodup) :
    (((List.range rootCount).map fun j => numericName (j + 1) ".png") ++
      blocks.flatMap fun b =>
        (List.range b.2).map fun j => b.1 ++ "/" ++ numericName (j + 1) ".png").Nodup := by
  have hslash : ∀ k, '/' ∉ (numericName k ".png").data :=
    fun k => slash_not_in_numericName k ".png" (by decide)
  rw [List.nodup_append]
  refine ⟨?_, ?_, ?_⟩
  · simpa using numericName_map_nodup "" rootCount
  · rw [List.nodup_flatMap]
    constructor
    · intro b _
      have := numericName_map_nodup (b.1 ++ "/") b.2
      simpa [String.append_assoc] using this
    · have hpw : blocks.Pairwise fun a b => a.1 ≠ b.1 := by
        have := List.pairwise_map.mp hnd
        exact this
      refine hpw.imp ?_
      intro a b hab
      intro p hpa hpb
      rw [List.mem_map] at hpa hpb
      obtain ⟨i, -, rfl⟩ := hpa
      obtain ⟨j, -, hj⟩ := hpb
      have h1 := congrArg String.data hj
      simp only [String.data_append] at h1
      have h2 : b.1.data ++ '/' :: (numericName (j + 1) ".png").data =
          a.1.data ++ '/' :: (numericName (i + 1) ".png").data := by
        simpa [List.append_assoc] using h1
      exact hab (String.ext (eq_of_append_slash_append (hslash _) (hslash _) h2).1).symm
  · intro p hroot hfolder
    rw [List.mem_map] at hroot
    obtain ⟨i, -, rfl⟩ := hroot
    rw [List.mem_flatMap] at hfolder
    obtain ⟨b, -, hb⟩ := hfolder
    rw [List.mem_map] at hb
    obtain ⟨j, -, hj⟩ := hb
    have h1 := congrArg String.data hj
    simp only [String.data_append] at h1
    apply hslash (i + 1)
    rw [← h1]
    simp

theorem flatMap_map_eq {α β γ : Type} (f : α → β) (g : β → List γ) (l : List α) :
    (l.map f).flatMap g = l.flatMap fun x => g (f x) := by
  induction l with
  | nil => rfl
  | cons a t ih => rw [List.map_cons, List.flatMap_cons, List.flatMap_cons, ih]

/-- The paths of the numeric layout of a plan are pairwise distinct when the display names of
the containers are. -/
theorem numericPaths_nodup_of_names (sort : SortFunction)
    (getById : String → Except String (Option FrameData)) (images : List Item)
    (hnames : ((framesWithPositionBy sort getById images).enum.map
      fun p => displayName p.1 p.2).Nodup) :
    (((List.range (images.filter fun i => decide (i.parentId = none)).length).map
        fun j => numericName (j + 1) ".png") ++
      (framesWithPositionBy sort getById images).enum.flatMap (fun p =>
        (List.range (images.filter fun i => decide (i.parentId = some p.2.id)).length).map
          fun j => displayName p.1 p.2 ++ "/" ++ numericName (j + 1) ".png")).Nodup := by
  have h := numericLayout_nodup (images.filter fun i => decide (i.parentId = none)).length
    ((framesWithPositionBy sort getById images).enum.map fun p =>
      (displayName p.1 p.2,
        (images.filter fun i => decide (i.parentId = some p.2.id)).length))
    (by rw [List.map_map]; exact hnames)
  rw [flatMap_map_eq] at h
  exact h

/-- C16, as stated, fails: in the run of `mergeHost` the two containers get the same display
name, both images are put into the archive under the path `Q1_Q2/image-001.png`, and the archive
holds one file, the second image, where the claim lists two entries. -/
theorem numeric_archive_merge_loses_file :
    zipPaths (runExport mergeHost 0).zip = ["Q1_Q2/image-001.png", "Q1_Q2/image-001.png"] ∧
    archiveFiles (runExport mergeHost 0).zip =
      [("Q1_Q2/image-001.png", ⟨"image/png", "i2"⟩)] ∧
    (∃ message, (runExport mergeHost 0).outcome =
      Outcome.done message (runExport mergeHost 0).zip) := by
  refine ⟨by decide, by decide, _, rfl⟩

/-- C16, amended: whatever rearrangement the engine's sort returns, in a run in which the
content of every entry resolves with the type `image/png`, and the title toggle is off or no
image has a non-blank title, the `zip.file` calls are made, in this order, with the paths
`image-001.png`, `image-002.png`, ... for the images without a parent, then for each container
in the order of the sorted container list with its display name, a `/` and `image-001.png`,
`image-002.png`, ...; the blobs are those of the images in sorted order within each folder; the
run ends successfully; and when these paths are pairwise distinct, as they are when the display
names of the containers are pairwise distinct, the files of the archive are exactly these, in
this order. -/
theorem numeric_archive (sort : SortFunction) (hs : sort.Permutes) (host : Host) (fuel : Nat)
    (selection : List Item)
    (hsel : host.getSelection = .ok selection)
    (himg : ∃ item ∈ selection, item.type = "image")
    (hres : ∀ e ∈ buildExportListBy sort host.getById (imagesOf selection),
      ∃ blob, (resolveBlob host e.image).2 = .ok blob ∧ blob.type = "image/png")
    (hnum : host.useNamesToggle = some false ∨
      ∀ img ∈ imagesOf selection, ∀ t, img.title = some t → jsTrim t = "")
    (hlower : toLowerCase host.caseMapping "png" = "png")
    (hgen : host.generateError = none) :
    zipPaths (runExportBy sort host fuel).zip =
      ((List.range ((imagesOf selection).filter fun i => decide (i.parentId = none)).length).map
        fun j => numericName (j + 1) ".png") ++
      (framesWithPositionBy sort host.getById (imagesOf selection)).enum.flatMap (fun p =>
        (List.range
          ((imagesOf selection).filter fun i => decide (i.parentId = some p.2.id)).length).map
          fun j => displayName p.1 p.2 ++ "/" ++ numericName (j + 1) ".png") ∧
    (runExportBy sort host fuel).zip.map Prod.snd =
      (sortByPositionBy sort ((imagesOf selection).filter fun i => decide (i.parentId = none)) ++
        (framesWithPositionBy sort host.getById (imagesOf selection)).flatMap fun f =>
          sortByPositionBy sort
            ((imagesOf selection).filter fun i => decide (i.parentId = some f.id))).filterMap
        (resolvedBlob host) ∧
    (∃ message, (runExportBy sort host fuel).outcome =
      Outcome.done message (runExportBy sort host fuel).zip) ∧
    ((zipPaths (runExportBy sort host fuel).zip).Nodup →
      archiveFiles (runExportBy sort host fuel).zip = (runExportBy sort host fuel).zip) ∧
    (((framesWithPositionBy sort host.getById (imagesOf selection)).enum.map
        fun p => displayName p.1 p.2).Nodup →
      archiveFiles (runExportBy sort host fuel).zip = (runExportBy sort host fuel).zip) := by
  have hne := imagesOf_ne_nil himg
  have hnum' : ∀ e ∈ buildExportListBy sort host.getById (imagesOf selection),
      host.useNamesToggle.getD true = false ∨ ∀ t, e.image.title = some t → jsTrim t = "" := by
    intro e he
    rcases hnum with h | h
    · left; rw [h]; rfl
    · right
      exact h e.image (mem_buildExportListBy sort hs host.getById (imagesOf selection) e he)
  obtain ⟨st', hloop, hpaths, hblobs⟩ := exportLoop_numeric host fuel
    (host.useNamesToggle.getD true)
    (buildExportListBy sort host.getById (imagesOf selection)).length
    hlower (buildExportListBy sort host.getById (imagesOf selection)) 0
    { progress := [(0, "Getting selection…")] ++
        [(5, "Found " ++ toString (imagesOf selection).length ++
          " image(s). Resolving frames…")],
      trace := [Event.getSelection, Event.buildExportList (imagesOf selection)] ++
        (groupingBy sort host (imagesOf selection)).1,
      zip := [], usedNamesByFolder := [] } hres hnum'
  obtain ⟨⟨message, hout⟩, -, hzip⟩ := runExportWith_of_completed (groupingBy sort host) host
    fuel selection hsel hne hgen st' hloop
  have hP : zipPaths st'.zip =
      ((List.range ((imagesOf selection).filter fun i => decide (i.parentId = none)).length).map
        fun j => numericName (j + 1) ".png") ++
      (framesWithPositionBy sort host.getById (imagesOf selection)).enum.flatMap (fun p =>
        (List.range
          ((imagesOf selection).filter fun i => decide (i.parentId = some p.2.id)).length).map
          fun j => displayName p.1 p.2 ++ "/" ++ numericName (j + 1) ".png") := by
    rw [hpaths, buildExportListBy_numericPaths sort hs]
    simp [zipPaths]
  unfold runExportBy
  rw [hzip]
  refine ⟨hP, ?_, ⟨message, hout⟩, archiveFiles_of_nodup _, ?_⟩
  · rw [hblobs, ← buildExportListBy_images sort hs, List.filterMap_map]
    simp
    rfl
  · intro hnames
    refine archiveFiles_of_nodup _ ?_
    rw [hP]
    exact numericPaths_nodup_of_names sort host.getById (imagesOf selection) hnames

theorem numeric_archive_witness :
    zipPaths (runExportBy insertionSortFunction scenarioHost 0).zip =
      ["image-001.png", "Sprint Plan/image-001.png", "Sprint Plan/image-002.png"] ∧
    (runExportBy insertionSortFunction scenarioHost 0).zip.map Prod.snd =
      [⟨"image/png", "free"⟩, ⟨"image/png", "left"⟩, ⟨"image/png", "right"⟩] ∧
    (∃ message, (runExportBy insertionSortFunction scenarioHost 0).outcome =
      Outcome.done message (runExportBy insertionSortFunction scenarioHost 0).zip) ∧
    archiveFiles (runExportBy insertionSortFunction scenarioHost 0).zip =
      [ ("image-001.png", ⟨"image/png", "free"⟩),
        ("Sprint Plan/image-001.png", ⟨"image/png", "left"⟩),
        ("Sprint Plan/image-002.png", ⟨"image/png", "right"⟩) ] :=
  let h := numeric_archive insertionSortFunction insertionSortFunction_permutes scenarioHost 0
    scenarioImages rfl ⟨⟨"free", "image", none, none, some 50, some 100⟩, by decide, rfl⟩
    (fun e _ => ⟨⟨"image/png", e.image.id⟩, rfl, rfl⟩) (Or.inl rfl) (by decide) rfl
  ⟨h.1, h.2.1, h.2.2.1, (h.2.2.2.2 (by decide)).trans (by decide)⟩

/-! ## What the run does with the selection -/

/-- The loop resolves the entries in order and stops at the first one that fails: the calls it
adds are those of the first `m` entries, and all of them when it completes; the reports it adds
follow those made before. -/
theorem exportLoop_calls (host : Host) (fuel : Nat) (useImageNames : Bool) (total : Nat) :
    ∀ (entries : List ExportEntry) (i : Nat) (st : RunState),
      ∃ m, m ≤ entries.length ∧
        (exportLoop host fuel useImageNames total i entries st).1.trace =
          st.trace ++ (entries.take m).flatMap (fun p => (resolveBlob host p.image).1) ∧
        ((exportLoop host fuel useImageNames total i entries st).2 = LoopEnd.completed →
          m = entries.length) ∧
        ∃ added, (exportLoop host fuel useImageNames total i entries st).1.progress =
          st.progress ++ added := by
  intro entries
  induction entries with
  | nil =>
    intro i st
    exact ⟨0, le_refl _, by simp [exportLoop], fun _ => rfl, [], by simp [exportLoop]⟩
  | cons entry rest ih =>
    intro i st
    rcases hres : resolveBlob host entry.image with ⟨calls, result⟩
    cases result with
    | error message =>
      refine ⟨1, by simp, ?_, ?_, [], ?_⟩
      · simp [exportLoop, hres]
      · intro h
        simp [exportLoop, hres] at h
      · simp [exportLoop, hres]
    | ok blob =>
      cases hname : chooseFileName host.caseMapping fuel useImageNames st.usedNamesByFolder
          entry.folderName entry.image (extensionOfBlob host.caseMapping blob)
          entry.indexInFolder with
      | none =>
        refine ⟨1, by simp, ?_, ?_, [], ?_⟩
        · simp [exportLoop, hres, hname]
        · intro h
          simp [exportLoop, hres, hname] at h
        · simp [exportLoop, hres, hname]
      | some r =>
        obtain ⟨fileName, table⟩ := r
        obtain ⟨m, hm, htr, hcomp, added, hadd⟩ := ih (i + 1)
          { progress := st.progress ++
              [(progressAfter i total,
                "Exporting " ++ toString (i + 1) ++ " / " ++ toString total ++ "…")],
            trace := st.trace ++ calls,
            zip := st.zip ++ [(zipPathOf entry.folderName fileName, blob)],
            usedNamesByFolder := table }
        refine ⟨m + 1, by simpa using hm, ?_, ?_,
          (progressAfter i total,
            "Exporting " ++ toString (i + 1) ++ " / " ++ toString total ++ "…") :: added, ?_⟩
        · simp only [exportLoop, hres, hname]
          rw [htr, List.take_succ_cons, List.flatMap_cons, hres, List.append_assoc]
        · intro h
          simp only [exportLoop, hres, hname] at h
          rw [hcomp h, List.length_cons]
        · simp only [exportLoop, hres, hname]
          rw [hadd, List.append_assoc]
          rfl


theorem getFile_mem_resolveBlob {host : Host} {image img : Item}
    (h : Event.getFile img ∈ (resolveBlob host image).1) : img = image := by
  unfold resolveBlob at h
  split at h
  · simpa using h
  · split at h
    · simpa using h
    · split at h <;> simpa using h

theorem getById_not_mem_resolveBlob (host : Host) (image : Item) (id : String) :
    Event.getById id ∉ (resolveBlob host image).1 := by
  unfold resolveBlob
  split
  · simp
  · split
    · simp
    · split <;> simp

/-- A run on a selection with an image: the calls are `getSelection`, the grouping of the image
items with its board calls, the content calls of the first `m` entries of the export list, and
`generateAsync` when the loop completes; the first two reports are the start and the number of
image items. -/
theorem runExportWith_of_images (grouper : List Item → List Event × List ExportEntry)
    (host : Host) (fuel : Nat) (selection : List Item)
    (hsel : host.getSelection = .ok selection) (himg : imagesOf selection ≠ []) :
    (∀ message, (runExportWith grouper host fuel).outcome ≠ Outcome.noImages message) ∧
    (∃ m tail, m ≤ (grouper (imagesOf selection)).2.length ∧
      (runExportWith grouper host fuel).trace =
        [Event.getSelection, Event.buildExportList (imagesOf selection)] ++
          (grouper (imagesOf selection)).1 ++
          ((grouper (imagesOf selection)).2.take m).flatMap
            (fun p => (resolveBlob host p.image).1) ++ tail ∧
      (tail = [] ∨ tail = [Event.generateAsync]) ∧
      (∀ message zipBlob, (runExportWith grouper host fuel).outcome =
          Outcome.done message zipBlob →
        m = (grouper (imagesOf selection)).2.length ∧ tail = [Event.generateAsync])) ∧
    ∃ added, (runExportWith grouper host fuel).progress =
      [(0, "Getting selection…"),
        (5, "Found " ++ toString (imagesOf selection).length ++
          " image(s). Resolving frames…")] ++ added := by
  have hne : ¬ (imagesOf selection).length = 0 := by
    rw [List.length_eq_zero]; exact himg
  obtain ⟨m, hm, htr, hcomp, added, hadd⟩ := exportLoop_calls host fuel
    (host.useNamesToggle.getD true) (grouper (imagesOf selection)).2.length
    (grouper (imagesOf selection)).2 0
    { progress := [(0, "Getting selection…")] ++
        [(5, "Found " ++ toString (imagesOf selection).length ++
          " image(s). Resolving frames…")],
      trace := [Event.getSelection, Event.buildExportList (imagesOf selection)] ++
        (grouper (imagesOf selection)).1,
      zip := [], usedNamesByFolder := [] }
  unfold imagesOf at hne htr hcomp hadd hm ⊢
  unfold runExportWith
  simp only [hsel, hne, if_false]
  rcases hloop : exportLoop host fuel (host.useNamesToggle.getD true)
    (grouper (selection.filter fun item => decide (item.type = "image"))).2.length 0
    (grouper (selection.filter fun item => decide (item.type = "image"))).2
    { progress := [(0, "Getting selection…")] ++
        [(5, "Found " ++
          toString (selection.filter fun item => decide (item.type = "image")).length ++
          " image(s). Resolving frames…")],
      trace := [Event.getSelection,
          Event.buildExportList (selection.filter fun item => decide (item.type = "image"))] ++
        (grouper (selection.filter fun item => decide (item.type = "image"))).1,
      zip := [], usedNamesByFolder := [] } with ⟨st', loopEnd⟩
  rw [hloop] at htr hcomp hadd
  simp only at htr hcomp hadd
  cases loopEnd with
  | thrown message =>
    refine ⟨fun _ h => (by cases h), ⟨m, [], hm, ?_, Or.inl rfl, fun _ _ h => (by cases h)⟩,
      added, ?_⟩
    · simp only [htr, List.append_nil]
    · simp only [hadd]
      rfl
  | bound =>
    refine ⟨fun _ h => (by cases h), ⟨m, [], hm, ?_, Or.inl rfl, fun _ _ h => (by cases h)⟩,
      added, ?_⟩
    · simp only [htr, List.append_nil]
    · simp only [hadd]
      rfl
  | completed =>
    cases hgen : host.generateError with
    | some message =>
      refine ⟨fun _ h => (by cases h),
        ⟨m, [Event.generateAsync], hm, ?_, Or.inr rfl, fun _ _ h => (by cases h)⟩,
        added ++ [(95, "Creating ZIP…")], ?_⟩
      · simp only [htr]
      · simp only [hadd, List.append_assoc]
        rfl
    | none =>
      refine ⟨fun _ h => (by cases h),
        ⟨m, [Event.generateAsync], hm, ?_, Or.inr rfl, fun _ _ _ => ⟨hcomp rfl, rfl⟩⟩,
        added ++ [(95, "Creating ZIP…"), (100, "Done. " ++
          toString (grouper (selection.filter fun item =>
            decide (item.type = "image"))).2.length ++ " image(s) in ZIP.")], ?_⟩
      · simp only [htr]
      · simp only [hadd, List.append_assoc]
        rfl

theorem imagesOf_imagesOf (selection : List Item) :
    imagesOf (imagesOf selection) = imagesOf selection := by
  unfold imagesOf
  rw [List.filter_filter]
  simp

/-- The run reads the grouping only at the image items of the selection. -/
theorem runExportWith_congr (g₁ g₂ : List Item → List Event × List ExportEntry) (host : Host)
    (fuel : Nat)
    (h : ∀ selection, host.getSelection = .ok selection →
      g₁ (imagesOf selection) = g₂ (imagesOf selection)) :
    runExportWith g₁ host fuel = runExportWith g₂ host fuel := by
  unfold runExportWith
  cases hsel : host.getSelection with
  | error message => rfl
  | ok selection =>
    have := h selection hsel
    unfold imagesOf at this
    simp only [this]

theorem resolveBlob_withSelection (host : Host) (selection : List Item) (image : Item) :
    resolveBlob (host.withSelection selection) image = resolveBlob host image := rfl

theorem caseMapping_withSelection (host : Host) (selection : List Item) :
    (host.withSelection selection).caseMapping = host.caseMapping := rfl

theorem exportLoop_withSelection (host : Host) (selection : List Item) (fuel : Nat)
    (useImageNames : Bool) (total : Nat) :
    ∀ (entries : List ExportEntry) (i : Nat) (st : RunState),
      exportLoop (host.withSelection selection) fuel useImageNames total i entries st =
        exportLoop host fuel useImageNames total i entries st := by
  intro entries
  induction entries with
  | nil => intro i st; rfl
  | cons entry rest ih =>
    intro i st
    simp only [exportLoop, resolveBlob_withSelection, caseMapping_withSelection, ih]

/-- The run is the same when the items that are not images are taken out of the selection. -/
theorem runExportBy_withSelection (sort : SortFunction) (host : Host) (fuel : Nat)
    (selection : List Item) (hsel : host.getSelection = .ok selection) :
    runExportBy sort (host.withSelection (imagesOf selection)) fuel =
      runExportBy sort host fuel := by
  have h := imagesOf_imagesOf selection
  unfold imagesOf at h
  unfold runExportBy runExportWith imagesOf
  have hsel' : (host.withSelection (selection.filter fun item =>
      decide (item.type = "image"))).getSelection =
      .ok (selection.filter fun item => decide (item.type = "image")) := rfl
  simp only [hsel, hsel', h, exportLoop_withSelection]
  rfl

/-- C13: when the selection holds no item of type `image`, the run ends with the no-images
message after the single call `getSelection`: no container is resolved, no content is fetched,
nothing is put into an archive and only the percentage 0 is reported. When the selection holds
an image, the grouping is applied to exactly the items of type `image`, in selection order: the
run is the same for every grouping that agrees on that list, the number reported as found is
the number of these items, the containers looked up are the non-empty parent ids of these items,
the content fetched is that of a first part of the export list made from them (all of it when
the run succeeds), and every item whose file is requested is an image item of the selection. -/
theorem selection_grouping (sort : SortFunction) (hs : sort.Permutes) (host : Host) (fuel : Nat)
    (selection : List Item) (hsel : host.getSelection = .ok selection) :
    ((∀ item ∈ selection, item.type ≠ "image") →
      (runExportBy sort host fuel).outcome = Outcome.noImages noImagesMessage ∧
      (runExportBy sort host fuel).trace = [Event.getSelection] ∧
      (runExportBy sort host fuel).zip = [] ∧
      (runExportBy sort host fuel).progress = [(0, "Getting selection…")]) ∧
    ((∃ item ∈ selection, item.type = "image") →
      (∀ message, (runExportBy sort host fuel).outcome ≠ Outcome.noImages message) ∧
      (∀ grouper : List Item → List Event × List ExportEntry,
        grouper (imagesOf selection) = groupingBy sort host (imagesOf selection) →
        runExportWith grouper host fuel = runExportBy sort host fuel) ∧
      (∃ m tail, m ≤ (buildExportListBy sort host.getById (imagesOf selection)).length ∧
        (runExportBy sort host fuel).trace =
          [Event.getSelection, Event.buildExportList (imagesOf selection)] ++
            (truthyKeys (mapKeys (groupByParent (imagesOf selection)))).map Event.getById ++
            ((buildExportListBy sort host.getById (imagesOf selection)).take m).flatMap
              (fun p => (resolveBlob host p.image).1) ++ tail ∧
        (tail = [] ∨ tail = [Event.generateAsync]) ∧
        (∀ message zipBlob, (runExportBy sort host fuel).outcome =
            Outcome.done message zipBlob →
          m = (buildExportListBy sort host.getById (imagesOf selection)).length ∧
          tail = [Event.generateAsync])) ∧
      (∃ added, (runExportBy sort host fuel).progress =
        [(0, "Getting selection…"),
          (5, "Found " ++ toString (imagesOf selection).length ++
            " image(s). Resolving frames…")] ++ added) ∧
      (∀ img, Event.getFile img ∈ (runExportBy sort host fuel).trace →
        img ∈ selection ∧ img.type = "image") ∧
      (∀ id, Event.getById id ∈ (runExportBy sort host fuel).trace ↔
        id ≠ "" ∧ ∃ img ∈ selection, img.type = "image" ∧ img.parentId = some id)) ∧
    runExportBy sort (host.withSelection (imagesOf selection)) fuel =
      runExportBy sort host fuel := by
  refine ⟨?_, ?_, runExportBy_withSelection sort host fuel selection hsel⟩
  · intro hnone
    have hfilter : (selection.filter fun item => decide (item.type = "image")) = [] := by
      rw [List.filter_eq_nil_iff]
      intro item hitem
      simpa using hnone item hitem
    unfold runExportBy runExportWith
    simp only [hsel, hfilter, List.length_nil, if_true]
    exact ⟨trivial, trivial, trivial, trivial⟩
  · intro himg
    have hne := imagesOf_ne_nil himg
    obtain ⟨hno, ⟨m, tail, hm, htr, htail, hdone⟩, hprog⟩ :=
      runExportWith_of_images (groupingBy sort host) host fuel selection hsel hne
    refine ⟨hno, ?_, ⟨m, tail, hm, htr, htail, hdone⟩, hprog, ?_, ?_⟩
    · intro grouper hg
      refine runExportWith_congr grouper (groupingBy sort host) host fuel ?_
      intro sel hsel'
      rw [hsel] at hsel'
      cases hsel'
      exact hg
    · intro img hmem
      unfold runExportBy at hmem
      rw [htr] at hmem
      simp only [groupingBy, List.mem_append, List.mem_cons, List.mem_map, List.mem_flatMap,
        List.not_mem_nil, or_false, reduceCtorEq, false_or, and_false, exists_false] at hmem
      rcases hmem with ⟨p, hp, hcall⟩ | hmem
      · have hpi := getFile_mem_resolveBlob hcall
        have hin := mem_buildExportListBy sort hs host.getById (imagesOf selection) p
          (List.mem_of_mem_take hp)
        rw [← hpi] at hin
        unfold imagesOf at hin
        rw [List.mem_filter, decide_eq_true_eq] at hin
        exact hin
      · rcases htail with h | h
        · rw [h] at hmem; cases hmem
        · rw [h] at hmem; simp at hmem
    · intro id
      unfold runExportBy
      rw [htr]
      have hkeys : id ∈ truthyKeys (mapKeys (groupByParent (imagesOf selection))) ↔
          id ≠ "" ∧ ∃ img ∈ selection, img.type = "image" ∧ img.parentId = some id := by
        rw [mem_truthyKeys, groupByParent_mem_keys]
        unfold imagesOf
        simp only [List.mem_filter, decide_eq_true_eq, reduceCtorEq, false_or]
        constructor
        · rintro ⟨⟨img, ⟨h1, h2⟩, h3⟩, hne'⟩
          exact ⟨hne', img, h1, h2, h3⟩
        · rintro ⟨hne', img, h1, h2, h3⟩
          exact ⟨⟨img, ⟨h1, h2⟩, h3⟩, hne'⟩
      rw [← hkeys]
      simp only [groupingBy, List.mem_append, List.mem_cons, List.mem_map, List.mem_flatMap,
        List.not_mem_nil, or_false, reduceCtorEq, false_or, Event.getById.injEq,
        exists_eq_right]
      constructor
      · rintro ((h | ⟨p, -, hcall⟩) | h)
        · exact h
        · exact absurd hcall (getById_not_mem_resolveBlob host p.image id)
        · rcases htail with ht | ht
          · rw [ht] at h; cases h
          · rw [ht] at h; simp at h
      · intro h
        exact Or.inl (Or.inl h)

theorem selection_grouping_witness :
    ((runExportBy insertionSortFunction noImageHost 0).outcome =
        Outcome.noImages noImagesMessage ∧
      (runExportBy insertionSortFunction noImageHost 0).trace = [Event.getSelection]) ∧
    ((∀ message, (runExportBy insertionSortFunction sampleHost 0).outcome ≠
        Outcome.noImages message) ∧
      ∀ img, Event.getFile img ∈ (runExportBy insertionSortFunction sampleHost 0).trace →
        img ∈ sampleImages ++ [⟨"s1", "sticky_note", none, none, none, none⟩] ∧
          img.type = "image") :=
  And.intro
    (let h := (selection_grouping insertionSortFunction insertionSortFunction_permutes
      noImageHost 0 _ rfl).1 (by decide)
    ⟨h.1, h.2.1⟩)
    (let h := (selection_grouping insertionSortFunction insertionSortFunction_permutes
      sampleHost 0 _ rfl).2.1 (by decide)
    ⟨h.1, h.2.2.2.2.1⟩)

end BulkImageExport
